import Mathlib

/-!
# A chunked double-ended queue (`deque.h`)

Shallow embedding of `BaseDeque<T>::ChunkArray`, `BaseDeque<T>`, `Deque<T>` and
`Deque<T>::BaseIterator`.

Memory is modelled explicitly.

* An element pointer `T*` is a `Ptr`: the block it points into and a signed element
  offset inside that block.  Two pointers are equal when block and offset agree.
* A pointer into the handle array (`T**`) is a signed index relative to `arr.begin`;
  the handle array itself is a function from such indices to `Handle`s, and
  `arr.begin` is index `0`.
* The heap records, per allocated block, its capacity in elements and the content of
  each slot: `none` is raw storage, `some x` a constructed element of value `x`.
* Everything that can throw in the source is steered by an `Env`: which allocations
  succeed, which element copies, assignments and default constructions complete.
* A `const T&` parameter that a member reads before it writes any element is passed as
  the value it reads; the one that is read after elements have been written, the
  argument of `insert`, is a `Ref`, which may be bound to a slot of the heap.

Operations that throw after having modified the object return `Res.threw` together
with the state they leave behind.
-/

/-- Number of element slots of a chunk (`chunk_size = 1 << 5`). -/
abbrev chunk_size : Nat := 32

/-- Signed twin of `chunk_size` (`ptr_chunk_size = 1 << 5`). -/
abbrev ptr_chunk_size : Int := 32

/-- Width of `size_t`. -/
abbrev size_t_mod : Nat := 2 ^ 64

/-- The value of one slot of the handle array (`T*` stored in a `T*[]`). -/
inductive Handle where
  /-- The value `nullptr`. -/
  | null
  /-- The indeterminate value of a slot of `new T*[n]` that was never assigned. -/
  | wild
  /-- The address of the first slot of block `b`. -/
  | blk (b : Nat)
deriving DecidableEq, Repr

/-- An element pointer `T*`: `base + off`. -/
structure Ptr where
  base : Handle
  off : Int
deriving DecidableEq, Repr

/-- The exceptions of the source. -/
inductive Err where
  /-- Thrown by `new`: `std::bad_alloc`. -/
  | bad_alloc
  /-- Thrown by `at`: `std::out_of_range`. -/
  | out_of_range
  /-- Thrown by a constructor or an assignment of the element type. -/
  | elem_throw
  /-- A loop of the model ran out of fuel. -/
  | fuel
  /-- A value was read from a slot holding no element (undefined in the source). -/
  | raw_read
deriving DecidableEq, Repr

/-- Outcome of an operation that may throw after having changed the state: either the
result, or the exception together with the state left behind. -/
inductive Res (σ β : Type) where
  | ok (val : β)
  | threw (e : Err) (st : σ)

/-- What the surroundings of the container decide: the allocator and the element type. -/
structure Env (α : Type) where
  /-- Whether the allocation with sequence number `k` succeeds. -/
  alloc_ok : Nat → Bool
  /-- Address (in units of `sizeof(T)`) at which the allocator places block `k`. -/
  addr : Nat → Int
  /-- Whether `T(const T&)` from this value completes. -/
  copy_ok : α → Bool
  /-- Whether `operator=(const T&)` from this value completes. -/
  assign_ok : α → Bool
  /-- The value built by `T()`. -/
  dflt : α
  /-- Whether the `k`-th call of `T()` in a bulk construction completes. -/
  dflt_ok : Nat → Bool

/-- The heap: blocks are numbered in allocation order. -/
structure Heap (α : Type) where
  /-- Sequence number of the next allocation. -/
  next : Nat
  /-- Capacity, in elements, of each block. -/
  cap : Nat → Nat
  /-- Content of slot `off` of block `b`. -/
  mem : Nat → Int → Option α
  /-- Arguments of the `delete[]` calls so far, latest first. -/
  freed : List Handle
  /-- Slots whose destructor ran so far, latest first. -/
  destroyed : List Ptr

/-- What a `const T&` parameter is bound to: an object of the caller outside the blocks
of the heap, holding `v`, or the slot `p` of a block, whose content changes with the
heap. -/
inductive Ref (α : Type) where
  | obj (v : α)
  | slot (p : Ptr)

namespace Handle

/-- The pointer `h + k`. -/
def plus (h : Handle) (k : Int) : Ptr := ⟨h, k⟩

/-- The test `!h`. -/
def is_null (h : Handle) : Bool :=
  match h with
  | null => true
  | _ => false

end Handle

namespace Ptr

/-- Pointer arithmetic `p + k`. -/
def add (p : Ptr) (k : Int) : Ptr := ⟨p.base, p.off + k⟩

/-- Pointer difference `p - q` (both in the same block). -/
def diff (p q : Ptr) : Int := p.off - q.off

/-- Numeric address of a pointer under the placement chosen by the allocator. -/
def address (E : Env α) (p : Ptr) : Int :=
  match p.base with
  | .blk b => E.addr b + p.off
  | _ => p.off

/-- The relational comparison `p < q` of two element pointers. -/
def lt (E : Env α) (p q : Ptr) : Bool := decide (p.address E < q.address E)

end Ptr

namespace Heap

/-- The expression `new int8_t[n * sizeof(T)]`: a fresh block of `n` raw slots. -/
def alloc (E : Env α) (h : Heap α) (n : Nat) : Except Err (Handle × Heap α) :=
  if E.alloc_ok h.next then
    .ok (.blk h.next,
      { h with
        next := h.next + 1
        cap := fun b => if b = h.next then n else h.cap b
        mem := fun b o => if b = h.next then none else h.mem b o })
  else .error .bad_alloc

/-- The expression `new T*[n]`: returns the sequence number of the new handle array. -/
def alloc_handles (E : Env α) (h : Heap α) : Except Err (Nat × Heap α) :=
  if E.alloc_ok h.next then .ok (h.next, { h with next := h.next + 1 })
  else .error .bad_alloc

/-- The statement `delete[] p`. -/
def free (h : Heap α) (p : Handle) : Heap α :=
  { h with freed := p :: h.freed }

/-- Reading `*p`. -/
def read (h : Heap α) (p : Ptr) : Option α :=
  match p.base with
  | .blk b => h.mem b p.off
  | _ => none

/-- Storing a constructed element at `p`. -/
def store (h : Heap α) (p : Ptr) (v : α) : Heap α :=
  match p.base with
  | .blk b => { h with mem := fun b' o => if b' = b ∧ o = p.off then some v else h.mem b' o }
  | _ => h

/-- Placement construction `new(p) T(v)`; throws, leaving the slot raw, when the copy
does. -/
def construct (E : Env α) (h : Heap α) (p : Ptr) (v : α) : Except Err (Heap α) :=
  if E.copy_ok v then .ok (h.store p v) else .error .elem_throw

/-- The assignment `*p = v`; throws, leaving the target as it was, when the
assignment does. -/
def assign (E : Env α) (h : Heap α) (p : Ptr) (v : α) : Except Err (Heap α) :=
  if E.assign_ok v then .ok (h.store p v) else .error .elem_throw

/-- Reading through a reference: the value of the object it is bound to at this
moment. -/
def deref (h : Heap α) (r : Ref α) : Option α :=
  match r with
  | .obj v => some v
  | .slot p => h.read p

/-- The destructor call `p->~T()`: the slot becomes raw storage again. -/
def destroy (h : Heap α) (p : Ptr) : Heap α :=
  match p.base with
  | .blk b =>
    { h with
      mem := fun b' o => if b' = b ∧ o = p.off then none else h.mem b' o
      destroyed := p :: h.destroyed }
  | _ => { h with destroyed := p :: h.destroyed }

end Heap

/-- The handle array with its four cursors (`BaseDeque<T>::ChunkArray`).  All four
`T**` members are indices relative to `begin`. -/
structure ChunkArray where
  /-- Sequence number of the allocation `begin` points to. -/
  store : Nat
  /-- The handle stored at each index. -/
  slots : Int → Handle
  /-- Index of the last slot, which holds the one-element block. -/
  end_ : Int
  cur_begin : Int
  cur_end : Int

namespace ChunkArray

/-- The member `begin`, as an index. -/
abbrev begin (_a : ChunkArray) : Int := 0

/-- Writing `begin[i] = p`. -/
def set_slot (s : Int → Handle) (i : Int) (p : Handle) : Int → Handle :=
  fun k => if k = i then p else s k

/-- The call `std::swap(begin[i], begin[j])`. -/
def swap_slots (s : Int → Handle) (i j : Int) : Int → Handle :=
  set_slot (set_slot s i (s j)) j (s i)

/-- The loop `for (; ind < sz; ++ind) begin[ind] = new int8_t[chunk_size * sizeof(T)]`
of the constructor.  The flag tells whether the loop completed without a throw. -/
def alloc_chunks (E : Env α) (sz : Nat) :
    Nat → Nat → (Int → Handle) → Heap α → Bool × Nat × (Int → Handle) × Heap α
  | 0, ind, s, h => (true, ind, s, h)
  | fuel + 1, ind, s, h =>
    if ind < sz then
      match h.alloc E chunk_size with
      | .ok (p, h1) => alloc_chunks E sz fuel (ind + 1) (set_slot s ind p) h1
      | .error _ => (false, ind, s, h)
    else (true, ind, s, h)

/-- The loop `for (j = 0; j < ind; ++j) delete[] begin[j]` of the handler. -/
def free_chunks (s : Int → Handle) (ind : Nat) : Nat → Nat → Heap α → Heap α
  | 0, _, h => h
  | fuel + 1, j, h =>
    if j < ind then free_chunks s ind fuel (j + 1) (h.free (s j)) else h

end ChunkArray

namespace Deque

/-- The destructor `~ChunkArray`: `delete[]` every handle from `begin` to `end`, then
the handle array. -/
def ChunkArray_dtor (a : ChunkArray) (h : Heap α) : Heap α :=
  ((List.range (a.end_ - a.begin + 1).toNat).foldl
    (fun h1 i => h1.free (a.slots (a.begin + (i : Int)))) h).free (.blk a.store)

end Deque

namespace ChunkArray

/-- The constructor `ChunkArray(size_t elems_count)`, delegating to the private
two-argument one.  When `new T*[chunks_count + 1]` throws no object exists yet and the
exception leaves at once.  An exception that leaves the body goes through the handler
and then, the delegated-to constructor having completed, through the destructor
`~ChunkArray`, which reads the handles of the array the handler has released. -/
def ctor (E : Env α) (h : Heap α) (elems_count : Nat) :
    Res (Heap α) (ChunkArray × Heap α) :=
  let chunks_count := (elems_count + chunk_size - 1) % size_t_mod / chunk_size
  match h.alloc_handles E with
  | .error e => .threw e h
  | .ok (st, h0) =>
    let a : ChunkArray :=
      { store := st
        slots := fun _ => Handle.wild
        end_ := chunks_count
        cur_begin := 0
        cur_end := ((elems_count / chunk_size : Nat) : Int) }
    let sz := (elems_count + chunk_size - 1) % size_t_mod / chunk_size
    match alloc_chunks E sz sz 0 a.slots h0 with
    | (true, ind, s, h1) =>
      match h1.alloc E 1 with
      | .ok (p, h2) => .ok ({ a with slots := set_slot s a.end_ p }, h2)
      | .error e =>
        .threw e (Deque.ChunkArray_dtor { a with slots := s }
          ((free_chunks s (ind + 1) (ind + 1) 0 h1).free (.blk st)))
    | (false, ind, s, h1) =>
      .threw .bad_alloc (Deque.ChunkArray_dtor { a with slots := s }
        ((free_chunks s ind ind 0 h1).free (.blk st)))

/-- The member `swap`. -/
def swap (a tmp : ChunkArray) : ChunkArray × ChunkArray := (tmp, a)

/-- The loop of `shift`: `for (; cur_begin < cur_end; ++it) { std::swap(*cur_begin, *it);
++cur_begin; }`.  Returns the slots, `cur_begin` and `it`. -/
def shift_loop (cur_end : Int) :
    Nat → (Int → Handle) → Int → Int → (Int → Handle) × Int × Int
  | 0, s, cb, it => (s, cb, it)
  | fuel + 1, s, cb, it =>
    if cb < cur_end then shift_loop cur_end fuel (swap_slots s cb it) (cb + 1) (it + 1)
    else (s, cb, it)

/-- The member `shift`: slide the active handles to the middle third. -/
def shift (a : ChunkArray) : ChunkArray :=
  let new_begin := a.begin + (a.end_ - a.begin).tdiv 3
  match shift_loop a.cur_end (a.cur_end - a.cur_begin).toNat a.slots a.cur_begin new_begin with
  | (s, _, it) =>
    let s1 := if a.cur_end ≠ a.end_ then swap_slots s a.cur_end it else s
    { a with slots := s1, cur_begin := new_begin, cur_end := it }

/-- The member `reallocate`: a handle array three times as large, the old handles in
its middle third. -/
def reallocate (E : Env α) (h : Heap α) (a : ChunkArray) : Except Err (ChunkArray × Heap α) :=
  let old_size : Int := (a.end_ - a.begin) + 1
  match h.alloc_handles E with
  | .error e => .error e
  | .ok (st, h1) =>
    let copied : Int → Handle := fun k =>
      if old_size ≤ k ∧ k < old_size + (a.end_ - a.begin) then a.slots (a.begin + (k - old_size))
      else Handle.null
    let new_arr := set_slot copied (3 * old_size) (a.slots a.end_)
    let h2 := h1.free (.blk a.store)
    let diff := a.cur_end - a.cur_begin
    let cur_begin := old_size + (a.cur_begin - a.begin)
    .ok ({ store := st
           slots := new_arr
           end_ := 3 * old_size
           cur_begin := cur_begin
           cur_end := cur_begin + diff }, h2)

/-- The member `update`: recentre when the active window takes less than a third of
the array, regrow otherwise. -/
def update (E : Env α) (h : Heap α) (a : ChunkArray) : Except Err (ChunkArray × Heap α) :=
  if 3 * (a.cur_end - a.cur_begin + 1) < a.end_ - a.begin + 1 then .ok (a.shift, h)
  else a.reallocate E h

end ChunkArray

/-- The iterator `Deque<T>::BaseIterator`: the element pointer, the index of the handle
it lies under, and the bounds of the active window when it was made. -/
structure BaseIterator where
  item : Ptr
  cur_arr : Int
  first : Int
  last : Int
deriving DecidableEq, Repr

namespace BaseIterator

/-- Pre-increment `operator++`, reading handles from `s`. -/
def inc (s : Int → Handle) (it : BaseIterator) : BaseIterator :=
  let item := it.item.add 1
  if it.cur_arr < it.last ∧ item = (s it.cur_arr).plus ptr_chunk_size then
    { it with item := (s (it.cur_arr + 1)).plus 0, cur_arr := it.cur_arr + 1 }
  else { it with item := item }

/-- Pre-decrement `operator--`. -/
def dec (s : Int → Handle) (it : BaseIterator) : BaseIterator :=
  if it.cur_arr > it.first ∧ it.item = (s it.cur_arr).plus 0 then
    { it with item := ((s (it.cur_arr - 1)).plus ptr_chunk_size).add (-1),
              cur_arr := it.cur_arr - 1 }
  else { it with item := it.item.add (-1) }

/-- The private member `sum<N>(diff, border)`. -/
def sum (s : Int → Handle) (N : Int) (diff : Int) (border : Int) (it : BaseIterator) :
    BaseIterator :=
  let diff := diff + it.item.diff ((s it.cur_arr).plus N)
  let cur_arr := it.cur_arr + diff.tdiv ptr_chunk_size
  if it.first ≤ cur_arr ∧ cur_arr ≤ it.last then
    { it with item := ((s cur_arr).plus N).add (diff.tmod ptr_chunk_size), cur_arr := cur_arr }
  else
    { it with
      item := ((s border).plus 0).add
        (diff.tmod ptr_chunk_size + (cur_arr - border) * ptr_chunk_size)
      cur_arr := border }

/-- The operators `+=` and `+` with a signed distance. -/
def plus (s : Int → Handle) (it : BaseIterator) (diff : Int) : BaseIterator :=
  if diff ≥ 0 then it.sum s 0 diff it.last
  else it.sum s ((chunk_size : Int) - 1) diff it.first

/-- The operators `-=` and `-` with a signed distance. -/
def minus (s : Int → Handle) (it : BaseIterator) (diff : Int) : BaseIterator :=
  it.plus s (-diff)

/-- The distance `a - b` of two iterators. -/
def distance (s : Int → Handle) (a b : BaseIterator) : Int :=
  ptr_chunk_size * (a.cur_arr - b.cur_arr) + a.item.diff ((s a.cur_arr).plus 0)
    - b.item.diff ((s b.cur_arr).plus 0)

/-- The comparison `operator==`. -/
def eq (a b : BaseIterator) : Bool := decide (a.item = b.item)

/-- The comparison `a < b` obtained from `operator<=>`. -/
def lt (E : Env α) (a b : BaseIterator) : Bool :=
  if a.cur_arr = b.cur_arr then a.item.lt E b.item else decide (a.cur_arr < b.cur_arr)

/-- The comparison `a >= b` obtained from `operator<=>`. -/
def ge (E : Env α) (a b : BaseIterator) : Bool := !(a.lt E b)

end BaseIterator

/-- The container: the members of `BaseDeque<T>` together with the heap it lives in. -/
structure Deque (α : Type) where
  arr : ChunkArray
  m_size : Nat
  m_begin : Ptr
  m_end : Ptr
  heap : Heap α

namespace Deque

/-- The constructor `BaseDeque(size_t n)`. -/
def BaseDeque (E : Env α) (h : Heap α) (n : Nat) : Res (Heap α) (Deque α) :=
  match ChunkArray.ctor E h n with
  | .threw e h1 => .threw e h1
  | .ok (a, h1) =>
    .ok { arr := a
          m_size := n
          m_begin := (a.slots a.cur_begin).plus 0
          m_end := (a.slots (a.cur_begin + ((n / chunk_size : Nat) : Int))).plus
            ((n % chunk_size : Nat) : Int)
          heap := h1 }

/-- The member `begin()`. -/
def begin (d : Deque α) : BaseIterator :=
  ⟨d.m_begin, d.arr.cur_begin, d.arr.cur_begin, d.arr.cur_end⟩

/-- The member `end()`. -/
def end_ (d : Deque α) : BaseIterator :=
  ⟨d.m_end, d.arr.cur_end, d.arr.cur_begin, d.arr.cur_end⟩

/-- The member `size()`. -/
def size (d : Deque α) : Nat := d.m_size

/-- The member `empty()`. -/
def empty (d : Deque α) : Bool := decide (d.m_size = 0)

/-- The statement `if (!*p) *p = new int8_t[chunk_size * sizeof(T)]` for the handle at
index `k`, which `next_end`, `update` and `push_front` each contain. -/
def ensure_chunk (E : Env α) (k : Int) (d : Deque α) : Res (Deque α) (Deque α) :=
  if (d.arr.slots k).is_null then
    match d.heap.alloc E chunk_size with
    | .error e => .threw e d
    | .ok (p, h) =>
      .ok { d with arr := { d.arr with slots := ChunkArray.set_slot d.arr.slots k p }, heap := h }
  else .ok d

/-- The private member `next_end`. -/
def next_end (E : Env α) (d : Deque α) : Res (Deque α) (Deque α) :=
  let d1 := { d with m_end := d.m_end.add 1, m_size := d.m_size + 1 }
  if d1.m_end = (d1.arr.slots d1.arr.cur_end).plus chunk_size then
    let d2 := { d1 with arr := { d1.arr with cur_end := d1.arr.cur_end + 1 } }
    match d2.ensure_chunk E d2.arr.cur_end with
    | .threw e st => .threw e st
    | .ok d3 => .ok { d3 with m_end := (d3.arr.slots d3.arr.cur_end).plus 0 }
  else .ok d1

/-- The private member `update`. -/
def update (E : Env α) (d : Deque α) : Res (Deque α) (Deque α) :=
  match d.arr.update E d.heap with
  | .error e => .threw e d
  | .ok (a, h) =>
    let d1 := { d with arr := a, heap := h }
    if d1.m_end = (d1.arr.slots d1.arr.end_).plus 0 then
      match d1.ensure_chunk E d1.arr.cur_end with
      | .threw e st => .threw e st
      | .ok d2 =>
        let d3 := { d2 with m_end := (d2.arr.slots d2.arr.cur_end).plus 0 }
        if d3.m_begin = (d3.arr.slots d3.arr.end_).plus 0 then
          .ok { d3 with m_begin := (d3.arr.slots d3.arr.cur_end).plus 0 }
        else .ok d3
    else .ok d1

/-- The member `push_front(const T& val)`; `val` is read before any element is written,
so the value it reads at the call is passed. -/
def push_front (E : Env α) (val : α) (d : Deque α) : Res (Deque α) (Deque α) :=
  if d.m_begin ≠ (d.arr.slots d.arr.cur_begin).plus 0 then
    let ptr := d.m_begin.add (-1)
    match d.heap.construct E ptr val with
    | .error e => .threw e d
    | .ok h => .ok { d with heap := h, m_begin := d.m_begin.add (-1), m_size := d.m_size + 1 }
  else
    match (if d.arr.cur_begin = d.arr.begin then d.update E else .ok d) with
    | .threw e st => .threw e st
    | .ok d1 =>
      match d1.ensure_chunk E (d1.arr.cur_begin - 1) with
      | .threw e st => .threw e st
      | .ok d2 =>
        match d2.heap.construct E
            (((d2.arr.slots (d2.arr.cur_begin - 1)).plus chunk_size).add (-1)) val with
        | .error e => .threw e d2
        | .ok h =>
          let a := { d2.arr with cur_begin := d2.arr.cur_begin - 1 }
          .ok { d2 with
                heap := h
                arr := a
                m_begin := ((a.slots a.cur_begin).plus chunk_size).add (-1)
                m_size := d2.m_size + 1 }

/-- The member `push_back(const T& val)`; `val` is read before any element is written,
so the value it reads at the call is passed. -/
def push_back (E : Env α) (val : α) (d : Deque α) : Res (Deque α) (Deque α) :=
  match (if d.arr.cur_end = d.arr.end_ then d.update E else .ok d) with
  | .threw e st => .threw e st
  | .ok d1 =>
    match d1.heap.construct E d1.m_end val with
    | .error e => .threw e d1
    | .ok h => next_end E { d1 with heap := h }

/-- The member `pop_front`. -/
def pop_front (d : Deque α) : Deque α :=
  let d1 := { d with heap := d.heap.destroy d.m_begin
                     m_begin := d.m_begin.add 1
                     m_size := d.m_size - 1 }
  if d1.m_begin = (d1.arr.slots d1.arr.cur_begin).plus chunk_size then
    let a := { d1.arr with cur_begin := d1.arr.cur_begin + 1 }
    { d1 with arr := a, m_begin := (a.slots a.cur_begin).plus 0 }
  else d1

/-- The member `pop_back`. -/
def pop_back (d : Deque α) : Deque α :=
  let d1 :=
    if d.m_end = (d.arr.slots d.arr.cur_end).plus 0 then
      let a := { d.arr with cur_end := d.arr.cur_end - 1 }
      { d with arr := a, m_end := (a.slots a.cur_end).plus chunk_size }
    else d
  let d2 := { d1 with m_end := d1.m_end.add (-1), m_size := d1.m_size - 1 }
  { d2 with heap := d2.heap.destroy d2.m_end }

/-- The index computation shared by `operator[]` and `at`:
`ind += static_cast<size_t>(m_begin - *arr.cur_begin)` in `size_t` arithmetic. -/
def adjusted (d : Deque α) (ind : Nat) : Nat :=
  (ind + (d.m_begin.diff ((d.arr.slots d.arr.cur_begin).plus 0) % (size_t_mod : Int)).toNat)
    % size_t_mod

/-- The member `operator[]`: the slot it refers to. -/
def subscript (d : Deque α) (ind : Nat) : Ptr :=
  let ind := d.adjusted ind
  (d.arr.slots (d.arr.cur_begin + ((ind / chunk_size : Nat) : Int))).plus
    ((ind % chunk_size : Nat) : Int)

/-- The member `at`: the slot it refers to, or `std::out_of_range`. -/
def at_ (E : Env α) (d : Deque α) (ind : Nat) : Except Err Ptr :=
  let ind := d.adjusted ind
  let it : Int := d.arr.cur_begin + ((ind / chunk_size : Nat) : Int)
  if it < d.arr.end_ - 1 ∨
      (it = d.arr.end_ - 1 ∧
        ((d.arr.slots it).plus ((ind % chunk_size : Nat) : Int)).lt E d.m_end) then
    .ok ((d.arr.slots (d.arr.cur_begin + ((ind / chunk_size : Nat) : Int))).plus
      ((ind % chunk_size : Nat) : Int))
  else .error .out_of_range

/-- The member `front()`: the slot it refers to. -/
def front (d : Deque α) : Ptr := d.m_begin

/-- The member `back()`, which is `*rbegin()`: the slot before `end()`. -/
def back (d : Deque α) : Ptr := (d.end_.dec d.arr.slots).item

/-- The loop `for (it = --end(); it != ans; --it) *it = *(it - 1)` of `insert`. -/
def insert_loop (E : Env α) (s : Int → Handle) (ans : BaseIterator) :
    Nat → BaseIterator → Heap α → Res (Heap α) (Heap α)
  | 0, _, h => .threw .fuel h
  | fuel + 1, it, h =>
    if it.item ≠ ans.item then
      match h.read (it.minus s 1).item with
      | none => .threw .raw_read h
      | some x =>
        match h.assign E it.item x with
        | .error e => .threw e h
        | .ok h1 => insert_loop E s ans fuel (it.dec s) h1
    else .ok h

/-- The member `insert(iterator iter, const T& val)`.  The two end branches hand `val`
to `push_front` and `push_back`, which read it before they write any element; the
interior branch reads it in `*ans = val`, after the loop has moved the elements. -/
def insert (E : Env α) (iter : BaseIterator) (val : Ref α) (d : Deque α) :
    Res (Deque α) (BaseIterator × Deque α) :=
  if iter.eq d.begin then
    match d.heap.deref val with
    | none => .threw .raw_read d
    | some v =>
      match d.push_front E v with
      | .threw e st => .threw e st
      | .ok d1 => .ok (d1.begin, d1)
  else if iter.eq d.end_ then
    match d.heap.deref val with
    | none => .threw .raw_read d
    | some v =>
      match d.push_back E v with
      | .threw e st => .threw e st
      | .ok d1 => .ok (d1.end_.dec d1.arr.slots, d1)
  else
    let ind := BaseIterator.distance d.arr.slots iter d.begin
    match (if d.arr.cur_end = d.arr.end_ then d.update E else .ok d) with
    | .threw e st => .threw e st
    | .ok d1 =>
      match d1.heap.read d1.back with
      | none => .threw .raw_read d1
      | some x =>
        match d1.heap.construct E d1.m_end x with
        | .error e => .threw e d1
        | .ok h =>
          let d2 := { d1 with heap := h }
          let ans := d2.begin.plus d2.arr.slots ind
          match insert_loop E d2.arr.slots ans (d2.m_size + 1)
              (d2.end_.dec d2.arr.slots) d2.heap with
          | .threw e h1 => .threw e { d2 with heap := h1 }
          | .ok h1 =>
            match h1.deref val with
            | none => .threw .raw_read { d2 with heap := h1 }
            | some v =>
              match h1.assign E ans.item v with
              | .error e => .threw e { d2 with heap := h1 }
              | .ok h2 =>
                match next_end E { d2 with heap := h2 } with
                | .threw e st => .threw e st
                | .ok d3 => .ok (ans, d3)

/-- The loop `for (it = iter; it + 1 != end(); ++it) *it = *(it + 1)` of `erase`. -/
def erase_loop (E : Env α) (s : Int → Handle) (fin : BaseIterator) :
    Nat → BaseIterator → Heap α → Res (Heap α) (Heap α)
  | 0, _, h => .threw .fuel h
  | fuel + 1, it, h =>
    if (it.plus s 1).item ≠ fin.item then
      match h.read (it.plus s 1).item with
      | none => .threw .raw_read h
      | some x =>
        match h.assign E it.item x with
        | .error e => .threw e h
        | .ok h1 => erase_loop E s fin fuel (it.inc s) h1
    else .ok h

/-- The member `erase`. -/
def erase (E : Env α) (iter : BaseIterator) (d : Deque α) :
    Res (Deque α) (BaseIterator × Deque α) :=
  if iter.eq d.begin then
    let d1 := d.pop_front
    .ok (d1.begin, d1)
  else
    match erase_loop E d.arr.slots d.end_ (d.m_size + 1) iter d.heap with
    | .threw e h1 => .threw e { d with heap := h1 }
    | .ok h1 => .ok (iter, ({ d with heap := h1 } : Deque α).pop_back)

/-- The loop of `std::destroy(first, last)`. -/
def destroy_range (s : Int → Handle) (last : BaseIterator) :
    Nat → BaseIterator → Heap α → Except Err (Heap α)
  | 0, _, _ => .error .fuel
  | fuel + 1, it, h =>
    if it.item ≠ last.item then destroy_range s last fuel (it.inc s) (h.destroy it.item)
    else .ok h

/-- The destructor `~Deque` followed by that of its base: destroy the live elements,
then release the chunks. -/
def dtor (d : Deque α) : Except Err (Heap α) :=
  match destroy_range d.arr.slots d.end_ (d.m_size + 1) d.begin d.heap with
  | .error e => .error e
  | .ok h => .ok (ChunkArray_dtor d.arr h)

/-- The constructor `Deque()`. -/
def ctor_default (E : Env α) (h : Heap α) : Res (Heap α) (Deque α) := BaseDeque E h 0

/-- The loop `for (it = begin(); it != end(); ++it) new(&*it) T()` of `Deque(size_t)`;
when `T()` throws the iterator reached is handed back with the heap. -/
def default_loop (E : Env α) (s : Int → Handle) (fin : BaseIterator) :
    Nat → Nat → BaseIterator → Heap α → Res (BaseIterator × Heap α) (Heap α)
  | 0, _, it, h => .threw .fuel (it, h)
  | fuel + 1, k, it, h =>
    if it.item ≠ fin.item then
      if E.dflt_ok k then default_loop E s fin fuel (k + 1) (it.inc s) (h.store it.item E.dflt)
      else .threw .elem_throw (it, h)
    else .ok h

/-- The handler loop `for (--it; it >= begin(); --it) it->~T()` of `Deque(size_t)`. -/
def unwind_loop (E : Env α) (s : Int → Handle) (b : BaseIterator) :
    Nat → BaseIterator → Heap α → Except Err (Heap α)
  | 0, _, _ => .error .fuel
  | fuel + 1, it, h =>
    if it.ge E b then unwind_loop E s b fuel (it.dec s) (h.destroy it.item) else .ok h

/-- The constructor `Deque(size_t n)`. -/
def ctor_n (E : Env α) (h : Heap α) (n : Nat) : Res (Heap α) (Deque α) :=
  match BaseDeque E h n with
  | .threw e h1 => .threw e h1
  | .ok d =>
    match default_loop E d.arr.slots d.end_ (n + 1) 0 d.begin d.heap with
    | .ok h1 => .ok { d with heap := h1 }
    | .threw e (it, h1) =>
      match unwind_loop E d.arr.slots d.begin (n + 1) (it.dec d.arr.slots) h1 with
      | .error e1 => .threw e1 h1
      | .ok h2 => .threw e (ChunkArray_dtor d.arr h2)

/-- The loop of `std::uninitialized_fill(first, last, val)`. -/
def fill_loop (E : Env α) (s : Int → Handle) (fin : BaseIterator) (val : α) :
    Nat → BaseIterator → Heap α → Res (BaseIterator × Heap α) (Heap α)
  | 0, it, h => .threw .fuel (it, h)
  | fuel + 1, it, h =>
    if it.item ≠ fin.item then
      match h.construct E it.item val with
      | .error e => .threw e (it, h)
      | .ok h1 => fill_loop E s fin val fuel (it.inc s) h1
    else .ok h

/-- The constructor `Deque(size_t n, const T& val)`; when a copy throws,
`std::uninitialized_fill` destroys what it built and the base releases the chunks. -/
def ctor_n_val (E : Env α) (h : Heap α) (n : Nat) (val : α) : Res (Heap α) (Deque α) :=
  match BaseDeque E h n with
  | .threw e h1 => .threw e h1
  | .ok d =>
    match fill_loop E d.arr.slots d.end_ val (n + 1) d.begin d.heap with
    | .ok h1 => .ok { d with heap := h1 }
    | .threw e (it, h1) =>
      match destroy_range d.arr.slots it (n + 1) d.begin h1 with
      | .error e1 => .threw e1 h1
      | .ok h2 => .threw e (ChunkArray_dtor d.arr h2)

/-- The loop of `std::uninitialized_copy(first, last, d_first)`: `src` walks the
source under the handles `ss`, `it` the target under the handles `s`. -/
def copy_loop (E : Env α) (ss s : Int → Handle) (fin : BaseIterator) :
    Nat → BaseIterator → BaseIterator → Heap α → Res (BaseIterator × Heap α) (Heap α)
  | 0, _, it, h => .threw .fuel (it, h)
  | fuel + 1, src, it, h =>
    if src.item ≠ fin.item then
      match h.read src.item with
      | none => .threw .raw_read (it, h)
      | some x =>
        match h.construct E it.item x with
        | .error e => .threw e (it, h)
        | .ok h1 => copy_loop E ss s fin fuel (src.inc ss) (it.inc s) h1
    else .ok h

/-- The copy constructor `Deque(const Deque& copy)`; the new object lives in the heap
of its source. -/
def ctor_copy (E : Env α) (copy : Deque α) : Res (Heap α) (Deque α) :=
  match BaseDeque E copy.heap copy.size with
  | .threw e h1 => .threw e h1
  | .ok d =>
    match copy_loop E copy.arr.slots d.arr.slots copy.end_ (copy.m_size + 1)
        copy.begin d.begin d.heap with
    | .ok h1 => .ok { d with heap := h1 }
    | .threw e (it, h1) =>
      match destroy_range d.arr.slots it (copy.m_size + 1) d.begin h1 with
      | .error e1 => .threw e1 h1
      | .ok h2 => .threw e (ChunkArray_dtor d.arr h2)

/-- The member `swap`: both objects keep the heap they live in. -/
def swap (d tmp : Deque α) : Deque α × Deque α :=
  ({ d with arr := (d.arr.swap tmp.arr).1, m_begin := tmp.m_begin, m_end := tmp.m_end,
            m_size := tmp.m_size },
   { tmp with arr := (d.arr.swap tmp.arr).2, m_begin := d.m_begin, m_end := d.m_end,
              m_size := d.m_size })

/-- The copy assignment `d = other`: the by-value parameter is copy-constructed from
`other` in the heap of `d`, swapped in, and destroyed with the old content. -/
def assign_op (E : Env α) (d other : Deque α) : Res (Deque α) (Deque α) :=
  match ctor_copy E { other with heap := d.heap } with
  | .threw e h1 => .threw e { d with heap := h1 }
  | .ok copy =>
    match swap { d with heap := copy.heap } copy with
    | (d1, copy1) =>
      match dtor copy1 with
      | .error e => .threw e d1
      | .ok h => .ok { d1 with heap := h }

/-- The sequence of slot contents reached through `operator[]` for the indices below
`size()`. -/
def elems (d : Deque α) : List (Option α) :=
  (List.range d.size).map (fun i => d.heap.read (d.subscript i))

/-- The slot at signed position `j` counted from `m_begin`, walking through the
chunks of the active window. -/
def slot (d : Deque α) (j : Int) : Ptr :=
  (d.arr.slots (d.arr.cur_begin + (d.m_begin.off + j) / 32)).plus ((d.m_begin.off + j) % 32)

/-- The iterator standing at signed position `j`. -/
def iter_at (d : Deque α) (j : Int) : BaseIterator :=
  ⟨d.slot j, d.arr.cur_begin + (d.m_begin.off + j) / 32, d.arr.cur_begin, d.arr.cur_end⟩

/-- The representation invariant of the container. -/
structure Inv (d : Deque α) : Prop where
  cb_nonneg : 0 ≤ d.arr.cur_begin
  cb_le : d.arr.cur_begin ≤ d.arr.cur_end
  ce_le : d.arr.cur_end ≤ d.arr.end_
  win : ∀ i, d.arr.cur_begin ≤ i → i ≤ d.arr.cur_end → ∃ b, d.arr.slots i = .blk b
  sentinel : ∃ b, d.arr.slots d.arr.end_ = .blk b
  inj : ∀ i j b, 0 ≤ i → i ≤ d.arr.end_ → 0 ≤ j → j ≤ d.arr.end_ →
    d.arr.slots i = .blk b → d.arr.slots j = .blk b → i = j
  owned : ∀ i, 0 ≤ i → i ≤ d.arr.end_ →
    d.arr.slots i = .null ∨ ∃ b, d.arr.slots i = .blk b ∧ b < d.heap.next
  mb_base : d.m_begin.base = d.arr.slots d.arr.cur_begin
  mb_off : 0 ≤ d.m_begin.off ∧ d.m_begin.off < 32
  me_base : d.m_end.base = d.arr.slots d.arr.cur_end
  me_off : 0 ≤ d.m_end.off ∧ d.m_end.off < 32
  me_sentinel : d.arr.cur_end = d.arr.end_ → d.m_end.off = 0
  size_eq : (d.m_size : Int) =
    32 * (d.arr.cur_end - d.arr.cur_begin) + d.m_end.off - d.m_begin.off
  live : ∀ j : Nat, j < d.m_size → ∃ x, d.heap.read (d.slot j) = some x

/-- What the rest of the program may do to the heap while the container is not
operated on: allocate, and touch blocks the container does not own. -/
def frames (d : Deque α) (h : Heap α) : Prop :=
  d.heap.next ≤ h.next ∧
    ∀ i b, 0 ≤ i → i ≤ d.arr.end_ → d.arr.slots i = .blk b →
      h.mem b = d.heap.mem b ∧ h.cap b = d.heap.cap b

/-- The states a container goes through: built by a constructor, then changed by the
public members (whether they return or throw) and left alone while the rest of the
program uses the heap.  Iterators handed to `insert` and `erase` are `begin() + k`, the
argument of `insert` is any reference; sizes handed to a constructor are those whose
chunk count does not wrap in `size_t`. -/
inductive Reachable (E : Env α) : Deque α → Prop
  | ctor_default (h : Heap α) (d : Deque α) :
      ctor_default E h = .ok d → Reachable E d
  | ctor_n (h : Heap α) (n : Nat) (d : Deque α) :
      n + chunk_size - 1 < size_t_mod → ctor_n E h n = .ok d → Reachable E d
  | ctor_n_val (h : Heap α) (n : Nat) (val : α) (d : Deque α) :
      n + chunk_size - 1 < size_t_mod → ctor_n_val E h n val = .ok d → Reachable E d
  | ctor_copy (copy d : Deque α) :
      Reachable E copy → copy.m_size + chunk_size - 1 < size_t_mod →
      ctor_copy E copy = .ok d → Reachable E d
  | frame (d : Deque α) (h : Heap α) :
      Reachable E d → d.frames h → Reachable E { d with heap := h }
  | swap_left (d tmp : Deque α) :
      Reachable E d → Reachable E tmp → d.heap = tmp.heap → Reachable E (d.swap tmp).1
  | swap_right (d tmp : Deque α) :
      Reachable E d → Reachable E tmp → d.heap = tmp.heap → Reachable E (d.swap tmp).2
  | assign_ok (d other d1 : Deque α) :
      Reachable E d → Reachable E other → d.heap = other.heap →
      other.m_size + chunk_size - 1 < size_t_mod →
      assign_op E d other = .ok d1 → Reachable E d1
  | assign_threw (d other d1 : Deque α) (e : Err) :
      Reachable E d → Reachable E other → d.heap = other.heap →
      other.m_size + chunk_size - 1 < size_t_mod →
      assign_op E d other = .threw e d1 → Reachable E d1
  | push_back_ok (d d1 : Deque α) (val : α) :
      Reachable E d → push_back E val d = .ok d1 → Reachable E d1
  | push_back_threw (d d1 : Deque α) (val : α) (e : Err) :
      Reachable E d → push_back E val d = .threw e d1 → Reachable E d1
  | push_front_ok (d d1 : Deque α) (val : α) :
      Reachable E d → push_front E val d = .ok d1 → Reachable E d1
  | push_front_threw (d d1 : Deque α) (val : α) (e : Err) :
      Reachable E d → push_front E val d = .threw e d1 → Reachable E d1
  | pop_back (d : Deque α) :
      Reachable E d → d.m_size ≠ 0 → Reachable E d.pop_back
  | pop_front (d : Deque α) :
      Reachable E d → d.m_size ≠ 0 → Reachable E d.pop_front
  | insert_ok (d d1 : Deque α) (k : Nat) (val : Ref α) (r : BaseIterator) :
      Reachable E d → k ≤ d.m_size →
      insert E (d.begin.plus d.arr.slots k) val d = .ok (r, d1) → Reachable E d1
  | insert_threw (d d1 : Deque α) (k : Nat) (val : Ref α) (e : Err) :
      Reachable E d → k ≤ d.m_size →
      insert E (d.begin.plus d.arr.slots k) val d = .threw e d1 → Reachable E d1
  | erase_ok (d d1 : Deque α) (k : Nat) (r : BaseIterator) :
      Reachable E d → k < d.m_size →
      erase E (d.begin.plus d.arr.slots k) d = .ok (r, d1) → Reachable E d1
  | erase_threw (d d1 : Deque α) (k : Nat) (e : Err) :
      Reachable E d → k < d.m_size →
      erase E (d.begin.plus d.arr.slots k) d = .threw e d1 → Reachable E d1

end Deque

/-! ## Relations used to state the behaviour of the operations -/

namespace ChunkArray

/-- Closed form of the handle array after exchanging the `m` slots from `cb` with the
`m` slots from `it`. -/
def exchanged (s : Int → Handle) (cb it : Int) (m : Int) : Int → Handle :=
  fun k =>
    if it ≤ k ∧ k < it + m then s (cb + (k - it))
    else if cb ≤ k ∧ k < cb + m then s (it + (k - cb))
    else s k

/-- Array `a1` holds the active handles of `a` at new indices, away from both edges. -/
structure Rearr (a a1 : ChunkArray) : Prop where
  len : a1.cur_end - a1.cur_begin = a.cur_end - a.cur_begin
  cb_pos : 0 < a1.cur_begin
  ce_lt : a1.cur_end < a1.end_
  win : ∀ t, 0 ≤ t → a.cur_begin + t ≤ a.cur_end → a.cur_begin + t < a.end_ →
    a1.slots (a1.cur_begin + t) = a.slots (a.cur_begin + t)
  sent : a1.slots a1.end_ = a.slots a.end_
  inj : ∀ i j b, 0 ≤ i → i ≤ a1.end_ → 0 ≤ j → j ≤ a1.end_ →
    a1.slots i = .blk b → a1.slots j = .blk b → i = j
  old : ∀ i, 0 ≤ i → i ≤ a1.end_ →
    a1.slots i = .null ∨ ∃ j, 0 ≤ j ∧ j ≤ a.end_ ∧ a1.slots i = a.slots j

end ChunkArray

namespace Deque

/-- State `d1` holds the same elements as `d` in the same slots, its active window
lying strictly inside the handle array. -/
structure Moved (d d1 : Deque α) : Prop where
  inv : d1.Inv
  cb_pos : 0 < d1.arr.cur_begin
  ce_lt : d1.arr.cur_end < d1.arr.end_
  len : d1.arr.cur_end - d1.arr.cur_begin = d.arr.cur_end - d.arr.cur_begin
  size : d1.m_size = d.m_size
  ob : d1.m_begin.off = d.m_begin.off
  oe : d1.m_end.off = d.m_end.off
  win : ∀ t, 0 ≤ t → d.arr.cur_begin + t ≤ d.arr.cur_end → d.arr.cur_begin + t < d.arr.end_ →
    d1.arr.slots (d1.arr.cur_begin + t) = d.arr.slots (d.arr.cur_begin + t)
  mem : ∀ b, b < d.heap.next → d1.heap.mem b = d.heap.mem b
  cap : ∀ b, b < d.heap.next → d1.heap.cap b = d.heap.cap b
  next : d.heap.next ≤ d1.heap.next
  destroyed : d1.heap.destroyed = d.heap.destroyed

/-- State `d2` is `d` with a chunk behind the handle at index `k`. -/
structure Filled (d d2 : Deque α) (k : Int) : Prop where
  m_begin : d2.m_begin = d.m_begin
  m_end : d2.m_end = d.m_end
  m_size : d2.m_size = d.m_size
  cur_begin : d2.arr.cur_begin = d.arr.cur_begin
  cur_end : d2.arr.cur_end = d.arr.cur_end
  end_ : d2.arr.end_ = d.arr.end_
  at_k : ∃ b, d2.arr.slots k = .blk b
  other : ∀ i, i ≠ k → d2.arr.slots i = d.arr.slots i
  keep : d.arr.slots k ≠ .null → d2.arr.slots k = d.arr.slots k
  inj : ∀ i j b, 0 ≤ i → i ≤ d2.arr.end_ → 0 ≤ j → j ≤ d2.arr.end_ →
    d2.arr.slots i = .blk b → d2.arr.slots j = .blk b → i = j
  owned : ∀ i, 0 ≤ i → i ≤ d2.arr.end_ →
    d2.arr.slots i = .null ∨ ∃ b, d2.arr.slots i = .blk b ∧ b < d2.heap.next
  mem : ∀ b, b < d.heap.next → d2.heap.mem b = d.heap.mem b
  cap : ∀ b, b < d.heap.next → d2.heap.cap b = d.heap.cap b
  next : d.heap.next ≤ d2.heap.next
  destroyed : d2.heap.destroyed = d.heap.destroyed

/-- What `next_end` and the pushes keep: the begin marker, and every handle up to the
old `cur_end`. -/
structure Grown (d d1 : Deque α) : Prop where
  inv : d1.Inv
  size : d1.m_size = d.m_size + 1
  m_begin : d1.m_begin = d.m_begin
  cur_begin : d1.arr.cur_begin = d.arr.cur_begin
  slots : ∀ i, i ≤ d.arr.cur_end → d1.arr.slots i = d.arr.slots i
  mem : ∀ b, b < d.heap.next → d1.heap.mem b = d.heap.mem b
  cap : ∀ b, b < d.heap.next → d1.heap.cap b = d.heap.cap b
  next : d.heap.next ≤ d1.heap.next
  destroyed : d1.heap.destroyed = d.heap.destroyed

/-- The state in which `push_back` and `insert` construct at `m_end`: same elements in
the same slots, and room for one more handle after `cur_end`. -/
structure Ready (d d1 : Deque α) : Prop where
  inv : d1.Inv
  ce_lt : d1.arr.cur_end < d1.arr.end_
  size : d1.m_size = d.m_size
  slot : ∀ j : Int, 0 ≤ j → j < d.m_size → d1.slot j = d.slot j
  mem : ∀ b, b < d.heap.next → d1.heap.mem b = d.heap.mem b
  cap : ∀ b, b < d.heap.next → d1.heap.cap b = d.heap.cap b
  next : d.heap.next ≤ d1.heap.next
  destroyed : d1.heap.destroyed = d.heap.destroyed

/-- Effect of a successful `push_back`. -/
structure PushedBack (d d1 : Deque α) (v : α) : Prop where
  inv : d1.Inv
  size : d1.m_size = d.m_size + 1
  slot : ∀ j : Int, 0 ≤ j → j < d.m_size → d1.slot j = d.slot j
  read : ∀ j : Int, 0 ≤ j → j < d.m_size → d1.heap.read (d1.slot j) = d.heap.read (d.slot j)
  last : d1.heap.read (d1.slot d.m_size) = some v
  next : d.heap.next ≤ d1.heap.next

/-- Effect of a successful `push_front`. -/
structure PushedFront (d d1 : Deque α) (v : α) : Prop where
  inv : d1.Inv
  size : d1.m_size = d.m_size + 1
  slot : ∀ j : Int, 0 ≤ j → j < d.m_size → d1.slot (j + 1) = d.slot j
  read : ∀ j : Int, 0 ≤ j → j < d.m_size →
    d1.heap.read (d1.slot (j + 1)) = d.heap.read (d.slot j)
  first : d1.heap.read (d1.slot 0) = some v
  next : d.heap.next ≤ d1.heap.next

/-- The state in which `push_front` looks at the handle before `cur_begin`. -/
structure ReadyFront (d d1 : Deque α) : Prop where
  inv : d1.Inv
  cb_pos : 0 < d1.arr.cur_begin
  size : d1.m_size = d.m_size
  ob : d1.m_begin.off = d.m_begin.off
  slot : ∀ j : Int, 0 ≤ j → j < d.m_size → d1.slot j = d.slot j
  mem : ∀ b, b < d.heap.next → d1.heap.mem b = d.heap.mem b
  cap : ∀ b, b < d.heap.next → d1.heap.cap b = d.heap.cap b
  next : d.heap.next ≤ d1.heap.next
  destroyed : d1.heap.destroyed = d.heap.destroyed

/-- What a throwing `push_front` leaves: same elements in the same slots. -/
structure Kept (d d1 : Deque α) : Prop where
  inv : d1.Inv
  size : d1.m_size = d.m_size
  slot : ∀ j : Int, 0 ≤ j → j < d.m_size → d1.slot j = d.slot j
  read : ∀ j : Int, 0 ≤ j → j < d.m_size → d1.heap.read (d1.slot j) = d.heap.read (d.slot j)
  next : d.heap.next ≤ d1.heap.next

/-- Effect of `pop_back` on a non-empty container. -/
structure PoppedBack (d d1 : Deque α) : Prop where
  inv : d1.Inv
  size : d1.m_size + 1 = d.m_size
  slot : ∀ j : Int, d1.slot j = d.slot j
  read : ∀ j : Int, 0 ≤ j → j < d1.m_size → d1.heap.read (d1.slot j) = d.heap.read (d.slot j)
  arr : d1.arr.slots = d.arr.slots ∧ d1.arr.end_ = d.arr.end_ ∧ d1.arr.store = d.arr.store ∧
    d1.arr.cur_begin = d.arr.cur_begin
  m_begin : d1.m_begin = d.m_begin
  next : d1.heap.next = d.heap.next

/-- Effect of `pop_front` on a non-empty container. -/
structure PoppedFront (d d1 : Deque α) : Prop where
  inv : d1.Inv
  size : d1.m_size + 1 = d.m_size
  slot : ∀ j : Int, 0 ≤ j → d1.slot j = d.slot (j + 1)
  read : ∀ j : Int, 0 ≤ j → j < d1.m_size →
    d1.heap.read (d1.slot j) = d.heap.read (d.slot (j + 1))
  arr : d1.arr.slots = d.arr.slots ∧ d1.arr.end_ = d.arr.end_ ∧ d1.arr.store = d.arr.store ∧
    d1.arr.cur_end = d.arr.cur_end
  m_end : d1.m_end = d.m_end
  next : d1.heap.next = d.heap.next

end Deque

namespace Heap

/-- Heap `H1` has every element of `H` still constructed (possibly with another value)
and no further allocation. -/
def le (H H1 : Heap α) : Prop :=
  H1.next = H.next ∧ ∀ p, (H.read p).isSome → (H1.read p).isSome

end Heap

namespace Deque

/-- Effect of a successful `insert` at position `k`, `r` being the iterator returned. -/
structure Inserted (d d1 : Deque α) (k : Nat) (v : α) (r : BaseIterator) : Prop where
  inv : d1.Inv
  size : d1.m_size = d.m_size + 1
  before : ∀ j : Int, 0 ≤ j → j < k → d1.heap.read (d1.slot j) = d.heap.read (d.slot j)
  at_k : d1.heap.read (d1.slot k) = some v
  after : ∀ j : Int, k ≤ j → j < d.m_size →
    d1.heap.read (d1.slot (j + 1)) = d.heap.read (d.slot j)
  ret_pos : BaseIterator.distance d1.arr.slots r d1.begin = k
  ret_item : r.item = d1.slot k

/-- Effect of a successful `erase` at position `k`, `r` being the iterator returned. -/
structure Erased (d d1 : Deque α) (k : Nat) (r : BaseIterator) : Prop where
  inv : d1.Inv
  size : d1.m_size + 1 = d.m_size
  before : ∀ j : Int, 0 ≤ j → j < k → d1.heap.read (d1.slot j) = d.heap.read (d.slot j)
  after : ∀ j : Int, k ≤ j → j < d1.m_size →
    d1.heap.read (d1.slot j) = d.heap.read (d.slot (j + 1))
  ret_pos : BaseIterator.distance d1.arr.slots r d1.begin = k
  ret_item : r.item = d1.slot k

/-- The representation invariant without the clause on constructed elements. -/
structure Shape (d : Deque α) : Prop where
  cb_nonneg : 0 ≤ d.arr.cur_begin
  cb_le : d.arr.cur_begin ≤ d.arr.cur_end
  ce_le : d.arr.cur_end ≤ d.arr.end_
  win : ∀ i, d.arr.cur_begin ≤ i → i ≤ d.arr.cur_end → ∃ b, d.arr.slots i = .blk b
  sentinel : ∃ b, d.arr.slots d.arr.end_ = .blk b
  inj : ∀ i j b, 0 ≤ i → i ≤ d.arr.end_ → 0 ≤ j → j ≤ d.arr.end_ →
    d.arr.slots i = .blk b → d.arr.slots j = .blk b → i = j
  owned : ∀ i, 0 ≤ i → i ≤ d.arr.end_ →
    d.arr.slots i = .null ∨ ∃ b, d.arr.slots i = .blk b ∧ b < d.heap.next
  mb_base : d.m_begin.base = d.arr.slots d.arr.cur_begin
  mb_off : 0 ≤ d.m_begin.off ∧ d.m_begin.off < 32
  me_base : d.m_end.base = d.arr.slots d.arr.cur_end
  me_off : 0 ≤ d.m_end.off ∧ d.m_end.off < 32
  me_sentinel : d.arr.cur_end = d.arr.end_ → d.m_end.off = 0
  size_eq : (d.m_size : Int) =
    32 * (d.arr.cur_end - d.arr.cur_begin) + d.m_end.off - d.m_begin.off

end Deque

namespace Heap

/-- Heap `H1` differs from `H` only inside the blocks selected by `P`. -/
def same_off (P : Nat → Prop) (H H1 : Heap α) : Prop :=
  H1.next = H.next ∧ H1.cap = H.cap ∧ ∀ b, ¬ P b → H1.mem b = H.mem b

end Heap

namespace BaseIterator

/-- The iterator lies under a handle of its window, and the blocks of the window are
selected by `P`. -/
def Based (s : Int → Handle) (P : Nat → Prop) (it : BaseIterator) : Prop :=
  it.first ≤ it.cur_arr ∧ it.cur_arr ≤ it.last ∧ it.item.base = s it.cur_arr ∧
    ∀ i, it.first ≤ i → i ≤ it.last → ∀ b, s i = .blk b → P b

end BaseIterator

/-- The result of an operation, or `x` when it threw. -/
def Res.val_or (r : Res σ β) (x : β) : β :=
  match r with
  | .ok v => v
  | .threw _ _ => x

/-- An element type over `Nat` whose operations never throw, with an allocator that
never fails and places block `k` at address `1000 * (k + 1)`. -/
def demo_env : Env Nat :=
  { alloc_ok := fun _ => true
    addr := fun b => 1000 * ((b : Int) + 1)
    copy_ok := fun _ => true
    assign_ok := fun _ => true
    dflt := 0
    dflt_ok := fun _ => true }

/-- The same surroundings, except that copying a value of `100` or more throws. -/
def fragile_env : Env Nat :=
  { demo_env with copy_ok := fun v => decide (v < 100) }

/-- A heap in which nothing has been allocated. -/
def demo_heap : Heap Nat :=
  { next := 0, cap := fun _ => 0, mem := fun _ _ => none, freed := [], destroyed := [] }

/-- An object that stands for "no container". -/
def no_deque : Deque Nat :=
  ⟨⟨0, fun _ => Handle.null, 0, 0, 0⟩, 0, ⟨Handle.null, 0⟩, ⟨Handle.null, 0⟩, demo_heap⟩

/-- The container `Deque<Nat>()`. -/
def demo_empty (E : Env Nat) : Deque Nat := (Deque.ctor_default E demo_heap).val_or no_deque

/-- The container after `push_back(7)` on `Deque<Nat>()`. -/
def demo_one (E : Env Nat) : Deque Nat := ((demo_empty E).push_back E 7).val_or no_deque

/-- The container after `push_back(n - 1)`, ..., `push_back(0)` on `d`. -/
def demo_fill (E : Env Nat) : Nat → Deque Nat → Deque Nat
  | 0, d => d
  | n + 1, d => demo_fill E n ((d.push_back E n).val_or no_deque)

/-- The container after `push_back(2)`, `push_back(1)`, `push_back(0)` on
`Deque<Nat>()`. -/
def demo_three : Deque Nat := demo_fill demo_env 3 (demo_empty demo_env)

/-- The container after `push_front(9)` on `demo_three`: its first element is the last
slot of a chunk. -/
def demo_front : Deque Nat := (demo_three.push_front demo_env 9).val_or no_deque

/-- A second container, `Deque<Nat>(2, 5)`, built in the heap of `demo_three`. -/
def demo_other : Deque Nat := (Deque.ctor_n_val demo_env demo_three.heap 2 5).val_or no_deque

/-- The container `demo_three` seen in the heap that also holds `demo_other`. -/
def demo_three_beside : Deque Nat := { demo_three with heap := demo_other.heap }

/-- An element type whose default constructor throws at its 17th call (index `16`). -/
def throwing_env : Env Nat :=
  { demo_env with dflt_ok := fun t => decide (t ≠ 16) }

/-- The state an operation left behind when it threw, or `x` when it returned. -/
def Res.left_or (r : Res σ β) (x : σ) : σ :=
  match r with
  | .ok _ => x
  | .threw _ st => st

/-- Whether an operation returned. -/
def Res.is_ok (r : Res σ β) : Bool :=
  match r with
  | .ok _ => true
  | .threw _ _ => false

/-- Whether each of the `n` calls of `push_back` made by `demo_fill` returns. -/
def demo_fill_ok (E : Env Nat) : Nat → Deque Nat → Bool
  | 0, _ => true
  | n + 1, d => (d.push_back E n).is_ok && demo_fill_ok E n ((d.push_back E n).val_or no_deque)

/-- The surroundings of `demo_env` with an allocator that serves four requests and
fails from the fifth on. -/
def scarce_env : Env Nat :=
  { demo_env with alloc_ok := fun k => decide (k < 4) }

/-- The container after `Deque<Nat>()` and 31 calls of `push_back`, under the allocator
of `scarce_env`: one free slot is left in its only chunk. -/
def demo_nearly_full : Deque Nat := demo_fill scarce_env 31 (demo_empty scarce_env)

/-- The state `push_back(99)` leaves behind on `demo_nearly_full` when the allocation of
the next chunk fails. -/
def demo_starved : Deque Nat := (demo_nearly_full.push_back scarce_env 99).left_or no_deque

/-- The surroundings of `demo_env` with an allocator that fails from the fourth request
on. -/
def tiny_env : Env Nat :=
  { demo_env with alloc_ok := fun k => decide (k < 3) }

/-- The state the first `push_back(99)` leaves behind on `Deque<Nat>()` when the
allocation of the first chunk fails, after the handle array was regrown. -/
def demo_stranded : Deque Nat := ((demo_empty tiny_env).push_back tiny_env 99).left_or no_deque

namespace ChunkArray

end ChunkArray

/-- The container after 64 calls of `push_back` on `Deque<Nat>()`: two full chunks, its
window reaching the last slot of the handle array. -/
def demo_full : Deque Nat := demo_fill demo_env 64 (demo_empty demo_env)

namespace ChunkArray

/-- What the handle array and the heap keep between operations, beyond the
representation invariant: every handle from `begin` to `end` is null or the address of
an allocated block of its own, a block of `chunk_size` slots except for the handle at
`end`, whose block has one slot, and that slot holds no element. -/
structure Layout (a : ChunkArray) (h : Heap α) : Prop where
  end_nonneg : 0 ≤ a.end_
  inj : ∀ i j b, 0 ≤ i → i ≤ a.end_ → 0 ≤ j → j ≤ a.end_ →
    a.slots i = .blk b → a.slots j = .blk b → i = j
  own : ∀ i, 0 ≤ i → i ≤ a.end_ → a.slots i = .null ∨ ∃ b, a.slots i = .blk b ∧ b < h.next
  sent : ∃ b, a.slots a.end_ = .blk b
  caps : ∀ i b, 0 ≤ i → i ≤ a.end_ → a.slots i = .blk b →
    h.cap b = if i = a.end_ then 1 else chunk_size
  raw : ∀ p, p.base = a.slots a.end_ → h.read p = none

end ChunkArray

/-! ## Theorems -/

theorem chunk_size_eq : chunk_size = 32 := rfl

theorem ptr_chunk_size_eq : ptr_chunk_size = 32 := rfl

theorem size_t_mod_eq : size_t_mod = 18446744073709551616 := by decide

namespace Ptr

theorem ext_iff' (p q : Ptr) : p = q ↔ p.base = q.base ∧ p.off = q.off := by
  cases p; cases q; simp

@[simp] theorem add_base (p : Ptr) (k : Int) : (p.add k).base = p.base := rfl

@[simp] theorem add_off (p : Ptr) (k : Int) : (p.add k).off = p.off + k := rfl

end Ptr

namespace Handle

@[simp] theorem plus_base (h : Handle) (k : Int) : (h.plus k).base = h := rfl

@[simp] theorem plus_off (h : Handle) (k : Int) : (h.plus k).off = k := rfl

@[simp] theorem is_null_blk (b : Nat) : (Handle.blk b).is_null = false := rfl

@[simp] theorem is_null_null : Handle.null.is_null = true := rfl

end Handle

namespace Heap

theorem read_blk (h : Heap α) (p : Ptr) (b : Nat) (hb : p.base = .blk b) :
    h.read p = h.mem b p.off := by
  unfold read; rw [hb]

theorem read_store_same (h : Heap α) (p : Ptr) (v : α) (b : Nat) (hb : p.base = .blk b) :
    (h.store p v).read p = some v := by
  unfold read store; rw [hb]; simp

theorem read_store_ne (h : Heap α) (p q : Ptr) (v : α) (hne : q ≠ p) :
    (h.store p v).read q = h.read q := by
  unfold read store
  rcases hp : p.base with _ | _ | b <;> simp
  rcases hq : q.base with _ | _ | c <;> simp
  intro hbc hoff
  exact absurd ((Ptr.ext_iff' q p).2 ⟨by rw [hq, hp, hbc], hoff⟩) hne

@[simp] theorem store_next (h : Heap α) (p : Ptr) (v : α) : (h.store p v).next = h.next := by
  unfold store; split <;> rfl

@[simp] theorem destroy_next (h : Heap α) (p : Ptr) : (h.destroy p).next = h.next := by
  unfold destroy; split <;> rfl

theorem read_destroy_ne (h : Heap α) (p q : Ptr) (hne : q ≠ p) :
    (h.destroy p).read q = h.read q := by
  unfold read destroy
  rcases hp : p.base with _ | _ | b <;> simp
  rcases hq : q.base with _ | _ | c <;> simp
  intro hbc hoff
  exact absurd ((Ptr.ext_iff' q p).2 ⟨by rw [hq, hp, hbc], hoff⟩) hne

theorem alloc_ok (E : Env α) (hA : ∀ k, E.alloc_ok k = true) (h : Heap α) (n : Nat) :
    h.alloc E n = .ok (.blk h.next,
      { h with
        next := h.next + 1
        cap := fun b => if b = h.next then n else h.cap b
        mem := fun b o => if b = h.next then none else h.mem b o }) := by
  unfold alloc; simp [hA]

theorem alloc_handles_ok (E : Env α) (hA : ∀ k, E.alloc_ok k = true) (h : Heap α) :
    h.alloc_handles E = .ok (h.next, { h with next := h.next + 1 }) := by
  unfold alloc_handles; simp [hA]

end Heap

namespace Deque

theorem adjusted_eq (d : Deque α) (hi : d.Inv) (i : Nat) (hb : i + chunk_size ≤ size_t_mod) :
    ((d.adjusted i : Nat) : Int) = d.m_begin.off + i := by
  have h1 := hi.mb_off
  unfold adjusted Ptr.diff
  simp only [Handle.plus_off, chunk_size_eq, size_t_mod_eq] at *
  omega

theorem subscript_eq_slot (d : Deque α) (hi : d.Inv) (i : Nat)
    (hb : i + chunk_size ≤ size_t_mod) : d.subscript i = d.slot i := by
  have h := adjusted_eq d hi i hb
  unfold subscript slot
  simp only [chunk_size_eq]
  have e1 : ((d.adjusted i / 32 : Nat) : Int) = (d.m_begin.off + i) / 32 := by omega
  have e2 : ((d.adjusted i % 32 : Nat) : Int) = (d.m_begin.off + i) % 32 := by omega
  rw [e1, e2]

end Deque

namespace ChunkArray

theorem shift_loop_spec (ce : Int) :
    ∀ (n : Nat) (s : Int → Handle) (cb it : Int), cb + n = ce →
      (it + n ≤ cb ∨ cb + n ≤ it) →
      shift_loop ce n s cb it = (exchanged s cb it n, ce, it + n) := by
  intro n
  induction n with
  | zero =>
    intro s cb it h _
    simp only [shift_loop]
    refine Prod.ext ?_ (Prod.ext ?_ ?_)
    · funext k
      simp only [exchanged, Nat.cast_zero, add_zero]
      rw [if_neg (by omega), if_neg (by omega)]
    · simpa using h
    · simp
  | succ n ih =>
    intro s cb it h hd
    have hlt : cb < ce := by omega
    simp only [shift_loop, if_pos hlt]
    rw [ih (swap_slots s cb it) (cb + 1) (it + 1) (by omega) (by omega)]
    refine Prod.ext ?_ (Prod.ext rfl ?_)
    · funext k
      simp only [exchanged, swap_slots, set_slot]
      push_cast
      split_ifs <;> first | rfl | omega | (congr 1; omega)
    · simp only; push_cast; omega

theorem exchanged_swap (s : Int → Handle) (cb it : Int) (n : Nat)
    (hd : it + (n + 1) ≤ cb ∨ cb + (n + 1) ≤ it) :
    swap_slots (exchanged s cb it n) (cb + n) (it + n) = exchanged s cb it (n + 1) := by
  funext k
  simp only [exchanged, swap_slots, set_slot]
  split_ifs <;> first | rfl | omega | (congr 1; omega)

theorem shift_eq (a : ChunkArray) (_h0 : 0 ≤ a.cur_begin) (h1 : a.cur_begin ≤ a.cur_end)
    (h2 : a.cur_end ≤ a.end_) (h3 : 3 * (a.cur_end - a.cur_begin + 1) < a.end_ - a.begin + 1)
    (h4 : a.cur_begin = 0 ∨ a.cur_end = a.end_) :
    a.shift = { a with
      slots := exchanged a.slots a.cur_begin (a.end_ / 3)
        (a.cur_end - a.cur_begin + if a.cur_end = a.end_ then 0 else 1)
      cur_begin := a.end_ / 3
      cur_end := a.end_ / 3 + (a.cur_end - a.cur_begin) } := by
  simp only [begin, sub_zero] at h3
  have hnb : (a.end_ - a.begin).tdiv 3 = a.end_ / 3 := by
    simp only [begin, sub_zero]
    exact Int.tdiv_eq_ediv (by omega) (by norm_num)
  have hn : (((a.cur_end - a.cur_begin).toNat : Nat) : Int) = a.cur_end - a.cur_begin := by
    omega
  unfold shift
  simp only [hnb, begin, zero_add]
  rw [shift_loop_spec a.cur_end (a.cur_end - a.cur_begin).toNat a.slots a.cur_begin
    (a.end_ / 3) (by omega) (by omega)]
  simp only [hn]
  by_cases hc : a.cur_end = a.end_
  · simp [hc]
  · have hsw := exchanged_swap a.slots a.cur_begin (a.end_ / 3) (a.cur_end - a.cur_begin).toNat
      (by omega)
    simp only [hn] at hsw
    have e1 : a.cur_begin + (a.cur_end - a.cur_begin) = a.cur_end := by omega
    rw [e1] at hsw
    simp only [ne_eq, hc, not_false_eq_true, if_true, if_false, hsw]

theorem shift_rearr (a : ChunkArray) (h0 : 0 ≤ a.cur_begin) (h1 : a.cur_begin ≤ a.cur_end)
    (h2 : a.cur_end ≤ a.end_) (h3 : 3 * (a.cur_end - a.cur_begin + 1) < a.end_ - a.begin + 1)
    (h4 : a.cur_begin = 0 ∨ a.cur_end = a.end_)
    (hinj : ∀ i j b, 0 ≤ i → i ≤ a.end_ → 0 ≤ j → j ≤ a.end_ →
      a.slots i = .blk b → a.slots j = .blk b → i = j) :
    Rearr a a.shift ∧ a.shift.end_ = a.end_ := by
  rw [shift_eq a h0 h1 h2 h3 h4]
  simp only [begin, sub_zero] at h3
  refine ⟨⟨?_, ?_, ?_, ?_, ?_, ?_, ?_⟩, rfl⟩
  · simp only; omega
  · simp only; omega
  · simp only; omega
  · intro t ht1 ht2 ht3
    simp only [exchanged]
    rw [if_pos (by split_ifs <;> omega)]
    congr 1; omega
  · simp only [exchanged]
    rw [if_neg (by split_ifs <;> omega), if_neg (by split_ifs <;> omega)]
  · intro i j b hi0 hi1 hj0 hj1
    dsimp only at hi1 hj1 ⊢
    simp only [exchanged]
    split_ifs <;> intro hi hj <;>
      (have hq := hinj _ _ b (by omega) (by omega) (by omega) (by omega) hi hj; omega)
  · intro i hi0 hi1
    right
    dsimp only at hi1 ⊢
    simp only [exchanged]
    split_ifs
    · exact ⟨_, by omega, by omega, rfl⟩
    · exact ⟨_, by omega, by omega, rfl⟩
    · exact ⟨_, by omega, by omega, rfl⟩
    · exact ⟨_, by omega, by omega, rfl⟩
    · exact ⟨_, by omega, by omega, rfl⟩
    · exact ⟨_, by omega, by omega, rfl⟩

theorem reallocate_rearr (E : Env α) (hA : ∀ k, E.alloc_ok k = true) (h : Heap α)
    (a : ChunkArray) (h0 : 0 ≤ a.cur_begin) (h1 : a.cur_begin ≤ a.cur_end)
    (h2 : a.cur_end ≤ a.end_)
    (hinj : ∀ i j b, 0 ≤ i → i ≤ a.end_ → 0 ≤ j → j ≤ a.end_ →
      a.slots i = .blk b → a.slots j = .blk b → i = j) :
    ∃ a1 h1, a.reallocate E h = .ok (a1, h1) ∧ Rearr a a1 ∧
      h1.mem = h.mem ∧ h1.cap = h.cap ∧ h.next ≤ h1.next ∧ h1.destroyed = h.destroyed := by
  unfold reallocate
  rw [Heap.alloc_handles_ok E hA]
  refine ⟨_, _, rfl, ⟨?_, ?_, ?_, ?_, ?_, ?_, ?_⟩, rfl, rfl, ?_, rfl⟩
  · simp only [begin]; omega
  · simp only [begin]; omega
  · simp only [begin]; omega
  · intro t ht1 ht2 ht3
    simp only [begin, set_slot, sub_zero, zero_add]
    rw [if_neg (by omega), if_pos (by omega)]
    congr 1; omega
  · simp only [begin, set_slot, sub_zero, zero_add, if_true]
  · intro i j b hi0 hi1 hj0 hj1
    simp only [begin, set_slot, sub_zero, zero_add] at hi1 hj1 ⊢
    split_ifs <;> intro hi hj <;>
      first
      | omega
      | exact absurd hi (by simp)
      | exact absurd hj (by simp)
      | (have hq := hinj _ _ b (by omega) (by omega) (by omega) (by omega) hi hj; omega)
  · intro i hi0 hi1
    simp only [begin, set_slot, sub_zero, zero_add] at hi1 ⊢
    split_ifs
    · exact Or.inr ⟨_, by omega, le_refl _, rfl⟩
    · exact Or.inr ⟨_, by omega, by omega, rfl⟩
    · exact Or.inl rfl
  · simp [Heap.free]

theorem arr_update_spec (E : Env α) (hA : ∀ k, E.alloc_ok k = true) (h : Heap α)
    (a : ChunkArray) (h0 : 0 ≤ a.cur_begin) (h1 : a.cur_begin ≤ a.cur_end)
    (h2 : a.cur_end ≤ a.end_) (h4 : a.cur_begin = 0 ∨ a.cur_end = a.end_)
    (hinj : ∀ i j b, 0 ≤ i → i ≤ a.end_ → 0 ≤ j → j ≤ a.end_ →
      a.slots i = .blk b → a.slots j = .blk b → i = j) :
    ∃ a1 h1, a.update E h = .ok (a1, h1) ∧ Rearr a a1 ∧
      h1.mem = h.mem ∧ h1.cap = h.cap ∧ h.next ≤ h1.next ∧ h1.destroyed = h.destroyed := by
  unfold update
  split_ifs with hc
  · exact ⟨_, _, rfl, (shift_rearr a h0 h1 h2 hc h4 hinj).1, rfl, rfl, le_refl _, rfl⟩
  · exact reallocate_rearr E hA h a h0 h1 h2 hinj

end ChunkArray

namespace Deque

theorem Inv.end_nonneg {d : Deque α} (hi : d.Inv) : 0 ≤ d.arr.end_ := by
  have := hi.cb_nonneg; have := hi.cb_le; have := hi.ce_le; omega

theorem Inv.slot_blk {d : Deque α} (hi : d.Inv) (i : Int) (h0 : 0 ≤ i) (h1 : i ≤ d.arr.end_)
    (hn : d.arr.slots i ≠ .null) : ∃ b, d.arr.slots i = .blk b ∧ b < d.heap.next := by
  rcases hi.owned i h0 h1 with h | h
  · exact absurd h hn
  · exact h

theorem Inv.win_blk {d : Deque α} (hi : d.Inv) (i : Int) (h0 : d.arr.cur_begin ≤ i)
    (h1 : i ≤ d.arr.cur_end) : ∃ b, d.arr.slots i = .blk b ∧ b < d.heap.next := by
  obtain ⟨b, hb⟩ := hi.win i h0 h1
  have := hi.cb_nonneg; have := hi.ce_le
  exact hi.slot_blk i (by omega) (by omega) (by rw [hb]; simp)

theorem Inv.m_end_sentinel_iff {d : Deque α} (hi : d.Inv) :
    d.m_end = (d.arr.slots d.arr.end_).plus 0 ↔ d.arr.cur_end = d.arr.end_ := by
  have := hi.cb_nonneg; have := hi.cb_le; have := hi.ce_le
  constructor
  · intro h
    obtain ⟨b, hb⟩ := hi.sentinel
    have hbase : d.arr.slots d.arr.cur_end = .blk b := by
      rw [← hi.me_base, h, Handle.plus_base, hb]
    exact hi.inj _ _ b (by omega) (by omega) (by omega) (by omega) hbase hb
  · intro h
    rw [Ptr.ext_iff']
    exact ⟨by rw [hi.me_base, h, Handle.plus_base], by simpa using hi.me_sentinel h⟩

theorem Inv.m_begin_sentinel_iff {d : Deque α} (hi : d.Inv) :
    d.m_begin = (d.arr.slots d.arr.end_).plus 0 ↔ d.arr.cur_begin = d.arr.end_ := by
  have := hi.cb_nonneg; have := hi.cb_le; have := hi.ce_le
  constructor
  · intro h
    obtain ⟨b, hb⟩ := hi.sentinel
    have hbase : d.arr.slots d.arr.cur_begin = .blk b := by
      rw [← hi.mb_base, h, Handle.plus_base, hb]
    exact hi.inj _ _ b (by omega) (by omega) (by omega) (by omega) hbase hb
  · intro h
    have h2 : d.arr.cur_end = d.arr.end_ := by omega
    have := hi.me_sentinel h2
    have := hi.size_eq
    have := hi.mb_off
    rw [Ptr.ext_iff']
    exact ⟨by rw [hi.mb_base, h, Handle.plus_base], by simp only [Handle.plus_off]; omega⟩

theorem Inv.pos_in_window {d : Deque α} (hi : d.Inv) (j : Int) (h0 : 0 ≤ j)
    (h1 : j < d.m_size) :
    0 ≤ (d.m_begin.off + j) / 32 ∧
      d.arr.cur_begin + (d.m_begin.off + j) / 32 ≤ d.arr.cur_end ∧
      d.arr.cur_begin + (d.m_begin.off + j) / 32 < d.arr.end_ := by
  have := hi.mb_off; have := hi.me_off; have := hi.size_eq; have := hi.ce_le
  have hs := hi.me_sentinel
  refine ⟨by omega, by omega, ?_⟩
  by_contra hc
  have h2 : d.arr.cur_end = d.arr.end_ := by omega
  have := hs h2
  omega

theorem moved_intro (d d1 : Deque α) (hi : d.Inv)
    (hcb : 0 < d1.arr.cur_begin) (hce : d1.arr.cur_end < d1.arr.end_)
    (hlen : d1.arr.cur_end - d1.arr.cur_begin = d.arr.cur_end - d.arr.cur_begin)
    (hsize : d1.m_size = d.m_size)
    (hwin : ∀ t, 0 ≤ t → d.arr.cur_begin + t ≤ d.arr.cur_end →
      d.arr.cur_begin + t < d.arr.end_ →
      d1.arr.slots (d1.arr.cur_begin + t) = d.arr.slots (d.arr.cur_begin + t))
    (hlast : ∃ b, d1.arr.slots d1.arr.cur_end = .blk b)
    (hsent : ∃ b, d1.arr.slots d1.arr.end_ = .blk b)
    (hinj : ∀ i j b, 0 ≤ i → i ≤ d1.arr.end_ → 0 ≤ j → j ≤ d1.arr.end_ →
      d1.arr.slots i = .blk b → d1.arr.slots j = .blk b → i = j)
    (hown : ∀ i, 0 ≤ i → i ≤ d1.arr.end_ →
      d1.arr.slots i = .null ∨ ∃ b, d1.arr.slots i = .blk b ∧ b < d1.heap.next)
    (hmb : d1.m_begin = ⟨d1.arr.slots d1.arr.cur_begin, d.m_begin.off⟩)
    (hme : d1.m_end = ⟨d1.arr.slots d1.arr.cur_end, d.m_end.off⟩)
    (hmem : ∀ b, b < d.heap.next → d1.heap.mem b = d.heap.mem b)
    (hcap : ∀ b, b < d.heap.next → d1.heap.cap b = d.heap.cap b)
    (hnext : d.heap.next ≤ d1.heap.next)
    (hdes : d1.heap.destroyed = d.heap.destroyed) : Moved d d1 := by
  have := hi.cb_nonneg; have := hi.cb_le; have := hi.ce_le
  have hob : d1.m_begin.off = d.m_begin.off := by rw [hmb]
  have hoe : d1.m_end.off = d.m_end.off := by rw [hme]
  refine ⟨⟨by omega, by omega, by omega, ?_, hsent, hinj, hown, by rw [hmb], ?_, by rw [hme],
    ?_, ?_, ?_, ?_⟩, hcb, hce, hlen, hsize, hob, hoe, hwin, hmem, hcap, hnext, hdes⟩
  · intro i h0 h1
    by_cases hl : i = d1.arr.cur_end
    · rw [hl]; exact hlast
    · have e : i = d1.arr.cur_begin + (i - d1.arr.cur_begin) := by omega
      rw [e, hwin _ (by omega) (by omega) (by omega)]
      exact hi.win _ (by omega) (by omega)
  · rw [hob]; exact hi.mb_off
  · rw [hoe]; exact hi.me_off
  · intro h; omega
  · rw [hob, hoe, hlen, hsize]; exact hi.size_eq
  · intro j hj
    rw [hsize] at hj
    obtain ⟨p0, p1, p2⟩ := hi.pos_in_window j (by omega) (by exact_mod_cast hj)
    obtain ⟨x, hx⟩ := hi.live j hj
    obtain ⟨b, hb, hbn⟩ := hi.win_blk _ (by omega : d.arr.cur_begin ≤ _) p1
    refine ⟨x, ?_⟩
    have hs : d1.slot j = d.slot j := by
      unfold slot
      rw [hob, hwin _ p0 p1 p2]
    rw [hs, ← hx]
    have hbase : (d.slot j).base = .blk b := by unfold slot; rw [Handle.plus_base, hb]
    rw [Heap.read_blk _ _ b hbase, Heap.read_blk _ _ b hbase, hmem b hbn]

theorem ensure_chunk_spec (E : Env α) (hA : ∀ k, E.alloc_ok k = true) (d : Deque α) (k : Int)
    (hk0 : 0 ≤ k) (hk1 : k ≤ d.arr.end_)
    (hinj : ∀ i j b, 0 ≤ i → i ≤ d.arr.end_ → 0 ≤ j → j ≤ d.arr.end_ →
      d.arr.slots i = .blk b → d.arr.slots j = .blk b → i = j)
    (hown : ∀ i, 0 ≤ i → i ≤ d.arr.end_ →
      d.arr.slots i = .null ∨ ∃ b, d.arr.slots i = .blk b ∧ b < d.heap.next) :
    ∃ d2, d.ensure_chunk E k = .ok d2 ∧ Filled d d2 k := by
  unfold ensure_chunk
  rcases hown k hk0 hk1 with hnull | ⟨b0, hb0, hb0n⟩
  · rw [hnull]
    simp only [Handle.is_null_null, if_true, Heap.alloc_ok E hA]
    refine ⟨_, rfl, ⟨rfl, rfl, rfl, rfl, rfl, rfl, ⟨d.heap.next, ?_⟩, ?_, ?_, ?_, ?_, ?_, ?_, ?_,
      rfl⟩⟩
    · simp [ChunkArray.set_slot]
    · intro i hne; simp [ChunkArray.set_slot, hne]
    · intro h; exact absurd hnull h
    · intro i j b hi0 hi1 hj0 hj1
      simp only [ChunkArray.set_slot]
      split_ifs with c1 c2 c2
      · intro _ _; omega
      · intro hx hy
        rcases hown j hj0 hj1 with h | ⟨b', hb', hlt⟩
        · rw [h] at hy; exact absurd hy (by simp)
        · rw [hb'] at hy; cases hy; cases hx; omega
      · intro hx hy
        rcases hown i hi0 hi1 with h | ⟨b', hb', hlt⟩
        · rw [h] at hx; exact absurd hx (by simp)
        · rw [hb'] at hx; cases hx; cases hy; omega
      · exact hinj i j b hi0 hi1 hj0 hj1
    · intro i hi0 hi1
      simp only [ChunkArray.set_slot]
      split_ifs
      · exact Or.inr ⟨_, rfl, by omega⟩
      · rcases hown i hi0 hi1 with h | ⟨b', hb', hlt⟩
        · exact Or.inl h
        · exact Or.inr ⟨b', hb', by omega⟩
    · intro b hb; funext o; simp only; rw [if_neg (by omega)]
    · intro b hb; simp only; rw [if_neg (by omega)]
    · simp only; omega
  · rw [hb0]
    simp only [Handle.is_null_blk, Bool.false_eq_true, if_false]
    exact ⟨d, rfl, ⟨rfl, rfl, rfl, rfl, rfl, rfl, ⟨b0, hb0⟩, fun _ _ => rfl, fun _ => rfl, hinj,
      hown, fun _ _ => rfl, fun _ _ => rfl, le_refl _, rfl⟩⟩

theorem update_spec (E : Env α) (hA : ∀ k, E.alloc_ok k = true) (d : Deque α) (hi : d.Inv)
    (hedge : d.arr.cur_begin = 0 ∨ d.arr.cur_end = d.arr.end_) :
    ∃ d1, d.update E = .ok d1 ∧ Moved d d1 := by
  have hcb := hi.cb_nonneg; have hcl := hi.cb_le; have hce := hi.ce_le
  obtain ⟨a1, h1, he, hr, hm, hc, hn, hds⟩ :=
    ChunkArray.arr_update_spec E hA d.heap d.arr hi.cb_nonneg hi.cb_le hi.ce_le hedge hi.inj
  have hlen := hr.len; have hcb1 := hr.cb_pos; have hce1 := hr.ce_lt
  have hown1 : ∀ i, 0 ≤ i → i ≤ a1.end_ →
      a1.slots i = .null ∨ ∃ b, a1.slots i = .blk b ∧ b < h1.next := by
    intro i h0 h1'
    rcases hr.old i h0 h1' with h | ⟨j, hj0, hj1, hj⟩
    · exact Or.inl h
    · rw [hj]
      rcases hi.owned j hj0 hj1 with h | ⟨b, hb, hlt⟩
      · exact Or.inl h
      · exact Or.inr ⟨b, hb, by omega⟩
  have hsent1 : ∃ b, a1.slots a1.end_ = .blk b := by rw [hr.sent]; exact hi.sentinel
  unfold update
  rw [he]
  simp only []
  by_cases hc0 : d.arr.cur_end = d.arr.end_
  · -- the end marker sits on the one-element block
    have hme : d.m_end = (a1.slots a1.end_).plus 0 := by
      rw [hr.sent]; exact hi.m_end_sentinel_iff.2 hc0
    have hoe : d.m_end.off = 0 := hi.me_sentinel hc0
    rw [if_pos hme]
    obtain ⟨d2, h2, hf⟩ := ensure_chunk_spec E hA { d with arr := a1, heap := h1 } a1.cur_end
      (by omega) (by simp only; omega) hr.inj hown1
    rw [h2]
    simp only []
    have f1 := hf.m_begin; have f2 := hf.m_end; have f3 := hf.m_size
    have f4 := hf.cur_begin; have f5 := hf.cur_end; have f6 := hf.end_
    simp only at f1 f2 f3 f4 f5 f6
    have hse : d2.arr.slots d2.arr.end_ = a1.slots a1.end_ := by
      rw [f6]; exact hf.other _ (by omega)
    have hwin : ∀ t, 0 ≤ t → d.arr.cur_begin + t ≤ d.arr.cur_end →
        d.arr.cur_begin + t < d.arr.end_ →
        d2.arr.slots (d2.arr.cur_begin + t) = d.arr.slots (d.arr.cur_begin + t) := by
      intro t h0 h1' h2'
      rw [f4, hf.other _ (by omega)]
      exact hr.win t h0 h1' h2'
    have hmem : ∀ b, b < d.heap.next → d2.heap.mem b = d.heap.mem b := by
      intro b hb; rw [hf.mem b (by simp only; omega)]; show h1.mem b = _; rw [hm]
    have hcap : ∀ b, b < d.heap.next → d2.heap.cap b = d.heap.cap b := by
      intro b hb; rw [hf.cap b (by simp only; omega)]; show h1.cap b = _; rw [hc]
    have hnx : d.heap.next ≤ d2.heap.next := le_trans hn hf.next
    have hdes : d2.heap.destroyed = d.heap.destroyed := by
      rw [hf.destroyed]; exact hds
    by_cases hb : d.arr.cur_begin = d.arr.end_
    · have hmb : d2.m_begin = (d2.arr.slots d2.arr.end_).plus 0 := by
        rw [f1, hse, hr.sent]; exact hi.m_begin_sentinel_iff.2 hb
      rw [if_pos hmb]
      have hob : d.m_begin.off = 0 := by rw [← f1, hmb]; rfl
      refine ⟨_, rfl, ?_⟩
      apply moved_intro d _ hi
      · simp only; omega
      · simp only; omega
      · simp only; omega
      · exact f3
      · exact hwin
      · simp only; rw [f5]; exact hf.at_k
      · simp only; rw [hse]; exact hsent1
      · exact hf.inj
      · exact hf.owned
      · simp only [Handle.plus, hob]
        rw [show d2.arr.cur_begin = d2.arr.cur_end by omega]
      · simp only [Handle.plus, hoe]
      · exact hmem
      · exact hcap
      · exact hnx
      · exact hdes
    · have hmb : ¬ d2.m_begin = (d2.arr.slots d2.arr.end_).plus 0 := by
        rw [f1, hse, hr.sent]; exact fun h => hb (hi.m_begin_sentinel_iff.1 h)
      rw [if_neg hmb]
      refine ⟨_, rfl, ?_⟩
      apply moved_intro d _ hi
      · simp only; omega
      · simp only; omega
      · simp only; omega
      · exact f3
      · exact hwin
      · simp only; rw [f5]; exact hf.at_k
      · simp only; rw [hse]; exact hsent1
      · exact hf.inj
      · exact hf.owned
      · simp only
        have := hwin 0 (le_refl _) (by omega) (by omega)
        simp only [add_zero] at this
        rw [f1, this, ← hi.mb_base]
      · simp only [Handle.plus, hoe]
      · exact hmem
      · exact hcap
      · exact hnx
      · exact hdes
  · have hme : ¬ d.m_end = (a1.slots a1.end_).plus 0 := by
      rw [hr.sent]; exact fun h => hc0 (hi.m_end_sentinel_iff.1 h)
    rw [if_neg hme]
    refine ⟨_, rfl, ?_⟩
    apply moved_intro d _ hi
    · exact hcb1
    · exact hce1
    · exact hlen
    · rfl
    · exact hr.win
    · simp only
      have := hr.win (d.arr.cur_end - d.arr.cur_begin) (by omega) (by omega) (by omega)
      rw [show a1.cur_begin + (d.arr.cur_end - d.arr.cur_begin) = a1.cur_end by omega,
        show d.arr.cur_begin + (d.arr.cur_end - d.arr.cur_begin) = d.arr.cur_end by omega] at this
      rw [this]; exact hi.win _ hcl (le_refl _)
    · exact hsent1
    · exact hr.inj
    · exact hown1
    · simp only
      have := hr.win 0 (le_refl _) (by omega) (by omega)
      simp only [add_zero] at this
      rw [this, ← hi.mb_base]
    · simp only
      have := hr.win (d.arr.cur_end - d.arr.cur_begin) (by omega) (by omega) (by omega)
      rw [show a1.cur_begin + (d.arr.cur_end - d.arr.cur_begin) = a1.cur_end by omega,
        show d.arr.cur_begin + (d.arr.cur_end - d.arr.cur_begin) = d.arr.cur_end by omega] at this
      rw [this, ← hi.me_base]
    · intro b _; simp only; rw [hm]
    · intro b _; simp only; rw [hc]
    · exact hn
    · exact hds

@[simp] theorem slot_base (d : Deque α) (j : Int) :
    (d.slot j).base = d.arr.slots (d.arr.cur_begin + (d.m_begin.off + j) / 32) := rfl

@[simp] theorem slot_off (d : Deque α) (j : Int) :
    (d.slot j).off = (d.m_begin.off + j) % 32 := rfl

theorem slot_congr (d d1 : Deque α) (j : Int) (hob : d1.m_begin.off = d.m_begin.off)
    (h : d1.arr.slots (d1.arr.cur_begin + (d.m_begin.off + j) / 32) =
      d.arr.slots (d.arr.cur_begin + (d.m_begin.off + j) / 32)) :
    d1.slot j = d.slot j := by
  unfold slot; rw [hob, h]

theorem slot_inj_raw (d : Deque α)
    (hinj : ∀ i j b, 0 ≤ i → i ≤ d.arr.end_ → 0 ≤ j → j ≤ d.arr.end_ →
      d.arr.slots i = .blk b → d.arr.slots j = .blk b → i = j)
    (j k : Int)
    (hj0 : 0 ≤ d.arr.cur_begin + (d.m_begin.off + j) / 32)
    (hj1 : d.arr.cur_begin + (d.m_begin.off + j) / 32 ≤ d.arr.end_)
    (hk0 : 0 ≤ d.arr.cur_begin + (d.m_begin.off + k) / 32)
    (hk1 : d.arr.cur_begin + (d.m_begin.off + k) / 32 ≤ d.arr.end_)
    (hb : ∃ b, d.arr.slots (d.arr.cur_begin + (d.m_begin.off + j) / 32) = .blk b)
    (h : d.slot j = d.slot k) : j = k := by
  obtain ⟨b, hb⟩ := hb
  rw [Ptr.ext_iff'] at h
  simp only [slot_base, slot_off] at h
  have hk : d.arr.slots (d.arr.cur_begin + (d.m_begin.off + k) / 32) = .blk b := by
    rw [← h.1, hb]
  have := hinj _ _ b hj0 hj1 hk0 hk1 hb hk
  omega

/-- Positions from `0` to `size()` lie under the handles of the active window. -/
theorem Inv.pos_le {d : Deque α} (hi : d.Inv) (j : Int) (h0 : 0 ≤ j) (h1 : j ≤ d.m_size) :
    0 ≤ (d.m_begin.off + j) / 32 ∧
      d.arr.cur_begin + (d.m_begin.off + j) / 32 ≤ d.arr.cur_end := by
  have := hi.mb_off; have := hi.me_off; have := hi.size_eq
  constructor <;> omega

theorem Inv.slot_inj {d : Deque α} (hi : d.Inv) (j k : Int) (hj0 : 0 ≤ j) (hj1 : j ≤ d.m_size)
    (hk0 : 0 ≤ k) (hk1 : k ≤ d.m_size) (h : d.slot j = d.slot k) : j = k := by
  have := hi.cb_nonneg; have := hi.ce_le
  obtain ⟨a1, a2⟩ := hi.pos_le j hj0 hj1
  obtain ⟨b1, b2⟩ := hi.pos_le k hk0 hk1
  exact slot_inj_raw d hi.inj j k (by omega) (by omega) (by omega) (by omega)
    (hi.win _ (by omega) a2) h

theorem Inv.m_begin_eq {d : Deque α} (hi : d.Inv) : d.m_begin = d.slot 0 := by
  have := hi.mb_off
  rw [Ptr.ext_iff']
  simp only [slot_base, slot_off, add_zero]
  rw [show d.m_begin.off / 32 = 0 by omega, show d.m_begin.off % 32 = d.m_begin.off by omega]
  simp [hi.mb_base]

theorem Inv.m_end_eq {d : Deque α} (hi : d.Inv) : d.m_end = d.slot d.m_size := by
  have := hi.mb_off; have := hi.me_off; have := hi.size_eq
  rw [Ptr.ext_iff']
  simp only [slot_base, slot_off]
  rw [show (d.m_begin.off + (d.m_size : Int)) / 32 = d.arr.cur_end - d.arr.cur_begin by omega,
    show (d.m_begin.off + (d.m_size : Int)) % 32 = d.m_end.off by omega]
  simp [hi.me_base]

theorem Inv.slot_blk' {d : Deque α} (hi : d.Inv) (j : Int) (h0 : 0 ≤ j) (h1 : j ≤ d.m_size) :
    ∃ b, (d.slot j).base = .blk b ∧ b < d.heap.next := by
  obtain ⟨a1, a2⟩ := hi.pos_le j h0 h1
  exact hi.win_blk _ (by omega) a2

theorem Moved.slot_moved {d d1 : Deque α} (hm : Moved d d1) (hi : d.Inv) (j : Int) (h0 : 0 ≤ j)
    (h1 : j < d.m_size) : d1.slot j = d.slot j := by
  obtain ⟨p0, p1, p2⟩ := hi.pos_in_window j h0 h1
  exact slot_congr d d1 j hm.ob (hm.win _ p0 p1 p2)

theorem Moved.read_moved {d d1 : Deque α} (hm : Moved d d1) (hi : d.Inv) (j : Int) (h0 : 0 ≤ j)
    (h1 : j < d.m_size) : d1.heap.read (d1.slot j) = d.heap.read (d.slot j) := by
  rw [hm.slot_moved hi j h0 h1]
  obtain ⟨b, hb, hlt⟩ := hi.slot_blk' j h0 (by omega)
  rw [Heap.read_blk _ _ b hb, Heap.read_blk _ _ b hb, hm.mem b hlt]

theorem next_end_spec (E : Env α) (hA : ∀ k, E.alloc_ok k = true) (d : Deque α) (hi : d.Inv)
    (hce : d.arr.cur_end < d.arr.end_) (x : α) (hx : d.heap.read d.m_end = some x) :
    ∃ d1, d.next_end E = .ok d1 ∧ Grown d d1 := by
  have hcb := hi.cb_nonneg; have hcl := hi.cb_le
  have hmb := hi.mb_off; have hme := hi.me_off; have hsz := hi.size_eq
  unfold next_end
  simp only []
  by_cases hc : d.m_end.off + 1 = 32
  · have hcond : d.m_end.add 1 = (d.arr.slots d.arr.cur_end).plus chunk_size := by
      rw [Ptr.ext_iff']
      simp only [Ptr.add_base, Ptr.add_off, Handle.plus_base, Handle.plus_off, chunk_size_eq]
      exact ⟨hi.me_base, by exact_mod_cast hc⟩
    rw [if_pos hcond]
    obtain ⟨d3, h3, hf⟩ := ensure_chunk_spec E hA
      { d with m_end := d.m_end.add 1, m_size := d.m_size + 1,
               arr := { d.arr with cur_end := d.arr.cur_end + 1 } }
      (d.arr.cur_end + 1) (by omega) (by simp only; omega) hi.inj hi.owned
    rw [h3]
    simp only []
    have f1 := hf.m_begin; have f3 := hf.m_size
    have f4 := hf.cur_begin; have f5 := hf.cur_end; have f6 := hf.end_
    simp only at f1 f3 f4 f5 f6
    have hsl : ∀ i, i ≤ d.arr.cur_end → d3.arr.slots i = d.arr.slots i := by
      intro i hle; exact hf.other i (by omega)
    have hmem : ∀ b, b < d.heap.next → d3.heap.mem b = d.heap.mem b := hf.mem
    refine ⟨_, rfl, ⟨⟨?_, ?_, ?_, ?_, ?_, hf.inj, hf.owned, ?_, ?_, ?_, ?_, ?_, ?_, ?_⟩, f3, f1,
      f4, hsl, hmem, hf.cap, hf.next, hf.destroyed⟩⟩
    · simp only; omega
    · simp only; omega
    · simp only; omega
    · intro i h0 h1
      simp only at h0 h1 ⊢
      by_cases hl : i = d.arr.cur_end + 1
      · rw [hl]; exact hf.at_k
      · rw [hsl i (by omega)]; exact hi.win i (by omega) (by omega)
    · simp only
      by_cases hl : d.arr.end_ = d.arr.cur_end + 1
      · rw [f6, hl]; exact hf.at_k
      · rw [f6, hf.other _ hl]; exact hi.sentinel
    · simp only; rw [f1, f4, hsl _ hcl]; exact hi.mb_base
    · simp only; rw [f1]; exact hmb
    · rfl
    · simp only [Handle.plus_off]; omega
    · intro _; rfl
    · simp only [Handle.plus_off]; rw [f3, f4, f5, f1]; push_cast; omega
    · intro j hj
      simp only at hj
      rw [f3] at hj
      have hs : ({ d3 with m_end := (d3.arr.slots d3.arr.cur_end).plus 0 } : Deque α).slot j
          = d.slot j := by
        obtain ⟨p0, p1⟩ := hi.pos_le j (by omega) (by omega)
        exact slot_congr d _ j (by simp only; rw [f1])
          (by simp only; rw [f4]; exact hsl _ p1)
      rw [hs]
      obtain ⟨b, hb, hlt⟩ := hi.slot_blk' j (by omega) (by omega)
      simp only
      rw [Heap.read_blk _ _ b hb, hmem b hlt, ← Heap.read_blk _ _ b hb]
      by_cases hjn : j < d.m_size
      · exact hi.live j hjn
      · have : j = d.m_size := by omega
        rw [this, ← hi.m_end_eq]; exact ⟨x, hx⟩
  · have hcond : ¬ d.m_end.add 1 = (d.arr.slots d.arr.cur_end).plus chunk_size := by
      rw [Ptr.ext_iff']
      simp only [Ptr.add_base, Ptr.add_off, Handle.plus_base, Handle.plus_off, chunk_size_eq]
      intro h; exact hc (by exact_mod_cast h.2)
    rw [if_neg hcond]
    refine ⟨_, rfl, ⟨⟨hcb, hcl, hi.ce_le, hi.win, hi.sentinel, hi.inj, hi.owned, hi.mb_base, hmb,
      hi.me_base, ?_, ?_, ?_, ?_⟩, rfl, rfl, rfl, fun _ _ => rfl, fun _ _ => rfl, fun _ _ => rfl,
      le_refl _, rfl⟩⟩
    · simp only [Ptr.add_off]; omega
    · intro h; simp only at h; omega
    · simp only [Ptr.add_off]; push_cast; omega
    · intro j hj
      simp only at hj
      have hs : ({ d with m_end := d.m_end.add 1, m_size := d.m_size + 1 } : Deque α).slot j
          = d.slot j := rfl
      rw [hs]
      by_cases hjn : j < d.m_size
      · exact hi.live j hjn
      · have : j = d.m_size := by omega
        rw [this, ← hi.m_end_eq]; exact ⟨x, hx⟩

theorem Inv.store {d : Deque α} (hi : d.Inv) (p : Ptr) (v : α) :
    ({ d with heap := d.heap.store p v } : Deque α).Inv := by
  refine ⟨hi.cb_nonneg, hi.cb_le, hi.ce_le, hi.win, hi.sentinel, hi.inj, ?_, hi.mb_base,
    hi.mb_off, hi.me_base, hi.me_off, hi.me_sentinel, hi.size_eq, ?_⟩
  · intro i h0 h1
    simp only [Heap.store_next]
    exact hi.owned i h0 h1
  · intro j hj
    obtain ⟨x, hx⟩ := hi.live j hj
    show ∃ y, (d.heap.store p v).read (d.slot j) = some y
    by_cases hp : d.slot j = p
    · obtain ⟨b, hb, _⟩ := hi.slot_blk' j (by omega) (by simp only at hj; omega)
      rw [← hp]
      exact ⟨v, Heap.read_store_same _ _ _ b hb⟩
    · exact ⟨x, by rw [Heap.read_store_ne _ _ _ _ hp, hx]⟩

theorem Grown.slot_grown {d d1 : Deque α} (hg : Grown d d1) (hi : d.Inv) (j : Int) (h0 : 0 ≤ j)
    (h1 : j ≤ d.m_size) : d1.slot j = d.slot j := by
  obtain ⟨p0, p1⟩ := hi.pos_le j h0 h1
  exact slot_congr d d1 j (by rw [hg.m_begin]) (by rw [hg.cur_begin]; exact hg.slots _ p1)

theorem Grown.read_grown {d d1 : Deque α} (hg : Grown d d1) (hi : d.Inv) (j : Int) (h0 : 0 ≤ j)
    (h1 : j ≤ d.m_size) : d1.heap.read (d1.slot j) = d.heap.read (d.slot j) := by
  rw [hg.slot_grown hi j h0 h1]
  obtain ⟨b, hb, hlt⟩ := hi.slot_blk' j h0 h1
  rw [Heap.read_blk _ _ b hb, Heap.read_blk _ _ b hb, hg.mem b hlt]

theorem Ready.read_ready {d d1 : Deque α} (hr : Ready d d1) (hi : d.Inv) (j : Int) (h0 : 0 ≤ j)
    (h1 : j < d.m_size) : d1.heap.read (d1.slot j) = d.heap.read (d.slot j) := by
  rw [hr.slot j h0 h1]
  obtain ⟨b, hb, hlt⟩ := hi.slot_blk' j h0 (by omega)
  rw [Heap.read_blk _ _ b hb, Heap.read_blk _ _ b hb, hr.mem b hlt]

theorem pre_back (E : Env α) (hA : ∀ k, E.alloc_ok k = true) (d : Deque α) (hi : d.Inv) :
    ∃ d1, (if d.arr.cur_end = d.arr.end_ then d.update E else .ok d) = .ok d1 ∧ Ready d d1 := by
  by_cases hc : d.arr.cur_end = d.arr.end_
  · obtain ⟨d1, h1, hm⟩ := update_spec E hA d hi (Or.inr hc)
    rw [if_pos hc, h1]
    exact ⟨d1, rfl, ⟨hm.inv, hm.ce_lt, hm.size, fun j h0 h1 => hm.slot_moved hi j h0 h1, hm.mem,
      hm.cap, hm.next, hm.destroyed⟩⟩
  · rw [if_neg hc]
    have := hi.ce_le
    exact ⟨d, rfl, ⟨hi, by omega, rfl, fun _ _ _ => rfl, fun _ _ => rfl, fun _ _ => rfl,
      le_refl _, rfl⟩⟩

theorem push_back_spec (E : Env α) (hA : ∀ k, E.alloc_ok k = true) (d : Deque α) (hi : d.Inv)
    (v : α) (hv : E.copy_ok v = true) :
    ∃ d1, d.push_back E v = .ok d1 ∧ PushedBack d d1 v := by
  obtain ⟨dU, hU, hr⟩ := pre_back E hA d hi
  unfold push_back
  rw [hU]
  simp only [Heap.construct, hv, if_true]
  have hiC : ({ dU with heap := dU.heap.store dU.m_end v } : Deque α).Inv := hr.inv.store _ _
  obtain ⟨b, hb, hlt⟩ := hr.inv.slot_blk' dU.m_size (by omega) (le_refl _)
  rw [← hr.inv.m_end_eq] at hb
  obtain ⟨d1, h1, hg⟩ := next_end_spec E hA _ hiC hr.ce_lt v
    (Heap.read_store_same _ _ _ b hb)
  rw [h1]
  refine ⟨d1, rfl, ⟨hg.inv, by rw [hg.size]; exact congrArg (· + 1) hr.size, ?_, ?_, ?_, ?_⟩⟩
  · intro j h0 h1'
    rw [hg.slot_grown hiC j h0 (by simp only; rw [hr.size]; omega)]
    exact hr.slot j h0 h1'
  · intro j h0 h1'
    rw [hg.read_grown hiC j h0 (by simp only; rw [hr.size]; omega)]
    show (dU.heap.store dU.m_end v).read (dU.slot j) = _
    have hne : dU.slot j ≠ dU.m_end := by
      rw [hr.inv.m_end_eq]
      intro h
      have := hr.inv.slot_inj j dU.m_size h0 (by rw [hr.size]; omega) (by omega) (le_refl _) h
      rw [hr.size] at this; omega
    rw [Heap.read_store_ne _ _ _ _ hne]
    exact hr.read_ready hi j h0 h1'
  · rw [← hr.size]
    rw [hg.read_grown hiC dU.m_size (by omega) (le_refl _)]
    show (dU.heap.store dU.m_end v).read (dU.slot dU.m_size) = _
    rw [← hr.inv.m_end_eq]
    exact Heap.read_store_same _ _ _ b hb
  · have := hg.next; simp only [Heap.store_next] at this
    exact le_trans hr.next this

theorem push_back_throw (E : Env α) (hA : ∀ k, E.alloc_ok k = true) (d : Deque α) (hi : d.Inv)
    (v : α) (hv : E.copy_ok v = false) :
    ∃ d1, d.push_back E v = .threw .elem_throw d1 ∧ Ready d d1 := by
  obtain ⟨dU, hU, hr⟩ := pre_back E hA d hi
  unfold push_back
  rw [hU]
  simp only [Heap.construct, hv]
  exact ⟨dU, rfl, hr⟩

theorem ReadyFront.read_readyfront {d d1 : Deque α} (hr : ReadyFront d d1) (hi : d.Inv) (j : Int)
    (h0 : 0 ≤ j) (h1 : j < d.m_size) :
    d1.heap.read (d1.slot j) = d.heap.read (d.slot j) := by
  rw [hr.slot j h0 h1]
  obtain ⟨b, hb, hlt⟩ := hi.slot_blk' j h0 (by omega)
  rw [Heap.read_blk _ _ b hb, Heap.read_blk _ _ b hb, hr.mem b hlt]

theorem pre_front (E : Env α) (hA : ∀ k, E.alloc_ok k = true) (d : Deque α) (hi : d.Inv) :
    ∃ d1, (if d.arr.cur_begin = d.arr.begin then d.update E else .ok d) = .ok d1 ∧
      ReadyFront d d1 := by
  by_cases hc : d.arr.cur_begin = d.arr.begin
  · obtain ⟨d1, h1, hm⟩ := update_spec E hA d hi (Or.inl hc)
    rw [if_pos hc, h1]
    exact ⟨d1, rfl, ⟨hm.inv, hm.cb_pos, hm.size, hm.ob, fun j h0 h1 => hm.slot_moved hi j h0 h1,
      hm.mem, hm.cap, hm.next, hm.destroyed⟩⟩
  · rw [if_neg hc]
    have := hi.cb_nonneg
    simp only [ChunkArray.begin] at hc
    exact ⟨d, rfl, ⟨hi, by omega, rfl, rfl, fun _ _ _ => rfl, fun _ _ => rfl, fun _ _ => rfl,
      le_refl _, rfl⟩⟩

theorem Inv.m_begin_start_iff {d : Deque α} (hi : d.Inv) :
    d.m_begin = (d.arr.slots d.arr.cur_begin).plus 0 ↔ d.m_begin.off = 0 := by
  rw [Ptr.ext_iff']
  simp only [Handle.plus_base, Handle.plus_off]
  exact ⟨fun h => h.2, fun h => ⟨hi.mb_base, h⟩⟩

/-- `push_front` when the first chunk has room before `m_begin`. -/
theorem push_front_room (E : Env α) (d : Deque α) (hi : d.Inv) (v : α)
    (hv : E.copy_ok v = true) (hob : d.m_begin.off ≠ 0) :
    ∃ d1, d.push_front E v = .ok d1 ∧ PushedFront d d1 v := by
  have hcb := hi.cb_nonneg; have hcl := hi.cb_le; have hcel := hi.ce_le
  have hmb := hi.mb_off; have hme := hi.me_off; have hsz := hi.size_eq
  have hne : d.m_begin ≠ (d.arr.slots d.arr.cur_begin).plus 0 :=
    fun h => hob (hi.m_begin_start_iff.1 h)
  unfold push_front
  rw [if_pos hne]
  simp only [Heap.construct, hv, if_true]
  refine ⟨_, rfl, ?_⟩
  have hsl : ∀ j : Int,
      ({ d with
         heap := d.heap.store (d.m_begin.add (-1)) v
         m_begin := d.m_begin.add (-1)
         m_size := d.m_size + 1 } : Deque α).slot (j + 1) = d.slot j := by
    intro j
    unfold Deque.slot
    simp only [Ptr.add_off]
    rw [show d.m_begin.off + -1 + (j + 1) = d.m_begin.off + j by omega]
  have hp : d.m_begin.add (-1) = d.slot (-1) := by
    rw [Ptr.ext_iff']
    simp only [Ptr.add_base, Ptr.add_off, slot_base, slot_off]
    rw [show (d.m_begin.off + -1) / 32 = 0 by omega,
      show (d.m_begin.off + -1) % 32 = d.m_begin.off + -1 by omega]
    simp [hi.mb_base]
  obtain ⟨b0, hb0⟩ := hi.win d.arr.cur_begin (le_refl _) hcl
  have hpb : (d.m_begin.add (-1)).base = .blk b0 := by
    rw [Ptr.add_base, hi.mb_base, hb0]
  have hrd : ∀ j : Int, 0 ≤ j → j < d.m_size →
      (d.heap.store (d.m_begin.add (-1)) v).read (d.slot j) = d.heap.read (d.slot j) := by
    intro j h0 h1
    apply Heap.read_store_ne
    rw [hp]
    intro h
    obtain ⟨p0, p1⟩ := hi.pos_le j h0 (by omega)
    have := slot_inj_raw d hi.inj j (-1) (by omega) (by omega) (by omega) (by omega)
      (hi.win _ (by omega) p1) h
    omega
  refine ⟨⟨hcb, hcl, hcel, hi.win, hi.sentinel, hi.inj, ?_, ?_, ?_, hi.me_base, hme,
    hi.me_sentinel, ?_, ?_⟩, rfl, fun j _ _ => hsl j, ?_, ?_, ?_⟩
  · intro i h0 h1; simp only [Heap.store_next]; exact hi.owned i h0 h1
  · simp only [Ptr.add_base]; exact hi.mb_base
  · simp only [Ptr.add_off]; omega
  · simp only [Ptr.add_off]; push_cast; omega
  · intro j hj
    simp only at hj
    by_cases hj0 : j = 0
    · refine ⟨v, ?_⟩
      have := hsl (-1)
      simp only [Int.reduceNeg, neg_add_cancel] at this
      rw [hj0]; simp only [Nat.cast_zero]
      rw [this, ← hp]
      exact Heap.read_store_same _ _ _ b0 hpb
    · obtain ⟨x, hx⟩ := hi.live (j - 1) (by omega)
      refine ⟨x, ?_⟩
      have := hsl ((j : Int) - 1)
      simp only [sub_add_cancel] at this
      rw [this]
      show (d.heap.store (d.m_begin.add (-1)) v).read (d.slot (↑j - 1)) = some x
      rw [hrd _ (by omega) (by omega)]
      rw [show ((j : Int) - 1) = ((j - 1 : Nat) : Int) by omega]
      exact hx
  · intro j h0 h1
    rw [hsl j]
    exact hrd j h0 h1
  · have := hsl (-1)
    simp only [Int.reduceNeg, neg_add_cancel] at this
    rw [this, ← hp]
    exact Heap.read_store_same _ _ _ b0 hpb
  · simp only [Heap.store_next]; exact le_refl _

/-- The part of `push_front` after the handle before `cur_begin` has a chunk: construct
in its last slot and step `cur_begin` back. -/
theorem push_front_step (d2 : Deque α) (hi : d2.Inv) (hcb : 0 < d2.arr.cur_begin)
    (hob : d2.m_begin.off = 0) (b0 : Nat) (hb0 : d2.arr.slots (d2.arr.cur_begin - 1) = .blk b0)
    (v : α) :
    PushedFront d2
      { d2 with
        heap := d2.heap.store (((d2.arr.slots (d2.arr.cur_begin - 1)).plus chunk_size).add (-1)) v
        arr := { d2.arr with cur_begin := d2.arr.cur_begin - 1 }
        m_begin := ((d2.arr.slots (d2.arr.cur_begin - 1)).plus chunk_size).add (-1)
        m_size := d2.m_size + 1 } v := by
  have hcl := hi.cb_le; have hcel := hi.ce_le
  have hmb := hi.mb_off; have hme := hi.me_off; have hsz := hi.size_eq
  have hsl : ∀ j : Int, 0 ≤ j →
      ({ d2 with
         heap := d2.heap.store
           (((d2.arr.slots (d2.arr.cur_begin - 1)).plus chunk_size).add (-1)) v
         arr := { d2.arr with cur_begin := d2.arr.cur_begin - 1 }
         m_begin := ((d2.arr.slots (d2.arr.cur_begin - 1)).plus chunk_size).add (-1)
         m_size := d2.m_size + 1 } : Deque α).slot (j + 1) = d2.slot j := by
    intro j h0
    unfold Deque.slot
    simp only [Ptr.add_off, Handle.plus_off, chunk_size_eq, hob]
    rw [show d2.arr.cur_begin - 1 + (((32 : Nat) : Int) + -1 + (j + 1)) / 32
        = d2.arr.cur_begin + (0 + j) / 32 by omega,
      show (((32 : Nat) : Int) + -1 + (j + 1)) % 32 = (0 + j) % 32 by omega]
  have hs0 : ({ d2 with
         heap := d2.heap.store
           (((d2.arr.slots (d2.arr.cur_begin - 1)).plus chunk_size).add (-1)) v
         arr := { d2.arr with cur_begin := d2.arr.cur_begin - 1 }
         m_begin := ((d2.arr.slots (d2.arr.cur_begin - 1)).plus chunk_size).add (-1)
         m_size := d2.m_size + 1 } : Deque α).slot 0
      = ((d2.arr.slots (d2.arr.cur_begin - 1)).plus chunk_size).add (-1) := by
    unfold Deque.slot
    rw [Ptr.ext_iff']
    simp only [Ptr.add_off, Ptr.add_base, Handle.plus_off, Handle.plus_base, chunk_size_eq]
    constructor
    · congr 1; omega
    · omega
  have hpb : ((((d2.arr.slots (d2.arr.cur_begin - 1)).plus chunk_size).add (-1)) : Ptr).base
      = .blk b0 := by
    simp only [Ptr.add_base, Handle.plus_base, hb0]
  have hrd : ∀ j : Int, 0 ≤ j → j < d2.m_size →
      (d2.heap.store (((d2.arr.slots (d2.arr.cur_begin - 1)).plus chunk_size).add (-1)) v).read
        (d2.slot j) = d2.heap.read (d2.slot j) := by
    intro j h0 h1
    apply Heap.read_store_ne
    intro h
    obtain ⟨p0, p1⟩ := hi.pos_le j h0 (by omega)
    have h2 := congrArg Ptr.base h
    simp only [slot_base, Ptr.add_base, Handle.plus_base, hb0] at h2
    have := hi.inj _ _ b0 (by omega) (by omega) (by omega) (by omega) h2 hb0
    omega
  refine ⟨⟨?_, ?_, hcel, ?_, hi.sentinel, hi.inj, ?_, ?_, ?_, hi.me_base, hme,
    hi.me_sentinel, ?_, ?_⟩, rfl, fun j h0 _ => hsl j h0, ?_, ?_, ?_⟩
  · simp only; omega
  · simp only; omega
  · intro i h0 h1
    simp only at h0 h1 ⊢
    by_cases hl : i = d2.arr.cur_begin - 1
    · rw [hl]; exact ⟨b0, hb0⟩
    · exact hi.win i (by omega) h1
  · intro i h0 h1; simp only [Heap.store_next]; exact hi.owned i h0 h1
  · simp only [Ptr.add_base, Handle.plus_base]
  · simp only [Ptr.add_off, Handle.plus_off, chunk_size_eq]; omega
  · simp only [Ptr.add_off, Handle.plus_off, chunk_size_eq]; push_cast; omega
  · intro j hj
    simp only at hj
    by_cases hj0 : j = 0
    · refine ⟨v, ?_⟩
      rw [hj0]; simp only [Nat.cast_zero]
      rw [hs0]
      exact Heap.read_store_same _ _ _ b0 hpb
    · obtain ⟨x, hx⟩ := hi.live (j - 1) (by omega)
      refine ⟨x, ?_⟩
      have := hsl ((j : Int) - 1) (by omega)
      simp only [sub_add_cancel] at this
      rw [this]
      simp only
      rw [hrd _ (by omega) (by omega)]
      rw [show ((j : Int) - 1) = ((j - 1 : Nat) : Int) by omega]
      exact hx
  · intro j h0 h1
    rw [hsl j h0]
    exact hrd j h0 h1
  · rw [hs0]
    exact Heap.read_store_same _ _ _ b0 hpb
  · simp only [Heap.store_next]; exact le_refl _

theorem Filled.inv_outside {d d2 : Deque α} {k : Int} (hf : Filled d d2 k) (hi : d.Inv)
    (hk : k < d.arr.cur_begin ∨ d.arr.cur_end < k) (hke : k ≠ d.arr.end_) : d2.Inv := by
  have hcb := hi.cb_nonneg; have hcl := hi.cb_le; have hcel := hi.ce_le
  have hw : ∀ i, d.arr.cur_begin ≤ i → i ≤ d.arr.cur_end → d2.arr.slots i = d.arr.slots i :=
    fun i h0 h1 => hf.other i (by omega)
  refine ⟨by rw [hf.cur_begin]; exact hcb, by rw [hf.cur_begin, hf.cur_end]; exact hcl,
    by rw [hf.cur_end, hf.end_]; exact hcel, ?_, ?_, hf.inj, hf.owned, ?_, ?_, ?_, ?_, ?_, ?_,
    ?_⟩
  · intro i h0 h1
    rw [hf.cur_begin] at h0; rw [hf.cur_end] at h1
    rw [hw i h0 h1]; exact hi.win i h0 h1
  · rw [hf.end_, hf.other _ (Ne.symm hke)]; exact hi.sentinel
  · rw [hf.m_begin, hf.cur_begin, hw _ (le_refl _) hcl]; exact hi.mb_base
  · rw [hf.m_begin]; exact hi.mb_off
  · rw [hf.m_end, hf.cur_end, hw _ hcl (le_refl _)]; exact hi.me_base
  · rw [hf.m_end]; exact hi.me_off
  · rw [hf.m_end, hf.cur_end, hf.end_]; exact hi.me_sentinel
  · rw [hf.m_end, hf.m_begin, hf.cur_end, hf.cur_begin, hf.m_size]; exact hi.size_eq
  · intro j hj
    rw [hf.m_size] at hj
    obtain ⟨x, hx⟩ := hi.live j hj
    obtain ⟨p0, p1⟩ := hi.pos_le j (by omega) (by omega)
    have hs : d2.slot j = d.slot j :=
      slot_congr d d2 j (by rw [hf.m_begin]) (by rw [hf.cur_begin]; exact hw _ (by omega) p1)
    obtain ⟨b, hb, hlt⟩ := hi.slot_blk' j (by omega) (by omega)
    rw [hs, Heap.read_blk _ _ b hb, hf.mem b hlt, ← Heap.read_blk _ _ b hb]
    exact ⟨x, hx⟩

theorem Filled.slot_filled {d d2 : Deque α} {k : Int} (hf : Filled d d2 k) (hi : d.Inv)
    (hk : k < d.arr.cur_begin ∨ d.arr.cur_end < k) (j : Int) (h0 : 0 ≤ j)
    (h1 : j ≤ d.m_size) : d2.slot j = d.slot j := by
  obtain ⟨p0, p1⟩ := hi.pos_le j h0 h1
  exact slot_congr d d2 j (by rw [hf.m_begin])
    (by rw [hf.cur_begin]; exact hf.other _ (by omega))

theorem Filled.read_filled {d d2 : Deque α} {k : Int} (hf : Filled d d2 k) (hi : d.Inv)
    (hk : k < d.arr.cur_begin ∨ d.arr.cur_end < k) (j : Int) (h0 : 0 ≤ j)
    (h1 : j ≤ d.m_size) : d2.heap.read (d2.slot j) = d.heap.read (d.slot j) := by
  rw [hf.slot_filled hi hk j h0 h1]
  obtain ⟨b, hb, hlt⟩ := hi.slot_blk' j h0 h1
  rw [Heap.read_blk _ _ b hb, Heap.read_blk _ _ b hb, hf.mem b hlt]

theorem push_front_spec (E : Env α) (hA : ∀ k, E.alloc_ok k = true) (d : Deque α) (hi : d.Inv)
    (v : α) (hv : E.copy_ok v = true) :
    ∃ d1, d.push_front E v = .ok d1 ∧ PushedFront d d1 v := by
  by_cases hob : d.m_begin.off = 0
  · have he : ¬ d.m_begin ≠ (d.arr.slots d.arr.cur_begin).plus 0 :=
      fun h => h (hi.m_begin_start_iff.2 hob)
    obtain ⟨dU, hU, hr⟩ := pre_front E hA d hi
    have hcbU := hr.cb_pos; have hclU := hr.inv.cb_le; have hceU := hr.inv.ce_le
    obtain ⟨d2, h2, hf⟩ := ensure_chunk_spec E hA dU (dU.arr.cur_begin - 1) (by omega)
      (by omega) hr.inv.inj hr.inv.owned
    have hko : dU.arr.cur_begin - 1 < dU.arr.cur_begin ∨ dU.arr.cur_end < dU.arr.cur_begin - 1 :=
      Or.inl (by omega)
    have hi2 : d2.Inv := hf.inv_outside hr.inv hko (by omega)
    obtain ⟨b0, hb0⟩ := hf.at_k
    rw [← hf.cur_begin] at hb0
    have hp := push_front_step d2 hi2 (by rw [hf.cur_begin]; exact hcbU)
      (by rw [hf.m_begin, hr.ob]; exact hob) b0 hb0 v
    unfold push_front
    rw [if_neg he, hU]
    simp only []
    rw [h2]
    simp only [Heap.construct, hv, if_true]
    refine ⟨_, rfl, ⟨hp.inv, ?_, ?_, ?_, hp.first, ?_⟩⟩
    · rw [hp.size, hf.m_size, hr.size]
    · intro j h0 h1
      rw [hp.slot j h0 (by rw [hf.m_size, hr.size]; exact h1),
        hf.slot_filled hr.inv hko j h0 (by rw [hr.size]; omega), hr.slot j h0 h1]
    · intro j h0 h1
      rw [hp.read j h0 (by rw [hf.m_size, hr.size]; exact h1),
        hf.read_filled hr.inv hko j h0 (by rw [hr.size]; omega), hr.read_readyfront hi j h0 h1]
    · exact le_trans hr.next (le_trans hf.next hp.next)
  · exact push_front_room E d hi v hv hob

theorem push_front_throw (E : Env α) (hA : ∀ k, E.alloc_ok k = true) (d : Deque α)
    (hi : d.Inv) (v : α) (hv : E.copy_ok v = false) :
    ∃ d1, d.push_front E v = .threw .elem_throw d1 ∧ Kept d d1 := by
  by_cases hob : d.m_begin.off = 0
  · have he : ¬ d.m_begin ≠ (d.arr.slots d.arr.cur_begin).plus 0 :=
      fun h => h (hi.m_begin_start_iff.2 hob)
    obtain ⟨dU, hU, hr⟩ := pre_front E hA d hi
    have hcbU := hr.cb_pos; have hclU := hr.inv.cb_le; have hceU := hr.inv.ce_le
    obtain ⟨d2, h2, hf⟩ := ensure_chunk_spec E hA dU (dU.arr.cur_begin - 1) (by omega)
      (by omega) hr.inv.inj hr.inv.owned
    have hko : dU.arr.cur_begin - 1 < dU.arr.cur_begin ∨ dU.arr.cur_end < dU.arr.cur_begin - 1 :=
      Or.inl (by omega)
    have hi2 : d2.Inv := hf.inv_outside hr.inv hko (by omega)
    unfold push_front
    rw [if_neg he, hU]
    simp only []
    rw [h2]
    simp only [Heap.construct, hv]
    refine ⟨_, rfl, ⟨hi2, by rw [hf.m_size, hr.size], ?_, ?_, le_trans hr.next hf.next⟩⟩
    · intro j h0 h1
      rw [hf.slot_filled hr.inv hko j h0 (by rw [hr.size]; omega), hr.slot j h0 h1]
    · intro j h0 h1
      rw [hf.read_filled hr.inv hko j h0 (by rw [hr.size]; omega), hr.read_readyfront hi j h0 h1]
  · have hne : d.m_begin ≠ (d.arr.slots d.arr.cur_begin).plus 0 :=
      fun h => hob (hi.m_begin_start_iff.1 h)
    unfold push_front
    rw [if_pos hne]
    simp only [Heap.construct, hv]
    exact ⟨d, rfl, ⟨hi, rfl, fun _ _ _ => rfl, fun _ _ _ => rfl, le_refl _⟩⟩

theorem Ready.kept {d d1 : Deque α} (hr : Ready d d1) (hi : d.Inv) : Kept d d1 :=
  ⟨hr.inv, hr.size, hr.slot, fun j h0 h1 => hr.read_ready hi j h0 h1, hr.next⟩

theorem pop_back_spec (d : Deque α) (hi : d.Inv) (hne : d.m_size ≠ 0) :
    PoppedBack d d.pop_back := by
  have hcb := hi.cb_nonneg; have hcl := hi.cb_le; have hcel := hi.ce_le
  have hmb := hi.mb_off; have hme := hi.me_off; have hsz := hi.size_eq
  have hpos : 0 < d.m_size := Nat.pos_of_ne_zero hne
  have hrd : ∀ (p : Ptr) (j : Int), p = d.slot (d.m_size - 1) → 0 ≤ j →
      j < ((d.m_size - 1 : Nat) : Int) →
      (d.heap.destroy p).read (d.slot j) = d.heap.read (d.slot j) := by
    intro p j hp h0 h1
    apply Heap.read_destroy_ne
    rw [hp]
    intro h
    have := hi.slot_inj j (d.m_size - 1) h0 (by omega) (by omega) (by omega) h
    omega
  unfold pop_back
  by_cases hc : d.m_end.off = 0
  · have hcond : d.m_end = (d.arr.slots d.arr.cur_end).plus 0 := by
      rw [Ptr.ext_iff']; exact ⟨hi.me_base, by simpa using hc⟩
    rw [if_pos hcond]
    simp only [Ptr.add_off, Ptr.add_base, Handle.plus_off, Handle.plus_base, chunk_size_eq]
    have hp : (((d.arr.slots (d.arr.cur_end - 1)).plus ((32 : Nat) : Int)).add (-1))
        = d.slot (d.m_size - 1) := by
      rw [Ptr.ext_iff']
      simp only [Ptr.add_off, Ptr.add_base, Handle.plus_off, Handle.plus_base, slot_base,
        slot_off]
      constructor
      · congr 1; omega
      · omega
    refine ⟨⟨hcb, ?_, ?_, ?_, hi.sentinel, hi.inj, ?_, hi.mb_base, hmb, ?_, ?_, ?_, ?_, ?_⟩,
      ?_, fun _ => rfl, ?_, ⟨rfl, rfl, rfl, rfl⟩, rfl, ?_⟩
    · simp only; omega
    · simp only; omega
    · intro i h0 h1; exact hi.win i h0 (by simp only at h1; omega)
    · intro i h0 h1; simp only [Heap.destroy_next]; exact hi.owned i h0 h1
    · simp only [Ptr.add_base, Handle.plus_base]
    · simp only [Ptr.add_off, Handle.plus_off]; omega
    · intro h; simp only at h; omega
    · simp only [Ptr.add_off, Handle.plus_off]; omega
    · intro j hj
      simp only at hj
      obtain ⟨x, hx⟩ := hi.live j (by omega)
      refine ⟨x, ?_⟩
      show (d.heap.destroy _).read (d.slot j) = some x
      rw [hrd _ j hp (by omega) (by omega)]; exact hx
    · simp only; omega
    · intro j h0 h1
      simp only at h1
      show (d.heap.destroy _).read (d.slot j) = _
      exact hrd _ j hp h0 h1
    · simp only [Heap.destroy_next]
  · have hcond : ¬ d.m_end = (d.arr.slots d.arr.cur_end).plus 0 := by
      rw [Ptr.ext_iff']; intro h; exact hc (by simpa using h.2)
    rw [if_neg hcond]
    simp only []
    have hp : d.m_end.add (-1) = d.slot (d.m_size - 1) := by
      rw [Ptr.ext_iff']
      simp only [Ptr.add_off, Ptr.add_base, slot_base, slot_off]
      constructor
      · rw [hi.me_base]; congr 1; omega
      · omega
    refine ⟨⟨hcb, hcl, hcel, hi.win, hi.sentinel, hi.inj, ?_, hi.mb_base, hmb, ?_, ?_, ?_, ?_,
      ?_⟩, ?_, fun _ => rfl, ?_, ⟨rfl, rfl, rfl, rfl⟩, rfl, ?_⟩
    · intro i h0 h1; simp only [Heap.destroy_next]; exact hi.owned i h0 h1
    · simp only [Ptr.add_base]; exact hi.me_base
    · simp only [Ptr.add_off]; omega
    · intro h; simp only at h; have := hi.me_sentinel h; omega
    · simp only [Ptr.add_off]; omega
    · intro j hj
      simp only at hj
      obtain ⟨x, hx⟩ := hi.live j (by omega)
      refine ⟨x, ?_⟩
      show (d.heap.destroy _).read (d.slot j) = some x
      rw [hrd _ j hp (by omega) (by omega)]; exact hx
    · simp only; omega
    · intro j h0 h1
      simp only at h1
      show (d.heap.destroy _).read (d.slot j) = _
      exact hrd _ j hp h0 h1
    · simp only [Heap.destroy_next]

theorem pop_front_spec (d : Deque α) (hi : d.Inv) (hne : d.m_size ≠ 0) :
    PoppedFront d d.pop_front := by
  have hcb := hi.cb_nonneg; have hcl := hi.cb_le; have hcel := hi.ce_le
  have hmb := hi.mb_off; have hme := hi.me_off; have hsz := hi.size_eq
  have hpos : 0 < d.m_size := Nat.pos_of_ne_zero hne
  have hrd : ∀ j : Int, 0 < j → j < d.m_size →
      (d.heap.destroy d.m_begin).read (d.slot j) = d.heap.read (d.slot j) := by
    intro j h0 h1
    apply Heap.read_destroy_ne
    rw [hi.m_begin_eq]
    intro h
    have := hi.slot_inj j 0 (by omega) (by omega) (by omega) (by omega) h
    omega
  unfold pop_front
  by_cases hc : d.m_begin.off + 1 = 32
  · have hcond : d.m_begin.add 1 = (d.arr.slots d.arr.cur_begin).plus chunk_size := by
      rw [Ptr.ext_iff']
      simp only [Ptr.add_base, Ptr.add_off, Handle.plus_base, Handle.plus_off, chunk_size_eq]
      exact ⟨hi.mb_base, by exact_mod_cast hc⟩
    simp only []
    rw [if_pos hcond]
    have hsl : ∀ j : Int, 0 ≤ j →
        ({ d with
           heap := d.heap.destroy d.m_begin
           m_size := d.m_size - 1
           arr := { d.arr with cur_begin := d.arr.cur_begin + 1 }
           m_begin := (d.arr.slots (d.arr.cur_begin + 1)).plus 0 } : Deque α).slot j
          = d.slot (j + 1) := by
      intro j h0
      unfold Deque.slot
      simp only [Handle.plus_off]
      rw [show d.arr.cur_begin + 1 + (0 + j) / 32 = d.arr.cur_begin + (d.m_begin.off + (j + 1)) / 32
          by omega,
        show (0 + j) % 32 = (d.m_begin.off + (j + 1)) % 32 by omega]
    refine ⟨⟨?_, ?_, hcel, ?_, hi.sentinel, hi.inj, ?_, ?_, ?_, hi.me_base, hme,
      hi.me_sentinel, ?_, ?_⟩, ?_, hsl, ?_, ⟨rfl, rfl, rfl, rfl⟩, rfl, ?_⟩
    · simp only; omega
    · simp only; omega
    · intro i h0 h1; exact hi.win i (by simp only at h0; omega) h1
    · intro i h0 h1; simp only [Heap.destroy_next]; exact hi.owned i h0 h1
    · simp only [Handle.plus_base]
    · simp only [Handle.plus_off]; omega
    · simp only [Handle.plus_off]; omega
    · intro j hj
      simp only at hj
      obtain ⟨x, hx⟩ := hi.live (j + 1) (by omega)
      refine ⟨x, ?_⟩
      rw [hsl j (by omega)]
      show (d.heap.destroy _).read (d.slot (j + 1)) = some x
      rw [hrd _ (by omega) (by omega)]; exact_mod_cast hx
    · simp only; omega
    · intro j h0 h1
      simp only at h1
      rw [hsl j h0]
      exact hrd _ (by omega) (by omega)
    · simp only [Heap.destroy_next]
  · have hcond : ¬ d.m_begin.add 1 = (d.arr.slots d.arr.cur_begin).plus chunk_size := by
      rw [Ptr.ext_iff']
      simp only [Ptr.add_base, Ptr.add_off, Handle.plus_base, Handle.plus_off, chunk_size_eq]
      intro h; exact hc (by exact_mod_cast h.2)
    simp only []
    rw [if_neg hcond]
    have hsl : ∀ j : Int,
        ({ d with
           heap := d.heap.destroy d.m_begin
           m_begin := d.m_begin.add 1
           m_size := d.m_size - 1 } : Deque α).slot j = d.slot (j + 1) := by
      intro j
      unfold Deque.slot
      simp only [Ptr.add_off]
      rw [show d.m_begin.off + 1 + j = d.m_begin.off + (j + 1) by omega]
    refine ⟨⟨hcb, hcl, hcel, hi.win, hi.sentinel, hi.inj, ?_, ?_, ?_, hi.me_base, hme,
      hi.me_sentinel, ?_, ?_⟩, ?_, fun j _ => hsl j, ?_, ⟨rfl, rfl, rfl, rfl⟩, rfl, ?_⟩
    · intro i h0 h1; simp only [Heap.destroy_next]; exact hi.owned i h0 h1
    · simp only [Ptr.add_base]; exact hi.mb_base
    · simp only [Ptr.add_off]; omega
    · simp only [Ptr.add_off]; omega
    · intro j hj
      simp only at hj
      obtain ⟨x, hx⟩ := hi.live (j + 1) (by omega)
      refine ⟨x, ?_⟩
      rw [hsl j]
      show (d.heap.destroy _).read (d.slot (j + 1)) = some x
      rw [hrd _ (by omega) (by omega)]; exact_mod_cast hx
    · simp only; omega
    · intro j h0 h1
      simp only at h1
      rw [hsl j]
      exact hrd _ (by omega) (by omega)
    · simp only [Heap.destroy_next]

end Deque

theorem tdiv32_nonneg (a : Int) (h : 0 ≤ a) : a.tdiv ptr_chunk_size = a / 32 :=
  Int.tdiv_eq_ediv h (by decide)

theorem tmod32_nonneg (a : Int) (h : 0 ≤ a) : a.tmod ptr_chunk_size = a % 32 :=
  Int.tmod_eq_emod h (by decide)

theorem tdiv32_nonpos (a : Int) (h : a ≤ 0) : a.tdiv ptr_chunk_size = -((-a) / 32) := by
  have h1 : (-a).tdiv ptr_chunk_size = (-a) / 32 := Int.tdiv_eq_ediv (by omega) (by decide)
  rw [← h1, Int.neg_tdiv, neg_neg]

theorem tmod32_nonpos (a : Int) (h : a ≤ 0) : a.tmod ptr_chunk_size = -((-a) % 32) := by
  rw [Int.tmod_def, tdiv32_nonpos a h]
  simp only [ptr_chunk_size_eq]
  omega

namespace Deque

theorem Inv.begin_eq {d : Deque α} (hi : d.Inv) : d.begin = d.iter_at 0 := by
  have := hi.mb_off
  unfold Deque.begin iter_at
  rw [← hi.m_begin_eq]
  simp only [add_zero]
  rw [show d.m_begin.off / 32 = 0 by omega]
  simp

theorem Inv.end_eq {d : Deque α} (hi : d.Inv) : d.end_ = d.iter_at d.m_size := by
  have := hi.mb_off; have := hi.me_off; have := hi.size_eq
  unfold Deque.end_ iter_at
  rw [← hi.m_end_eq]
  rw [show (d.m_begin.off + (d.m_size : Int)) / 32 = d.arr.cur_end - d.arr.cur_begin by omega]
  simp

theorem Inv.iter_inc {d : Deque α} (hi : d.Inv) (j : Int) (h0 : 0 ≤ j) (h1 : j < d.m_size) :
    (d.iter_at j).inc d.arr.slots = d.iter_at (j + 1) := by
  have := hi.mb_off; have := hi.me_off; have := hi.size_eq
  obtain ⟨p0, p1⟩ := hi.pos_le j h0 (by omega)
  unfold BaseIterator.inc iter_at
  simp only [ptr_chunk_size_eq]
  by_cases hr : (d.m_begin.off + j) % 32 + 1 = 32
  · have hlt : d.arr.cur_begin + (d.m_begin.off + j) / 32 < d.arr.cur_end := by omega
    have hcond : (d.slot j).add 1
        = (d.arr.slots (d.arr.cur_begin + (d.m_begin.off + j) / 32)).plus 32 := by
      rw [Ptr.ext_iff']
      simp only [Ptr.add_base, Ptr.add_off, slot_base, slot_off, Handle.plus_base,
        Handle.plus_off]
      exact ⟨trivial, hr⟩
    rw [if_pos ⟨hlt, hcond⟩]
    have e1 : d.arr.cur_begin + (d.m_begin.off + j) / 32 + 1
        = d.arr.cur_begin + (d.m_begin.off + (j + 1)) / 32 := by omega
    simp only [BaseIterator.mk.injEq, and_true]
    refine ⟨?_, e1⟩
    rw [Ptr.ext_iff']
    simp only [Handle.plus_base, Handle.plus_off, slot_base, slot_off]
    exact ⟨by rw [e1], by omega⟩
  · have hcond : ¬ (d.arr.cur_begin + (d.m_begin.off + j) / 32 < d.arr.cur_end ∧ (d.slot j).add 1
        = (d.arr.slots (d.arr.cur_begin + (d.m_begin.off + j) / 32)).plus 32) := by
      rintro ⟨_, h⟩
      rw [Ptr.ext_iff'] at h
      simp only [Ptr.add_base, Ptr.add_off, slot_base, slot_off, Handle.plus_base,
        Handle.plus_off] at h
      exact hr h.2
    rw [if_neg hcond]
    have e1 : d.arr.cur_begin + (d.m_begin.off + j) / 32
        = d.arr.cur_begin + (d.m_begin.off + (j + 1)) / 32 := by omega
    simp only [BaseIterator.mk.injEq, and_true]
    refine ⟨?_, e1⟩
    rw [Ptr.ext_iff']
    simp only [Ptr.add_base, Ptr.add_off, slot_base, slot_off]
    exact ⟨by rw [e1], by omega⟩

theorem Inv.iter_dec {d : Deque α} (hi : d.Inv) (j : Int) (h0 : 0 < j) (h1 : j ≤ d.m_size) :
    (d.iter_at j).dec d.arr.slots = d.iter_at (j - 1) := by
  have := hi.mb_off; have := hi.me_off; have := hi.size_eq
  obtain ⟨p0, p1⟩ := hi.pos_le j (by omega) h1
  unfold BaseIterator.dec iter_at
  simp only [ptr_chunk_size_eq]
  by_cases hr : (d.m_begin.off + j) % 32 = 0
  · have hlt : d.arr.cur_begin + (d.m_begin.off + j) / 32 > d.arr.cur_begin := by omega
    have hcond : d.slot j
        = (d.arr.slots (d.arr.cur_begin + (d.m_begin.off + j) / 32)).plus 0 := by
      rw [Ptr.ext_iff']
      simp only [slot_base, slot_off, Handle.plus_base, Handle.plus_off]
      exact ⟨trivial, hr⟩
    rw [if_pos ⟨hlt, hcond⟩]
    have e1 : d.arr.cur_begin + (d.m_begin.off + j) / 32 - 1
        = d.arr.cur_begin + (d.m_begin.off + (j - 1)) / 32 := by omega
    simp only [BaseIterator.mk.injEq, and_true]
    refine ⟨?_, e1⟩
    rw [Ptr.ext_iff']
    simp only [Ptr.add_base, Ptr.add_off, Handle.plus_base, Handle.plus_off, slot_base, slot_off]
    exact ⟨by rw [e1], by omega⟩
  · have hcond : ¬ (d.arr.cur_begin + (d.m_begin.off + j) / 32 > d.arr.cur_begin ∧ d.slot j
        = (d.arr.slots (d.arr.cur_begin + (d.m_begin.off + j) / 32)).plus 0) := by
      rintro ⟨_, h⟩
      rw [Ptr.ext_iff'] at h
      simp only [slot_base, slot_off, Handle.plus_base, Handle.plus_off] at h
      exact hr h.2
    rw [if_neg hcond]
    have e1 : d.arr.cur_begin + (d.m_begin.off + j) / 32
        = d.arr.cur_begin + (d.m_begin.off + (j - 1)) / 32 := by omega
    simp only [BaseIterator.mk.injEq, and_true]
    refine ⟨?_, e1⟩
    rw [Ptr.ext_iff']
    simp only [Ptr.add_base, Ptr.add_off, slot_base, slot_off]
    exact ⟨by rw [e1], by omega⟩

theorem Inv.iter_plus {d : Deque α} (hi : d.Inv) (j k : Int) (h0 : 0 ≤ j) (h1 : j ≤ d.m_size)
    (h2 : 0 ≤ j + k) (h3 : j + k ≤ d.m_size) :
    (d.iter_at j).plus d.arr.slots k = d.iter_at (j + k) := by
  have := hi.mb_off; have := hi.me_off; have := hi.size_eq
  obtain ⟨p0, p1⟩ := hi.pos_le j h0 h1
  obtain ⟨q0, q1⟩ := hi.pos_le (j + k) h2 h3
  unfold BaseIterator.plus
  by_cases hk : k ≥ 0
  · rw [if_pos hk]
    unfold BaseIterator.sum iter_at
    simp only [Ptr.diff, slot_off, Handle.plus_off, sub_zero]
    rw [tdiv32_nonneg _ (by omega), tmod32_nonneg _ (by omega)]
    have e1 : d.arr.cur_begin + (d.m_begin.off + j) / 32 + (k + (d.m_begin.off + j) % 32) / 32
        = d.arr.cur_begin + (d.m_begin.off + (j + k)) / 32 := by omega
    rw [e1, if_pos ⟨by omega, q1⟩]
    simp only [BaseIterator.mk.injEq, and_true]
    rw [Ptr.ext_iff']
    simp only [Ptr.add_base, Ptr.add_off, Handle.plus_base, Handle.plus_off, slot_base, slot_off]
    exact ⟨trivial, by omega⟩
  · rw [if_neg hk]
    unfold BaseIterator.sum iter_at
    simp only [Ptr.diff, slot_off, Handle.plus_off, chunk_size_eq]
    rw [tdiv32_nonpos _ (by omega), tmod32_nonpos _ (by omega)]
    have e1 : d.arr.cur_begin + (d.m_begin.off + j) / 32 +
        -(-(k + ((d.m_begin.off + j) % 32 - (((32 : Nat) : Int) - 1))) / 32)
        = d.arr.cur_begin + (d.m_begin.off + (j + k)) / 32 := by omega
    rw [e1, if_pos ⟨by omega, q1⟩]
    simp only [BaseIterator.mk.injEq, and_true]
    rw [Ptr.ext_iff']
    simp only [Ptr.add_base, Ptr.add_off, Handle.plus_base, Handle.plus_off, slot_base, slot_off]
    exact ⟨trivial, by omega⟩

theorem Inv.begin_plus {d : Deque α} (hi : d.Inv) (k : Int) (h0 : 0 ≤ k) (h1 : k ≤ d.m_size) :
    d.begin.plus d.arr.slots k = d.iter_at k := by
  rw [hi.begin_eq, hi.iter_plus 0 k (le_refl _) (by omega) (by omega) (by omega), zero_add]

theorem iter_distance (d : Deque α) (j k : Int) :
    BaseIterator.distance d.arr.slots (d.iter_at j) (d.iter_at k) = j - k := by
  unfold BaseIterator.distance iter_at
  simp only [Ptr.diff, slot_off, Handle.plus_off, ptr_chunk_size_eq]
  omega

theorem Inv.iter_eq_iff {d : Deque α} (hi : d.Inv) (j k : Int) (hj0 : 0 ≤ j)
    (hj1 : j ≤ d.m_size) (hk0 : 0 ≤ k) (hk1 : k ≤ d.m_size) :
    (d.iter_at j).item = (d.iter_at k).item ↔ j = k := by
  constructor
  · intro h; exact hi.slot_inj j k hj0 hj1 hk0 hk1 h
  · intro h; rw [h]

@[simp] theorem iter_at_item (d : Deque α) (j : Int) : (d.iter_at j).item = d.slot j := rfl

end Deque

namespace Heap

theorem le_refl (H : Heap α) : H.le H := ⟨rfl, fun _ h => h⟩

theorem le_trans {H H1 H2 : Heap α} (h1 : H.le H1) (h2 : H1.le H2) : H.le H2 :=
  ⟨h2.1.trans h1.1, fun p h => h2.2 p (h1.2 p h)⟩

theorem le_store (H : Heap α) (p : Ptr) (v : α) : H.le (H.store p v) := by
  refine ⟨store_next H p v, ?_⟩
  intro q hq
  by_cases hqp : q = p
  · rcases hb : p.base with _ | _ | b
    · have : H.store p v = H := by unfold store; rw [hb]
      rw [this]; exact hq
    · have : H.store p v = H := by unfold store; rw [hb]
      rw [this]; exact hq
    · rw [hqp, read_store_same H p v b hb]; rfl
  · rw [read_store_ne H p q v hqp]; exact hq

theorem read_store (H : Heap α) (p q : Ptr) (v : α) (b : Nat) (hb : p.base = .blk b) :
    (H.store p v).read q = if q = p then some v else H.read q := by
  by_cases h : q = p
  · rw [if_pos h, h]; exact read_store_same H p v b hb
  · rw [if_neg h]; exact read_store_ne H p q v h

end Heap

namespace Deque

theorem Inv.of_le {d : Deque α} (hi : d.Inv) (H : Heap α) (hle : d.heap.le H) :
    ({ d with heap := H } : Deque α).Inv := by
  refine ⟨hi.cb_nonneg, hi.cb_le, hi.ce_le, hi.win, hi.sentinel, hi.inj, ?_, hi.mb_base,
    hi.mb_off, hi.me_base, hi.me_off, hi.me_sentinel, hi.size_eq, ?_⟩
  · intro i h0 h1
    simp only [hle.1]
    exact hi.owned i h0 h1
  · intro j hj
    obtain ⟨x, hx⟩ := hi.live j hj
    have := hle.2 (d.slot j) (by rw [hx]; rfl)
    exact Option.isSome_iff_exists.1 this

theorem insert_loop_le (E : Env α) (s : Int → Handle) (ans : BaseIterator) :
    ∀ (fuel : Nat) (it : BaseIterator) (H : Heap α),
      (∀ H1, insert_loop E s ans fuel it H = .ok H1 → H.le H1) ∧
      (∀ e H1, insert_loop E s ans fuel it H = .threw e H1 → H.le H1) := by
  intro fuel
  induction fuel with
  | zero =>
    intro it H
    constructor
    · intro H1 h; simp [insert_loop] at h
    · intro e H1 h; simp only [insert_loop, Res.threw.injEq] at h; rw [← h.2]; exact H.le_refl
  | succ n ih =>
    intro it H
    unfold insert_loop
    by_cases hc : it.item ≠ ans.item
    · rw [if_pos hc]
      rcases hr : H.read (it.minus s 1).item with _ | x
      · simp only []
        constructor
        · intro H1 h; cases h
        · intro e H1 h; cases h; exact H.le_refl
      · simp only [Heap.assign]
        by_cases ha : E.assign_ok x = true
        · simp only [ha, if_true]
          have hst := Heap.le_store H it.item x
          constructor
          · intro H1 h; exact Heap.le_trans hst ((ih _ _).1 H1 h)
          · intro e H1 h; exact Heap.le_trans hst ((ih _ _).2 e H1 h)
        · simp only [ha]
          constructor
          · intro H1 h; cases h
          · intro e H1 h; cases h; exact H.le_refl
    · rw [if_neg hc]
      constructor
      · intro H1 h; cases h; exact H.le_refl
      · intro e H1 h; cases h

theorem insert_loop_spec (E : Env α) (hAs : ∀ x, E.assign_ok x = true) (d : Deque α)
    (hi : d.Inv) (k : Int) (hk : 0 ≤ k) :
    ∀ (fuel : Nat) (i : Int) (H : Heap α), k ≤ i → i < d.m_size → i - k < fuel →
      (∀ j : Int, 0 ≤ j → j < d.m_size → (H.read (d.slot j)).isSome) →
      ∃ H1, insert_loop E d.arr.slots (d.iter_at k) fuel (d.iter_at i) H = .ok H1 ∧
        H1.next = H.next ∧
        (∀ p, (∀ j : Int, k < j → j ≤ i → p ≠ d.slot j) → H1.read p = H.read p) ∧
        (∀ j : Int, k < j → j ≤ i → H1.read (d.slot j) = H.read (d.slot (j - 1))) := by
  intro fuel
  induction fuel with
  | zero => intro i H h0 h1 h2; omega
  | succ n ih =>
    intro i H h0 h1 h2 hlive
    unfold insert_loop
    by_cases hik : i = k
    · have hc : ¬ (d.iter_at i).item ≠ (d.iter_at k).item := by rw [hik]; simp
      rw [if_neg hc]
      exact ⟨H, rfl, rfl, fun _ _ => rfl, fun j hj1 hj2 => by omega⟩
    · have hc : (d.iter_at i).item ≠ (d.iter_at k).item := by
        intro h
        exact hik ((hi.iter_eq_iff i k (by omega) (by omega) hk (by omega)).1 h)
      rw [if_pos hc]
      have hm : (d.iter_at i).minus d.arr.slots 1 = d.iter_at (i - 1) := by
        unfold BaseIterator.minus
        rw [hi.iter_plus i (-1) (by omega) (by omega) (by omega) (by omega)]
        rfl
      rw [hm, iter_at_item]
      obtain ⟨x, hx⟩ := Option.isSome_iff_exists.1 (hlive (i - 1) (by omega) (by omega))
      rw [hx]
      simp only [Heap.assign, hAs, if_true]
      rw [hi.iter_dec i (by omega) (by omega), iter_at_item]
      obtain ⟨b, hb, _⟩ := hi.slot_blk' i (by omega) (by omega)
      obtain ⟨H2, e2, n2, f2, s2⟩ := ih (i - 1) (H.store (d.slot i) x) (by omega) (by omega)
        (by omega)
        (fun j hj0 hj1 => (Heap.le_store H (d.slot i) x).2 _ (hlive j hj0 hj1))
      refine ⟨H2, e2, by rw [n2, Heap.store_next], ?_, ?_⟩
      · intro p hp
        rw [f2 p (fun j hj1 hj2 => hp j hj1 (by omega))]
        exact Heap.read_store_ne _ _ _ _ (hp i (by omega) (le_refl _))
      · intro j hj1 hj2
        by_cases hji : j = i
        · rw [hji, f2 (d.slot i), Heap.read_store_same _ _ _ b hb, hx]
          intro j' hj1' hj2' h
          have := hi.slot_inj i j' (by omega) (by omega) (by omega) (by omega) h
          omega
        · rw [s2 j hj1 (by omega)]
          apply Heap.read_store_ne
          intro h
          have := hi.slot_inj (j - 1) i (by omega) (by omega) (by omega) (by omega) h
          omega

theorem Inv.back_eq {d : Deque α} (hi : d.Inv) (hne : d.m_size ≠ 0) :
    d.back = d.slot (d.m_size - 1) := by
  unfold back
  rw [hi.end_eq, hi.iter_dec d.m_size (by omega) (le_refl _)]
  rfl

/-- The interior branch of `insert`. -/
theorem insert_interior (E : Env α) (hA : ∀ k, E.alloc_ok k = true)
    (hC : ∀ x, E.copy_ok x = true) (hAs : ∀ x, E.assign_ok x = true)
    (d : Deque α) (hid : d.Inv) (k : Nat) (hk0 : 0 < k) (hkd : k < d.m_size) (val : Ref α)
    (v : α) (hval : d.heap.deref val = some v)
    (hown : ∀ p, val = .slot p → ∃ b, p.base = .blk b ∧ b < d.heap.next) :
    ∃ r d3 w, d.insert E (d.iter_at k) val = .ok (r, d3) ∧ Inserted d d3 k w r ∧
      ((∀ p, val = .slot p → ∃ j : Int, 0 ≤ j ∧ j ≤ k ∧ p = d.slot j) → w = v) := by
  unfold insert
  have hc : ¬ (d.iter_at (k : Int)).eq d.begin = true := by
    unfold BaseIterator.eq
    rw [hid.begin_eq]
    simp only [decide_eq_true_eq]
    intro h
    have := (hid.iter_eq_iff k 0 (by omega) (by omega) (le_refl _) (by omega)).1 h
    omega
  have hc2 : ¬ (d.iter_at (k : Int)).eq d.end_ = true := by
    unfold BaseIterator.eq
    rw [hid.end_eq]
    simp only [decide_eq_true_eq]
    intro h
    have := (hid.iter_eq_iff k d.m_size (by omega) (by omega) (by omega) (le_refl _)).1 h
    omega
  rw [if_neg hc, if_neg hc2]
  obtain ⟨d1, hU, hr⟩ := pre_back E hA d hid
  rw [hU]
  have hind : BaseIterator.distance d.arr.slots (d.iter_at (k : Int)) d.begin = k := by
    rw [hid.begin_eq, iter_distance]; simp
  rw [hind]
  simp only []
  have hi := hr.inv
  have hce := hr.ce_lt
  have hk : k < d1.m_size := by rw [hr.size]; exact hkd
  have hne : d1.m_size ≠ 0 := by omega
  obtain ⟨x, hx⟩ := hi.live (d1.m_size - 1) (by omega)
  rw [show ((d1.m_size - 1 : Nat) : Int) = (d1.m_size : Int) - 1 by omega] at hx
  rw [hi.back_eq hne, hx]
  simp only [Heap.construct, hC, if_true]
  have hi2 : ({ d1 with heap := d1.heap.store d1.m_end x } : Deque α).Inv := hi.store _ _
  have hans : ({ d1 with heap := d1.heap.store d1.m_end x } : Deque α).begin.plus d1.arr.slots k
      = d1.iter_at k := hi2.begin_plus k (by omega) (by simp only; omega)
  have hlast : ({ d1 with heap := d1.heap.store d1.m_end x } : Deque α).end_.dec d1.arr.slots
      = d1.iter_at (d1.m_size - 1) := by
    rw [hi2.end_eq]
    exact hi2.iter_dec d1.m_size (by omega) (le_refl _)
  rw [hans, hlast]
  obtain ⟨bn, hbn, _⟩ := hi.slot_blk' d1.m_size (by omega) (le_refl _)
  have hlive0 : ∀ j : Int, 0 ≤ j → j < d1.m_size →
      ((d1.heap.store d1.m_end x).read (d1.slot j)).isSome := by
    intro j h0 h1
    refine (Heap.le_store d1.heap d1.m_end x).2 _ ?_
    obtain ⟨y, hy⟩ := hi.live j.toNat (by omega)
    rw [show ((j.toNat : Nat) : Int) = j by omega] at hy
    rw [hy]; rfl
  obtain ⟨H1, e1, n1, f1, s1⟩ := insert_loop_spec E hAs d1 hi k (by omega) (d1.m_size + 1)
    (d1.m_size - 1) (d1.heap.store d1.m_end x) (by omega) (by omega) (by omega) hlive0
  rw [e1]
  have hle1 : d1.heap.le H1 :=
    Heap.le_trans (Heap.le_store _ _ _) ((insert_loop_le E _ _ _ _ _).1 H1 e1)
  have hw : ∃ w, H1.deref val = some w ∧
      ((∀ p, val = .slot p → ∃ j : Int, 0 ≤ j ∧ j ≤ k ∧ p = d.slot j) → w = v) := by
    cases val with
    | obj u =>
      refine ⟨u, rfl, fun _ => ?_⟩
      simp only [Heap.deref, Option.some.injEq] at hval
      exact hval
    | slot p =>
      simp only [Heap.deref] at hval ⊢
      obtain ⟨b, hb, hlt⟩ := hown p rfl
      have h1 : d1.heap.read p = some v := by
        rw [Heap.read_blk _ _ b hb, hr.mem b hlt, ← Heap.read_blk _ _ b hb]
        exact hval
      obtain ⟨w, hw⟩ := Option.isSome_iff_exists.1 (hle1.2 p (by rw [h1]; rfl))
      refine ⟨w, hw, fun hnear => ?_⟩
      obtain ⟨j, hj0, hjk, hpj⟩ := hnear p rfl
      have hpj1 : p = d1.slot j := by rw [hpj, hr.slot j hj0 (by omega)]
      have h2 : H1.read p = some v := by
        rw [f1 p (fun j' a b' h => by
          rw [hpj1] at h
          have := hi.slot_inj j j' hj0 (by omega) (by omega) (by omega) h
          omega)]
        rw [Heap.read_store_ne _ _ _ _ (by
          rw [hpj1, hi.m_end_eq]
          intro h
          have := hi.slot_inj j d1.m_size hj0 (by omega) (by omega) (le_refl _) h
          omega)]
        exact h1
      rw [h2] at hw
      exact (Option.some.inj hw).symm
  obtain ⟨w, hw, hwv⟩ := hw
  simp only [hw, Heap.assign, hAs, if_true, iter_at_item]
  obtain ⟨bk, hbk, _⟩ := hi.slot_blk' k (by omega) (by omega)
  have hle2 : d1.heap.le ((H1.store (d1.slot k) w)) :=
    Heap.le_trans (Heap.le_store _ _ _)
      (Heap.le_trans ((insert_loop_le E _ _ _ _ _).1 H1 e1) (Heap.le_store _ _ _))
  have hi3 : ({ d1 with heap := H1.store (d1.slot k) w } : Deque α).Inv := hi.of_le _ hle2
  -- content of the heap before `next_end`
  have hrd : ∀ j : Int, 0 ≤ j → j ≤ d1.m_size →
      (H1.store (d1.slot k) w).read (d1.slot j) =
        if j = k then some w
        else if j < k then d1.heap.read (d1.slot j) else d1.heap.read (d1.slot (j - 1)) := by
    intro j h0 h1
    rw [Heap.read_store _ _ _ _ bk hbk]
    by_cases hjk : j = k
    · rw [if_pos (by rw [hjk]), if_pos hjk]
    · have hne' : d1.slot j ≠ d1.slot k := fun h =>
        hjk (hi.slot_inj j k h0 h1 (by omega) (by omega) h)
      rw [if_neg hne', if_neg hjk]
      by_cases hlt : j < k
      · rw [if_pos hlt, f1 _ (fun j' a b h => by
          have := hi.slot_inj j j' h0 h1 (by omega) (by omega) h; omega)]
        apply Heap.read_store_ne
        rw [hi.m_end_eq]
        intro h
        have := hi.slot_inj j d1.m_size h0 h1 (by omega) (le_refl _) h
        omega
      · rw [if_neg hlt]
        by_cases hjn : j = d1.m_size
        · rw [hjn, f1 _ (fun j' a b h => by
            have := hi.slot_inj d1.m_size j' (by omega) (le_refl _) (by omega) (by omega) h
            omega)]
          rw [← hi.m_end_eq, Heap.read_store_same _ _ _ bn (by rw [hi.m_end_eq]; exact hbn)]
          exact hx.symm
        · rw [s1 j (by omega) (by omega)]
          apply Heap.read_store_ne
          rw [hi.m_end_eq]
          intro h
          have := hi.slot_inj (j - 1) d1.m_size (by omega) (by omega) (by omega) (le_refl _) h
          omega
  obtain ⟨d3, e3, hg⟩ := next_end_spec E hA _ hi3 hce x (by
    show (H1.store (d1.slot k) w).read d1.m_end = some x
    rw [hi.m_end_eq, hrd _ (by omega) (le_refl _), if_neg (by omega), if_neg (by omega), hx])
  rw [e3]
  have hsz := hr.size
  refine ⟨_, d3, w, rfl, ⟨hg.inv, by rw [hg.size]; simp only [hr.size], ?_, ?_, ?_, ?_, ?_⟩,
    hwv⟩
  · intro j h0 h1
    rw [hg.read_grown hi3 j h0 (by simp only; omega)]
    show (H1.store (d1.slot k) w).read (d1.slot j) = _
    rw [hrd j h0 (by omega), if_neg (by omega), if_pos h1]
    exact hr.read_ready hid j h0 (by omega)
  · rw [hg.read_grown hi3 k (by omega) (by simp only; omega)]
    show (H1.store (d1.slot k) w).read (d1.slot k) = _
    rw [hrd k (by omega) (by omega), if_pos rfl]
  · intro j h0 h1
    rw [hg.read_grown hi3 (j + 1) (by omega) (by simp only; omega)]
    show (H1.store (d1.slot k) w).read (d1.slot (j + 1)) = _
    rw [hrd (j + 1) (by omega) (by omega), if_neg (by omega), if_neg (by omega)]
    rw [show j + 1 - 1 = j by omega]
    exact hr.read_ready hid j (by omega) h1
  · unfold BaseIterator.distance iter_at Deque.begin
    rw [hg.m_begin, hg.cur_begin]
    have := hi.mb_off
    simp only [Ptr.diff, slot_off, Handle.plus_off, ptr_chunk_size_eq]
    omega
  · rw [iter_at_item]
    exact (hg.slot_grown hi3 k (by omega) (by simp only; omega)).symm

theorem insert_spec (E : Env α) (hA : ∀ k, E.alloc_ok k = true)
    (hC : ∀ x, E.copy_ok x = true) (hAs : ∀ x, E.assign_ok x = true)
    (d : Deque α) (hi : d.Inv) (k : Nat) (hk : k ≤ d.m_size) (val : Ref α) (v : α)
    (hval : d.heap.deref val = some v)
    (hown : ∀ p, val = .slot p → ∃ b, p.base = .blk b ∧ b < d.heap.next) :
    ∃ r d1 w, d.insert E (d.begin.plus d.arr.slots k) val = .ok (r, d1) ∧
      Inserted d d1 k w r ∧
      ((∀ p, val = .slot p → ∃ j : Int, 0 ≤ j ∧ j ≤ k ∧ p = d.slot j) → w = v) := by
  rw [hi.begin_plus k (by omega) (by omega)]
  by_cases hk0 : k = 0
  · unfold insert
    have hc : (d.iter_at (k : Int)).eq d.begin = true := by
      unfold BaseIterator.eq
      rw [hi.begin_eq, hk0]; simp
    rw [if_pos hc]
    obtain ⟨d1, e1, hp⟩ := push_front_spec E hA d hi v (hC v)
    simp only [hval]
    rw [e1]
    refine ⟨_, _, v, rfl, ⟨hp.inv, hp.size, ?_, ?_, ?_, ?_, ?_⟩, fun _ => rfl⟩
    · intro j h0 h1; omega
    · rw [hk0]; exact hp.first
    · intro j h0 h1; exact hp.read j (by omega) h1
    · rw [hp.inv.begin_eq, iter_distance, hk0]; simp
    · rw [hp.inv.begin_eq, hk0]; rfl
  · by_cases hkn : k = d.m_size
    · unfold insert
      have hc : ¬ (d.iter_at (k : Int)).eq d.begin = true := by
        unfold BaseIterator.eq
        rw [hi.begin_eq]
        simp only [decide_eq_true_eq]
        intro h
        have := (hi.iter_eq_iff k 0 (by omega) (by omega) (le_refl _) (by omega)).1 h
        omega
      rw [if_neg hc]
      have hc2 : (d.iter_at (k : Int)).eq d.end_ = true := by
        unfold BaseIterator.eq
        rw [hi.end_eq, hkn]; simp
      rw [if_pos hc2]
      obtain ⟨d1, e1, hp⟩ := push_back_spec E hA d hi v (hC v)
      simp only [hval]
      rw [e1]
      have hsz1 := hp.size
      have hr : d1.end_.dec d1.arr.slots = d1.iter_at k := by
        rw [hp.inv.end_eq, hp.inv.iter_dec (d1.m_size : Int) (by omega) (le_refl _)]
        congr 1; omega
      refine ⟨_, _, v, rfl, ⟨hp.inv, hp.size, ?_, ?_, ?_, ?_, ?_⟩, fun _ => rfl⟩
      · intro j h0 h1; exact hp.read j h0 (by omega)
      · rw [hkn]; exact hp.last
      · intro j h0 h1; omega
      · rw [hr, hp.inv.begin_eq, iter_distance]; simp
      · rw [hr]; rfl
    · exact insert_interior E hA hC hAs d hi k (by omega) (by omega) val v hval hown

theorem erase_loop_le (E : Env α) (s : Int → Handle) (fin : BaseIterator) :
    ∀ (fuel : Nat) (it : BaseIterator) (H : Heap α),
      (∀ H1, erase_loop E s fin fuel it H = .ok H1 → H.le H1) ∧
      (∀ e H1, erase_loop E s fin fuel it H = .threw e H1 → H.le H1) := by
  intro fuel
  induction fuel with
  | zero =>
    intro it H
    constructor
    · intro H1 h; simp [erase_loop] at h
    · intro e H1 h; simp only [erase_loop, Res.threw.injEq] at h; rw [← h.2]; exact H.le_refl
  | succ n ih =>
    intro it H
    unfold erase_loop
    by_cases hc : (it.plus s 1).item ≠ fin.item
    · rw [if_pos hc]
      rcases hr : H.read (it.plus s 1).item with _ | x
      · simp only []
        constructor
        · intro H1 h; cases h
        · intro e H1 h; cases h; exact H.le_refl
      · simp only [Heap.assign]
        by_cases ha : E.assign_ok x = true
        · simp only [ha, if_true]
          have hst := Heap.le_store H it.item x
          constructor
          · intro H1 h; exact Heap.le_trans hst ((ih _ _).1 H1 h)
          · intro e H1 h; exact Heap.le_trans hst ((ih _ _).2 e H1 h)
        · simp only [ha]
          constructor
          · intro H1 h; cases h
          · intro e H1 h; cases h; exact H.le_refl
    · rw [if_neg hc]
      constructor
      · intro H1 h; cases h; exact H.le_refl
      · intro e H1 h; cases h

theorem erase_loop_spec (E : Env α) (hAs : ∀ x, E.assign_ok x = true) (d : Deque α)
    (hi : d.Inv) :
    ∀ (fuel : Nat) (i : Int) (H : Heap α), 0 ≤ i → i < d.m_size → d.m_size - 1 - i < fuel →
      (∀ j : Int, 0 ≤ j → j < d.m_size → (H.read (d.slot j)).isSome) →
      ∃ H1, erase_loop E d.arr.slots (d.iter_at d.m_size) fuel (d.iter_at i) H = .ok H1 ∧
        H1.next = H.next ∧
        (∀ p, (∀ j : Int, i ≤ j → j < d.m_size - 1 → p ≠ d.slot j) → H1.read p = H.read p) ∧
        (∀ j : Int, i ≤ j → j < d.m_size - 1 → H1.read (d.slot j) = H.read (d.slot (j + 1))) := by
  intro fuel
  induction fuel with
  | zero => intro i H h0 h1 h2; omega
  | succ n ih =>
    intro i H h0 h1 h2 hlive
    unfold erase_loop
    rw [hi.iter_plus i 1 h0 (by omega) (by omega) (by omega), iter_at_item, iter_at_item]
    by_cases hik : i + 1 = d.m_size
    · have hc : ¬ d.slot (i + 1) ≠ d.slot d.m_size := by rw [hik]; simp
      rw [if_neg hc]
      exact ⟨H, rfl, rfl, fun _ _ => rfl, fun j hj1 hj2 => by omega⟩
    · have hc : d.slot (i + 1) ≠ d.slot d.m_size := by
        intro h
        exact hik (hi.slot_inj (i + 1) d.m_size (by omega) (by omega) (by omega) (le_refl _) h)
      rw [if_pos hc]
      obtain ⟨x, hx⟩ := Option.isSome_iff_exists.1 (hlive (i + 1) (by omega) (by omega))
      rw [hx]
      simp only [Heap.assign, hAs, if_true]
      rw [hi.iter_inc i h0 h1, iter_at_item]
      obtain ⟨b, hb, _⟩ := hi.slot_blk' i (by omega) (by omega)
      obtain ⟨H2, e2, n2, f2, s2⟩ := ih (i + 1) (H.store (d.slot i) x) (by omega) (by omega)
        (by omega)
        (fun j hj0 hj1 => (Heap.le_store H (d.slot i) x).2 _ (hlive j hj0 hj1))
      refine ⟨H2, e2, by rw [n2, Heap.store_next], ?_, ?_⟩
      · intro p hp
        rw [f2 p (fun j hj1 hj2 => hp j (by omega) hj2)]
        exact Heap.read_store_ne _ _ _ _ (hp i (le_refl _) (by omega))
      · intro j hj1 hj2
        by_cases hji : j = i
        · rw [hji, f2 (d.slot i), Heap.read_store_same _ _ _ b hb, hx]
          intro j' hj1' hj2' h
          have := hi.slot_inj i j' (by omega) (by omega) (by omega) (by omega) h
          omega
        · rw [s2 j (by omega) hj2]
          apply Heap.read_store_ne
          intro h
          have := hi.slot_inj (j + 1) i (by omega) (by omega) (by omega) (by omega) h
          omega

theorem erase_spec (E : Env α) (hAs : ∀ x, E.assign_ok x = true)
    (d : Deque α) (hi : d.Inv) (k : Nat) (hk : k < d.m_size) :
    ∃ r d1, d.erase E (d.begin.plus d.arr.slots k) = .ok (r, d1) ∧ Erased d d1 k r := by
  rw [hi.begin_plus k (by omega) (by omega)]
  unfold erase
  by_cases hk0 : k = 0
  · have hc : (d.iter_at (k : Int)).eq d.begin = true := by
      unfold BaseIterator.eq
      rw [hi.begin_eq, hk0]; simp
    rw [if_pos hc]
    have hp := pop_front_spec d hi (by omega)
    refine ⟨_, _, rfl, ⟨hp.inv, hp.size, ?_, ?_, ?_, ?_⟩⟩
    · intro j h0 h1; omega
    · intro j h0 h1; exact hp.read j (by omega) h1
    · rw [hp.inv.begin_eq, iter_distance, hk0]; simp
    · rw [hp.inv.begin_eq, hk0]; rfl
  · have hc : ¬ (d.iter_at (k : Int)).eq d.begin = true := by
      unfold BaseIterator.eq
      rw [hi.begin_eq]
      simp only [decide_eq_true_eq]
      intro h
      have := (hi.iter_eq_iff k 0 (by omega) (by omega) (le_refl _) (by omega)).1 h
      omega
    rw [if_neg hc, hi.end_eq]
    have hlive0 : ∀ j : Int, 0 ≤ j → j < d.m_size → (d.heap.read (d.slot j)).isSome := by
      intro j h0 h1
      obtain ⟨y, hy⟩ := hi.live j.toNat (by omega)
      rw [show ((j.toNat : Nat) : Int) = j by omega] at hy
      rw [hy]; rfl
    obtain ⟨H1, e1, n1, f1, s1⟩ := erase_loop_spec E hAs d hi (d.m_size + 1) k d.heap
      (by omega) (by omega) (by omega) hlive0
    rw [e1]
    simp only []
    have hle : d.heap.le H1 := (erase_loop_le E _ _ _ _ _).1 H1 e1
    have hi1 : ({ d with heap := H1 } : Deque α).Inv := hi.of_le _ hle
    have hp := pop_back_spec _ hi1 (by simpa using (by omega : d.m_size ≠ 0))
    have hsz := hp.size
    simp only at hsz
    refine ⟨_, _, rfl, ⟨hp.inv, hp.size, ?_, ?_, ?_, ?_⟩⟩
    · intro j h0 h1
      rw [hp.read j h0 (by omega)]
      show H1.read (d.slot j) = _
      exact f1 _ (fun j' a b h => by
        have := hi.slot_inj j j' h0 (by omega) (by omega) (by omega) h; omega)
    · intro j h0 h1
      rw [hp.read j (by omega) h1]
      show H1.read (d.slot j) = _
      exact s1 j h0 (by omega)
    · unfold BaseIterator.distance iter_at Deque.begin
      rw [hp.m_begin, hp.arr.2.2.2]
      have := hi.mb_off
      simp only [Ptr.diff, slot_off, Handle.plus_off, ptr_chunk_size_eq]
      omega
    · rw [iter_at_item, hp.slot]; rfl

theorem push_back_inv (E : Env α) (hA : ∀ k, E.alloc_ok k = true) (d : Deque α) (hi : d.Inv)
    (v : α) :
    (∀ d1, d.push_back E v = .ok d1 → d1.Inv) ∧
    (∀ e d1, d.push_back E v = .threw e d1 → d1.Inv) := by
  by_cases hv : E.copy_ok v = true
  · obtain ⟨d2, h2, hp⟩ := push_back_spec E hA d hi v hv
    rw [h2]
    exact ⟨fun d1 h => (by cases h; exact hp.inv), fun e d1 h => (by cases h)⟩
  · obtain ⟨d2, h2, hp⟩ := push_back_throw E hA d hi v (by simpa using hv)
    rw [h2]
    exact ⟨fun d1 h => (by cases h), fun e d1 h => (by cases h; exact hp.inv)⟩

theorem push_front_inv (E : Env α) (hA : ∀ k, E.alloc_ok k = true) (d : Deque α) (hi : d.Inv)
    (v : α) :
    (∀ d1, d.push_front E v = .ok d1 → d1.Inv) ∧
    (∀ e d1, d.push_front E v = .threw e d1 → d1.Inv) := by
  by_cases hv : E.copy_ok v = true
  · obtain ⟨d2, h2, hp⟩ := push_front_spec E hA d hi v hv
    rw [h2]
    exact ⟨fun d1 h => (by cases h; exact hp.inv), fun e d1 h => (by cases h)⟩
  · obtain ⟨d2, h2, hp⟩ := push_front_throw E hA d hi v (by simpa using hv)
    rw [h2]
    exact ⟨fun d1 h => (by cases h), fun e d1 h => (by cases h; exact hp.inv)⟩

theorem erase_inv (E : Env α) (d : Deque α) (hi : d.Inv) (k : Nat) (hk : k < d.m_size) :
    (∀ r d1, d.erase E (d.begin.plus d.arr.slots k) = .ok (r, d1) → d1.Inv) ∧
    (∀ e d1, d.erase E (d.begin.plus d.arr.slots k) = .threw e d1 → d1.Inv) := by
  unfold erase
  by_cases hc : (d.begin.plus d.arr.slots k).eq d.begin = true
  · rw [if_pos hc]
    have hp := pop_front_spec d hi (by omega)
    exact ⟨fun r d1 h => (by cases h; exact hp.inv), fun e d1 h => (by cases h)⟩
  · rw [if_neg hc]
    rcases hl : erase_loop E d.arr.slots d.end_ (d.m_size + 1) (d.begin.plus d.arr.slots k)
      d.heap with H1 | ⟨e1, H1⟩
    · have hle : d.heap.le H1 := (erase_loop_le E _ _ _ _ _).1 H1 hl
      have hi1 : ({ d with heap := H1 } : Deque α).Inv := hi.of_le _ hle
      have hp := pop_back_spec _ hi1 (by simpa using (by omega : d.m_size ≠ 0))
      exact ⟨fun r d1 h => (by cases h; exact hp.inv), fun e d1 h => (by cases h)⟩
    · have hle : d.heap.le H1 := (erase_loop_le E _ _ _ _ _).2 e1 H1 hl
      exact ⟨fun r d1 h => (by cases h), fun e d1 h => (by cases h; exact hi.of_le _ hle)⟩

theorem insert_inv (E : Env α) (hA : ∀ k, E.alloc_ok k = true) (d : Deque α) (hi : d.Inv)
    (k : Nat) (_hk : k ≤ d.m_size) (val : Ref α) :
    (∀ r d1, d.insert E (d.begin.plus d.arr.slots k) val = .ok (r, d1) → d1.Inv) ∧
    (∀ e d1, d.insert E (d.begin.plus d.arr.slots k) val = .threw e d1 → d1.Inv) := by
  unfold insert
  by_cases hc : (d.begin.plus d.arr.slots k).eq d.begin = true
  · rw [if_pos hc]
    rcases hdv : d.heap.deref val with _ | v
    · exact ⟨fun r d1 h => (by cases h), fun e d1 h => (by cases h; exact hi)⟩
    · simp only []
      have hp := push_front_inv E hA d hi v
      rcases hpf : d.push_front E v with d2 | ⟨e2, d2⟩
      · exact ⟨fun r d1 h => (by cases h; exact hp.1 _ hpf), fun e d1 h => (by cases h)⟩
      · exact ⟨fun r d1 h => (by cases h), fun e d1 h => (by cases h; exact hp.2 _ _ hpf)⟩
  · rw [if_neg hc]
    by_cases hc2 : (d.begin.plus d.arr.slots k).eq d.end_ = true
    · rw [if_pos hc2]
      rcases hdv : d.heap.deref val with _ | v
      · exact ⟨fun r d1 h => (by cases h), fun e d1 h => (by cases h; exact hi)⟩
      · simp only []
        have hp := push_back_inv E hA d hi v
        rcases hpf : d.push_back E v with d2 | ⟨e2, d2⟩
        · exact ⟨fun r d1 h => (by cases h; exact hp.1 _ hpf), fun e d1 h => (by cases h)⟩
        · exact ⟨fun r d1 h => (by cases h), fun e d1 h => (by cases h; exact hp.2 _ _ hpf)⟩
    · rw [if_neg hc2]
      obtain ⟨dU, hU, hr⟩ := pre_back E hA d hi
      rw [hU]
      simp only []
      rcases hb : dU.heap.read dU.back with _ | x
      · exact ⟨fun r d1 h => (by cases h), fun e d1 h => (by cases h; exact hr.inv)⟩
      · simp only [Heap.construct]
        by_cases hcx : E.copy_ok x = true
        · simp only [hcx, if_true]
          have hle0 := Heap.le_store dU.heap dU.m_end x
          rcases hl : insert_loop E dU.arr.slots
              (({ dU with heap := dU.heap.store dU.m_end x } : Deque α).begin.plus dU.arr.slots
                (BaseIterator.distance d.arr.slots (d.begin.plus d.arr.slots k) d.begin))
              (dU.m_size + 1)
              (({ dU with heap := dU.heap.store dU.m_end x } : Deque α).end_.dec dU.arr.slots)
              (dU.heap.store dU.m_end x) with H1 | ⟨e1, H1⟩
          · have hle1 : dU.heap.le H1 :=
              Heap.le_trans hle0 ((insert_loop_le E _ _ _ _ _).1 H1 hl)
            simp only []
            rcases hdv : H1.deref val with _ | v
            · exact ⟨fun r d1 h => (by cases h), fun e d1 h => (by
                cases h; exact hr.inv.of_le _ hle1)⟩
            · simp only [Heap.assign]
              by_cases hav : E.assign_ok v = true
              · simp only [hav, if_true]
                have hle2 := Heap.le_trans hle1 (Heap.le_store H1
                  (({ dU with heap := dU.heap.store dU.m_end x } : Deque α).begin.plus
                    dU.arr.slots
                    (BaseIterator.distance d.arr.slots (d.begin.plus d.arr.slots k)
                      d.begin)).item v)
                have hi3 := hr.inv.of_le _ hle2
                obtain ⟨bn, hbn, _⟩ := hr.inv.slot_blk' dU.m_size (by omega) (le_refl _)
                rw [← hr.inv.m_end_eq] at hbn
                have hsome : ((dU.heap.store dU.m_end x).read dU.m_end).isSome := by
                  rw [Heap.read_store_same _ _ _ bn hbn]; rfl
                have hsome2 := (Heap.le_trans ((insert_loop_le E _ _ _ _ _).1 H1 hl)
                  (Heap.le_store H1
                    (({ dU with heap := dU.heap.store dU.m_end x } : Deque α).begin.plus
                      dU.arr.slots
                      (BaseIterator.distance d.arr.slots (d.begin.plus d.arr.slots k)
                        d.begin)).item v)).2 _ hsome
                obtain ⟨y, hy⟩ := Option.isSome_iff_exists.1 hsome2
                obtain ⟨d3, e3, hg⟩ := next_end_spec E hA _ hi3 hr.ce_lt y hy
                rw [e3]
                exact ⟨fun r d1 h => (by cases h; exact hg.inv), fun e d1 h => (by cases h)⟩
              · simp only [hav]
                exact ⟨fun r d1 h => (by cases h), fun e d1 h => (by
                  cases h; exact hr.inv.of_le _ hle1)⟩
          · have hle1 : dU.heap.le H1 :=
              Heap.le_trans hle0 ((insert_loop_le E _ _ _ _ _).2 e1 H1 hl)
            exact ⟨fun r d1 h => (by cases h), fun e d1 h => (by
              cases h; exact hr.inv.of_le _ hle1)⟩
        · simp only [hcx]
          exact ⟨fun r d1 h => (by cases h), fun e d1 h => (by cases h; exact hr.inv)⟩

end Deque

namespace ChunkArray

theorem alloc_chunks_spec (E : Env α) (hA : ∀ k, E.alloc_ok k = true) (sz : Nat) :
    ∀ (fuel ind : Nat) (s : Int → Handle) (h : Heap α), ind + fuel = sz →
      ∃ s1 h1, alloc_chunks E sz fuel ind s h = (true, sz, s1, h1) ∧
        (∀ k : Int, (ind : Int) ≤ k → k < sz → s1 k = .blk (h.next + (k - ind).toNat)) ∧
        (∀ k : Int, ¬ ((ind : Int) ≤ k ∧ k < sz) → s1 k = s k) ∧
        h1.next = h.next + fuel ∧
        (∀ b, b < h.next → h1.mem b = h.mem b ∧ h1.cap b = h.cap b) ∧
        (∀ b, h.next ≤ b → b < h1.next → (∀ o, h1.mem b o = none) ∧ h1.cap b = chunk_size) ∧
        h1.freed = h.freed ∧ h1.destroyed = h.destroyed := by
  intro fuel
  induction fuel with
  | zero =>
    intro ind s h he
    refine ⟨s, h, ?_, ?_, fun _ _ => rfl, rfl, fun _ _ => ⟨rfl, rfl⟩, ?_, rfl, rfl⟩
    · simp only [alloc_chunks]
      rw [show ind = sz by omega]
    · intro k h0 h1; omega
    · intro b h0 h1; omega
  | succ n ih =>
    intro ind s h he
    have hlt : ind < sz := by omega
    simp only [alloc_chunks, if_pos hlt, Heap.alloc_ok E hA]
    obtain ⟨s1, h1, e1, a1, a2, a3, a4, a5, a6, a7⟩ := ih (ind + 1) (set_slot s ind (.blk h.next))
      { h with
        next := h.next + 1
        cap := fun b => if b = h.next then chunk_size else h.cap b
        mem := fun b o => if b = h.next then none else h.mem b o } (by omega)
    refine ⟨s1, h1, e1, ?_, ?_, ?_, ?_, ?_, a6, a7⟩
    · intro k h0 hk1
      by_cases hk : k = ind
      · rw [a2 k (by push_cast; omega)]
        simp only [set_slot, if_pos hk]
        rw [hk]; simp
      · rw [a1 k (by push_cast; omega) hk1]
        simp only
        congr 1; omega
    · intro k hk
      rw [a2 k (by push_cast; omega)]
      simp only [set_slot]
      rw [if_neg (by omega)]
    · rw [a3]; simp only; omega
    · intro b hb
      obtain ⟨m1, c1⟩ := a4 b (by simp only; omega)
      rw [m1, c1]
      simp only
      constructor
      · funext o; rw [if_neg (by omega)]
      · rw [if_neg (by omega)]
    · intro b hb0 hb1
      by_cases hbn : b = h.next
      · obtain ⟨m1, c1⟩ := a4 b (by simp only; omega)
        rw [m1, c1]
        exact ⟨fun o => by simp [hbn], by simp [hbn]⟩
      · exact a5 b (by simp only; omega) hb1

/-- What the constructor `ChunkArray(size_t elems_count)` builds when every allocation
succeeds. -/
theorem ctor_spec (E : Env α) (hA : ∀ k, E.alloc_ok k = true) (h : Heap α) (n : Nat)
    (hn : n + chunk_size - 1 < size_t_mod) :
    ∃ a h1, ctor E h n = .ok (a, h1) ∧
      a.end_ = ((n + 31) / 32 : Nat) ∧ a.cur_begin = 0 ∧ a.cur_end = ((n / 32 : Nat) : Int) ∧
      (∀ k : Int, 0 ≤ k → k ≤ a.end_ → a.slots k = .blk (h.next + 1 + k.toNat)) ∧
      h1.next = h.next + 1 + (n + 31) / 32 + 1 ∧
      (∀ b, b < h.next → h1.mem b = h.mem b ∧ h1.cap b = h.cap b) ∧
      (∀ b, h.next < b → b < h1.next → ∀ o, h1.mem b o = none) ∧
      h1.freed = h.freed ∧ h1.destroyed = h.destroyed := by
  have hsz : (n + chunk_size - 1) % size_t_mod / chunk_size = (n + 31) / 32 := by
    simp only [chunk_size_eq, size_t_mod_eq] at hn ⊢
    omega
  unfold ctor
  simp only [Heap.alloc_handles_ok E hA, hsz]
  obtain ⟨s1, h1, e1, a1, a2, a3, a4, a5, a6, a7⟩ := alloc_chunks_spec E hA ((n + 31) / 32)
    ((n + 31) / 32) 0 (fun _ => Handle.wild) { h with next := h.next + 1 } (by omega)
  dsimp only at a3 a4 a5 a6 a7
  rw [e1]
  simp only [Heap.alloc_ok E hA]
  refine ⟨_, _, rfl, rfl, rfl, rfl, ?_, ?_, ?_, ?_, ?_, ?_⟩
  · intro k h0 hk1
    simp only at hk1 ⊢
    simp only [set_slot]
    by_cases hk : k = (((n + 31) / 32 : Nat) : Int)
    · rw [if_pos hk, a3]
      congr 1; omega
    · rw [if_neg hk, a1 k (by simpa using h0) (by omega)]
      congr 1
      simp only [Nat.cast_zero, sub_zero]
  · simp only; rw [a3]
  · intro b hb
    obtain ⟨m1, c1⟩ := a4 b (by omega)
    simp only
    constructor
    · funext o; rw [if_neg (by omega), m1]
    · rw [if_neg (by omega), c1]
  · intro b hb0 hb1 o
    simp only at hb1 ⊢
    by_cases hbn : b = h1.next
    · rw [if_pos hbn]
    · rw [if_neg hbn]
      exact (a5 b (by omega) (by omega)).1 o
  · exact a6
  · exact a7

end ChunkArray

namespace Deque

theorem Inv.shape {d : Deque α} (hi : d.Inv) : d.Shape :=
  ⟨hi.cb_nonneg, hi.cb_le, hi.ce_le, hi.win, hi.sentinel, hi.inj, hi.owned, hi.mb_base,
    hi.mb_off, hi.me_base, hi.me_off, hi.me_sentinel, hi.size_eq⟩

theorem Shape.to_inv {d : Deque α} (hs : d.Shape)
    (hl : ∀ j : Nat, j < d.m_size → ∃ x, d.heap.read (d.slot j) = some x) : d.Inv :=
  ⟨hs.cb_nonneg, hs.cb_le, hs.ce_le, hs.win, hs.sentinel, hs.inj, hs.owned, hs.mb_base,
    hs.mb_off, hs.me_base, hs.me_off, hs.me_sentinel, hs.size_eq, hl⟩

theorem Shape.of_heap {d : Deque α} (hs : d.Shape) (H : Heap α) (hn : d.heap.next ≤ H.next) :
    ({ d with heap := H } : Deque α).Shape := by
  refine ⟨hs.cb_nonneg, hs.cb_le, hs.ce_le, hs.win, hs.sentinel, hs.inj, ?_, hs.mb_base,
    hs.mb_off, hs.me_base, hs.me_off, hs.me_sentinel, hs.size_eq⟩
  intro i h0 h1
  rcases hs.owned i h0 h1 with h | ⟨b, hb, hlt⟩
  · exact Or.inl h
  · exact Or.inr ⟨b, hb, by simp only; omega⟩

/-- The same object in a heap where every slot holds the element `x`: it satisfies the
whole invariant, so that facts on positions and iterators, which do not look at the
heap, carry over to any state of the right shape. -/
theorem Shape.full {d : Deque α} (hs : d.Shape) (x : α) :
    ({ d with heap := { d.heap with mem := fun _ _ => some x } } : Deque α).Inv := by
  refine Shape.to_inv ⟨hs.cb_nonneg, hs.cb_le, hs.ce_le, hs.win, hs.sentinel, hs.inj, hs.owned,
    hs.mb_base, hs.mb_off, hs.me_base, hs.me_off, hs.me_sentinel, hs.size_eq⟩ ?_
  intro j hj
  have := hs.mb_off; have := hs.me_off; have := hs.size_eq
  simp only at hj
  obtain ⟨b, hb⟩ := hs.win (d.arr.cur_begin + (d.m_begin.off + (j : Int)) / 32) (by omega)
    (by omega)
  refine ⟨x, ?_⟩
  have hbase : (({ d with heap := { d.heap with mem := fun _ _ => some x } } : Deque α).slot
      j).base = .blk b := hb
  rw [Heap.read_blk _ _ b hbase]

theorem BaseDeque_spec (E : Env α) (hA : ∀ k, E.alloc_ok k = true) (h : Heap α) (n : Nat)
    (hn : n + chunk_size - 1 < size_t_mod) :
    ∃ d, BaseDeque E h n = .ok d ∧ d.Shape ∧ d.m_size = n ∧
      (∀ i b, 0 ≤ i → i ≤ d.arr.end_ → d.arr.slots i = .blk b → h.next < b) ∧
      h.next ≤ d.heap.next ∧
      (∀ b, b < h.next → d.heap.mem b = h.mem b ∧ d.heap.cap b = h.cap b) ∧
      (∀ b, h.next < b → b < d.heap.next → ∀ o, d.heap.mem b o = none) ∧
      d.heap.freed = h.freed ∧ d.heap.destroyed = h.destroyed := by
  obtain ⟨a, h1, e1, a1, a2, a3, a4, a5, a6, a7, a8, a9⟩ := ChunkArray.ctor_spec E hA h n hn
  unfold BaseDeque
  rw [e1]
  simp only []
  refine ⟨_, rfl, ⟨?_, ?_, ?_, ?_, ?_, ?_, ?_, ?_, ?_, ?_, ?_, ?_, ?_⟩, rfl, ?_, ?_, a6, a7, a8,
    a9⟩
  · simp only; omega
  · simp only; omega
  · simp only; omega
  · intro i h0 h1'
    simp only at h0 h1' ⊢
    exact ⟨_, a4 i (by omega) (by omega)⟩
  · simp only; exact ⟨_, a4 _ (by omega) (le_refl _)⟩
  · intro i j b hi0 hi1 hj0 hj1 hi hj
    simp only at hi0 hi1 hj0 hj1 hi hj
    rw [a4 i hi0 hi1] at hi
    rw [a4 j hj0 hj1] at hj
    cases hi
    simp only [Handle.blk.injEq] at hj
    omega
  · intro i h0 h1'
    simp only at h0 h1' ⊢
    exact Or.inr ⟨_, a4 i h0 h1', by omega⟩
  · simp only [Handle.plus_base]
  · simp only [Handle.plus_off]; omega
  · simp only [Handle.plus_base, chunk_size_eq]; rw [a2, a3]; simp
  · simp only [Handle.plus_off, chunk_size_eq]; omega
  · intro hce
    simp only at hce
    simp only [Handle.plus_off, chunk_size_eq]
    omega
  · simp only [Handle.plus_off, chunk_size_eq]; omega
  · intro i b h0 h1' hb
    simp only at h0 h1' hb
    rw [a4 i h0 h1'] at hb
    cases hb
    omega
  · simp only; omega

theorem Shape.shape_begin_eq {d : Deque α} (hs : d.Shape) (x : α) : d.begin = d.iter_at 0 :=
  (hs.full x).begin_eq

theorem Shape.shape_end_eq {d : Deque α} (hs : d.Shape) (x : α) : d.end_ = d.iter_at d.m_size :=
  (hs.full x).end_eq

theorem Shape.shape_iter_inc {d : Deque α} (hs : d.Shape) (x : α) (j : Int) (h0 : 0 ≤ j)
    (h1 : j < d.m_size) : (d.iter_at j).inc d.arr.slots = d.iter_at (j + 1) :=
  (hs.full x).iter_inc j h0 h1

theorem Shape.shape_slot_inj {d : Deque α} (hs : d.Shape) (x : α) (j k : Int) (hj0 : 0 ≤ j)
    (hj1 : j ≤ d.m_size) (hk0 : 0 ≤ k) (hk1 : k ≤ d.m_size) (h : d.slot j = d.slot k) :
    j = k :=
  (hs.full x).slot_inj j k hj0 hj1 hk0 hk1 h

theorem Shape.shape_slot_blk {d : Deque α} (hs : d.Shape) (x : α) (j : Int) (h0 : 0 ≤ j)
    (h1 : j ≤ d.m_size) : ∃ b, (d.slot j).base = .blk b ∧ b < d.heap.next :=
  (hs.full x).slot_blk' j h0 h1

theorem Shape.slot_index {d : Deque α} (hs : d.Shape) (j : Int) (h0 : 0 ≤ j)
    (h1 : j ≤ d.m_size) :
    0 ≤ d.arr.cur_begin + (d.m_begin.off + j) / 32 ∧
      d.arr.cur_begin + (d.m_begin.off + j) / 32 ≤ d.arr.end_ := by
  have := hs.mb_off; have := hs.me_off; have := hs.size_eq
  have := hs.cb_nonneg; have := hs.ce_le
  constructor <;> omega

/-- The loop of `std::uninitialized_fill`, when it completes. -/
theorem fill_loop_ok (E : Env α) (d : Deque α) (hs : d.Shape) (val : α) :
    ∀ (fuel : Nat) (i : Int) (H H1 : Heap α), 0 ≤ i → i ≤ d.m_size →
      fill_loop E d.arr.slots (d.iter_at d.m_size) val fuel (d.iter_at i) H = .ok H1 →
      H1.next = H.next ∧ H1.destroyed = H.destroyed ∧ H1.freed = H.freed ∧
        (∀ j : Int, i ≤ j → j < d.m_size → H1.read (d.slot j) = some val) ∧
        (∀ p, (∀ j : Int, i ≤ j → j < d.m_size → p ≠ d.slot j) → H1.read p = H.read p) := by
  intro fuel
  induction fuel with
  | zero => intro i H H1 _ _ h; simp [fill_loop] at h
  | succ n ih =>
    intro i H H1 h0 h1 h
    unfold fill_loop at h
    simp only [iter_at_item] at h
    by_cases hin : i = d.m_size
    · rw [if_neg (by rw [hin]; simp)] at h
      cases h
      exact ⟨rfl, rfl, rfl, fun j a b => by omega, fun _ _ => rfl⟩
    · have hne : d.slot i ≠ d.slot d.m_size := fun e =>
        hin (hs.shape_slot_inj val i d.m_size h0 h1 (by omega) (le_refl _) e)
      rw [if_pos hne] at h
      simp only [Heap.construct] at h
      by_cases hv : E.copy_ok val = true
      · simp only [hv, if_true] at h
        rw [hs.shape_iter_inc val i h0 (by omega)] at h
        obtain ⟨n2, d2, fr2, r2, f2⟩ := ih (i + 1) _ H1 (by omega) (by omega) h
        obtain ⟨b, hb, _⟩ := hs.shape_slot_blk val i h0 h1
        refine ⟨by rw [n2, Heap.store_next], ?_, ?_, ?_, ?_⟩
        · rw [d2]; unfold Heap.store; rw [hb]
        · rw [fr2]; unfold Heap.store; rw [hb]
        · intro j hj0 hj1
          by_cases hji : j = i
          · rw [hji, f2 _ (fun j' a b e => by
              have := hs.shape_slot_inj val i j' h0 h1 (by omega) (by omega) e; omega)]
            exact Heap.read_store_same _ _ _ b hb
          · exact r2 j (by omega) hj1
        · intro p hp
          rw [f2 p (fun j a b => hp j (by omega) b)]
          exact Heap.read_store_ne _ _ _ _ (hp i (le_refl _) (by omega))
      · simp only [hv] at h
        cases h

/-- The loop of `Deque(size_t)`, when it completes. -/
theorem default_loop_ok (E : Env α) (d : Deque α) (hs : d.Shape) :
    ∀ (fuel k : Nat) (i : Int) (H H1 : Heap α), 0 ≤ i → i ≤ d.m_size →
      default_loop E d.arr.slots (d.iter_at d.m_size) fuel k (d.iter_at i) H = .ok H1 →
      H1.next = H.next ∧ H1.destroyed = H.destroyed ∧ H1.freed = H.freed ∧
        (∀ j : Int, i ≤ j → j < d.m_size → H1.read (d.slot j) = some E.dflt) ∧
        (∀ p, (∀ j : Int, i ≤ j → j < d.m_size → p ≠ d.slot j) → H1.read p = H.read p) := by
  intro fuel
  induction fuel with
  | zero => intro k i H H1 _ _ h; simp [default_loop] at h
  | succ n ih =>
    intro k i H H1 h0 h1 h
    unfold default_loop at h
    simp only [iter_at_item] at h
    by_cases hin : i = d.m_size
    · rw [if_neg (by rw [hin]; simp)] at h
      cases h
      exact ⟨rfl, rfl, rfl, fun j a b => by omega, fun _ _ => rfl⟩
    · have hne : d.slot i ≠ d.slot d.m_size := fun e =>
        hin (hs.shape_slot_inj E.dflt i d.m_size h0 h1 (by omega) (le_refl _) e)
      rw [if_pos hne] at h
      by_cases hv : E.dflt_ok k = true
      · simp only [hv, if_true] at h
        rw [hs.shape_iter_inc E.dflt i h0 (by omega)] at h
        obtain ⟨n2, d2, fr2, r2, f2⟩ := ih (k + 1) (i + 1) _ H1 (by omega) (by omega) h
        obtain ⟨b, hb, _⟩ := hs.shape_slot_blk E.dflt i h0 h1
        refine ⟨by rw [n2, Heap.store_next], ?_, ?_, ?_, ?_⟩
        · rw [d2]; unfold Heap.store; rw [hb]
        · rw [fr2]; unfold Heap.store; rw [hb]
        · intro j hj0 hj1
          by_cases hji : j = i
          · rw [hji, f2 _ (fun j' a b e => by
              have := hs.shape_slot_inj E.dflt i j' h0 h1 (by omega) (by omega) e; omega)]
            exact Heap.read_store_same _ _ _ b hb
          · exact r2 j (by omega) hj1
        · intro p hp
          rw [f2 p (fun j a b => hp j (by omega) b)]
          exact Heap.read_store_ne _ _ _ _ (hp i (le_refl _) (by omega))
      · simp only [hv] at h
        cases h

theorem ctor_n_val_inv (E : Env α) (hA : ∀ k, E.alloc_ok k = true) (h : Heap α) (n : Nat)
    (val : α) (hn : n + chunk_size - 1 < size_t_mod) (d : Deque α)
    (he : ctor_n_val E h n val = .ok d) :
    d.Inv ∧ d.m_size = n ∧ ∀ j : Int, 0 ≤ j → j < n → d.heap.read (d.slot j) = some val := by
  obtain ⟨d0, e0, hs, hsz, _, _, _, _, _, _⟩ := BaseDeque_spec E hA h n hn
  unfold ctor_n_val at he
  rw [e0] at he
  simp only [] at he
  rw [hs.shape_begin_eq val, hs.shape_end_eq val, ← hsz] at he
  rcases hl : fill_loop E d0.arr.slots (d0.iter_at d0.m_size) val (d0.m_size + 1) (d0.iter_at 0)
    d0.heap with H1 | ⟨e, it, H1⟩
  · rw [hl] at he
    simp only [Res.ok.injEq] at he
    obtain ⟨n1, _, _, r1, _⟩ := fill_loop_ok E d0 hs val _ 0 _ H1 (le_refl _) (by omega) hl
    rw [← he]
    refine ⟨(hs.of_heap H1 (by omega)).to_inv ?_, hsz, ?_⟩
    · intro j hj
      exact ⟨val, r1 j (by omega) (by simpa using hj)⟩
    · intro j h0 h1
      exact r1 j h0 (by rw [hsz]; exact h1)
  · rw [hl] at he
    simp only [] at he
    split at he <;> cases he

theorem ctor_n_inv (E : Env α) (hA : ∀ k, E.alloc_ok k = true) (h : Heap α) (n : Nat)
    (hn : n + chunk_size - 1 < size_t_mod) (d : Deque α)
    (he : ctor_n E h n = .ok d) :
    d.Inv ∧ d.m_size = n ∧ ∀ j : Int, 0 ≤ j → j < n → d.heap.read (d.slot j) = some E.dflt := by
  obtain ⟨d0, e0, hs, hsz, _, _, _, _, _, _⟩ := BaseDeque_spec E hA h n hn
  unfold ctor_n at he
  rw [e0] at he
  simp only [] at he
  rw [hs.shape_begin_eq E.dflt, hs.shape_end_eq E.dflt, ← hsz] at he
  rcases hl : default_loop E d0.arr.slots (d0.iter_at d0.m_size) (d0.m_size + 1) 0
    (d0.iter_at 0) d0.heap with H1 | ⟨e, it, H1⟩
  · rw [hl] at he
    simp only [Res.ok.injEq] at he
    obtain ⟨n1, _, _, r1, _⟩ := default_loop_ok E d0 hs _ 0 0 _ H1 (le_refl _) (by omega) hl
    rw [← he]
    refine ⟨(hs.of_heap H1 (by omega)).to_inv ?_, hsz, ?_⟩
    · intro j hj
      exact ⟨E.dflt, r1 j (by omega) (by simpa using hj)⟩
    · intro j h0 h1
      exact r1 j h0 (by rw [hsz]; exact h1)
  · rw [hl] at he
    simp only [] at he
    split at he <;> cases he

theorem ctor_default_inv (E : Env α) (hA : ∀ k, E.alloc_ok k = true) (h : Heap α)
    (d : Deque α) (he : ctor_default E h = .ok d) : d.Inv ∧ d.m_size = 0 := by
  obtain ⟨d0, e0, hs, hsz, _, _, _, _, _, _⟩ := BaseDeque_spec E hA h 0 (by decide)
  unfold ctor_default at he
  rw [e0] at he
  cases he
  exact ⟨hs.to_inv (fun j hj => by omega), hsz⟩

end Deque

namespace Heap

@[simp] theorem store_cap (h : Heap α) (p : Ptr) (v : α) : (h.store p v).cap = h.cap := by
  unfold store; split <;> rfl

@[simp] theorem destroy_cap (h : Heap α) (p : Ptr) : (h.destroy p).cap = h.cap := by
  unfold destroy; split <;> rfl

theorem same_off_refl (P : Nat → Prop) (H : Heap α) : same_off P H H :=
  ⟨rfl, rfl, fun _ _ => rfl⟩

theorem same_off_trans {P : Nat → Prop} {H H1 H2 : Heap α} (h1 : same_off P H H1)
    (h2 : same_off P H1 H2) : same_off P H H2 :=
  ⟨h2.1.trans h1.1, h2.2.1.trans h1.2.1, fun b hb => (h2.2.2 b hb).trans (h1.2.2 b hb)⟩

theorem same_off_store (P : Nat → Prop) (H : Heap α) (p : Ptr) (v : α)
    (hp : ∀ b, p.base = .blk b → P b) : same_off P H (H.store p v) := by
  refine ⟨store_next H p v, store_cap H p v, ?_⟩
  intro b hb
  unfold store
  rcases hpb : p.base with _ | _ | c
  · rfl
  · rfl
  · simp only
    funext o
    rw [if_neg]
    rintro ⟨rfl, _⟩
    exact hb (hp _ hpb)

theorem same_off_destroy (P : Nat → Prop) (H : Heap α) (p : Ptr)
    (hp : ∀ b, p.base = .blk b → P b) : same_off P H (H.destroy p) := by
  refine ⟨destroy_next H p, destroy_cap H p, ?_⟩
  intro b hb
  unfold destroy
  rcases hpb : p.base with _ | _ | c
  · rfl
  · rfl
  · simp only
    funext o
    rw [if_neg]
    rintro ⟨rfl, _⟩
    exact hb (hp _ hpb)

end Heap

namespace BaseIterator

theorem Based.inc {s : Int → Handle} {P : Nat → Prop} {it : BaseIterator}
    (h : Based s P it) : Based s P (it.inc s) := by
  obtain ⟨h1, h2, h3, h4⟩ := h
  unfold BaseIterator.inc
  simp only
  split_ifs with hc
  · exact ⟨by simp only; omega, by simp only; omega, rfl, h4⟩
  · exact ⟨h1, h2, h3, h4⟩

theorem Based.item {s : Int → Handle} {P : Nat → Prop} {it : BaseIterator}
    (h : Based s P it) : ∀ b, it.item.base = .blk b → P b := by
  intro b hb
  rw [h.2.2.1] at hb
  exact h.2.2.2 _ h.1 h.2.1 b hb

end BaseIterator

namespace Deque

theorem destroy_range_frame (s : Int → Handle) (P : Nat → Prop) (last : BaseIterator) :
    ∀ (fuel : Nat) (it : BaseIterator) (H H1 : Heap α), it.Based s P →
      destroy_range s last fuel it H = .ok H1 → Heap.same_off P H H1 := by
  intro fuel
  induction fuel with
  | zero => intro it H H1 _ h; simp [destroy_range] at h
  | succ n ih =>
    intro it H H1 hb h
    unfold destroy_range at h
    split_ifs at h with hc
    · exact Heap.same_off_trans (Heap.same_off_destroy P H it.item hb.item)
        (ih _ _ H1 hb.inc h)
    · cases h; exact Heap.same_off_refl P H

theorem copy_loop_frame (E : Env α) (ss s : Int → Handle) (P : Nat → Prop)
    (fin : BaseIterator) :
    ∀ (fuel : Nat) (src it : BaseIterator) (H : Heap α), it.Based s P →
      (∀ H1, copy_loop E ss s fin fuel src it H = .ok H1 → Heap.same_off P H H1) ∧
      (∀ e it1 H1, copy_loop E ss s fin fuel src it H = .threw e (it1, H1) →
        Heap.same_off P H H1 ∧ it1.Based s P) := by
  intro fuel
  induction fuel with
  | zero =>
    intro src it H hb
    constructor
    · intro H1 h; simp [copy_loop] at h
    · intro e it1 H1 h
      simp only [copy_loop, Res.threw.injEq, Prod.mk.injEq] at h
      obtain ⟨_, h1, h2⟩ := h
      rw [← h1, ← h2]; exact ⟨Heap.same_off_refl P H, hb⟩
  | succ n ih =>
    intro src it H hb
    unfold copy_loop
    by_cases hc : src.item ≠ fin.item
    · rw [if_pos hc]
      rcases hr : H.read src.item with _ | x
      · simp only []
        constructor
        · intro H1 h; cases h
        · intro e it1 H1 h; cases h; exact ⟨Heap.same_off_refl P H, hb⟩
      · simp only [Heap.construct]
        by_cases hv : E.copy_ok x = true
        · simp only [hv, if_true]
          have hst := Heap.same_off_store P H it.item x hb.item
          constructor
          · intro H1 h; exact Heap.same_off_trans hst ((ih _ _ _ hb.inc).1 H1 h)
          · intro e it1 H1 h
            obtain ⟨a, b⟩ := (ih _ _ _ hb.inc).2 e it1 H1 h
            exact ⟨Heap.same_off_trans hst a, b⟩
        · simp only [hv]
          constructor
          · intro H1 h; cases h
          · intro e it1 H1 h; cases h; exact ⟨Heap.same_off_refl P H, hb⟩
    · rw [if_neg hc]
      constructor
      · intro H1 h; cases h; exact Heap.same_off_refl P H
      · intro e it1 H1 h; cases h

theorem ChunkArray_dtor_same (a : ChunkArray) (H : Heap α) :
    (ChunkArray_dtor a H).next = H.next ∧ (ChunkArray_dtor a H).cap = H.cap ∧
      (ChunkArray_dtor a H).mem = H.mem ∧ (ChunkArray_dtor a H).destroyed = H.destroyed := by
  unfold ChunkArray_dtor
  have key : ∀ (l : List Nat) (H0 : Heap α),
      (l.foldl (fun h1 i => h1.free (a.slots (a.begin + (i : Int)))) H0).next = H0.next ∧
      (l.foldl (fun h1 i => h1.free (a.slots (a.begin + (i : Int)))) H0).cap = H0.cap ∧
      (l.foldl (fun h1 i => h1.free (a.slots (a.begin + (i : Int)))) H0).mem = H0.mem ∧
      (l.foldl (fun h1 i => h1.free (a.slots (a.begin + (i : Int)))) H0).destroyed
        = H0.destroyed := by
    intro l
    induction l with
    | nil => intro H0; exact ⟨rfl, rfl, rfl, rfl⟩
    | cons x xs ih =>
      intro H0
      simp only [List.foldl_cons]
      obtain ⟨a1, a2, a3, a4⟩ := ih (H0.free (a.slots (a.begin + (x : Int))))
      exact ⟨a1, a2, a3, a4⟩
  obtain ⟨a1, a2, a3, a4⟩ := key (List.range (a.end_ - a.begin + 1).toNat) H
  exact ⟨a1, a2, a3, a4⟩

theorem Inv.frame {d : Deque α} (hi : d.Inv) (H : Heap α) (hf : d.frames H) :
    ({ d with heap := H } : Deque α).Inv := by
  have := hi.cb_nonneg; have := hi.ce_le
  refine (hi.shape.of_heap H hf.1).to_inv ?_
  intro j hj
  obtain ⟨x, hx⟩ := hi.live j hj
  obtain ⟨p0, p1⟩ := hi.pos_le j (by omega) (by simp only at hj; omega)
  obtain ⟨b, hb⟩ := hi.win _ (by omega : d.arr.cur_begin ≤ _) p1
  have hbase : (d.slot j).base = .blk b := hb
  refine ⟨x, ?_⟩
  show H.read (d.slot j) = some x
  rw [Heap.read_blk _ _ b hbase, (hf.2 _ b (by omega) (by omega) hb).1,
    ← Heap.read_blk _ _ b hbase]
  exact hx

theorem Inv.frames_of_ext {d : Deque α} (hi : d.Inv) (H : Heap α) (hn : d.heap.next ≤ H.next)
    (hm : ∀ b, b < d.heap.next → H.mem b = d.heap.mem b ∧ H.cap b = d.heap.cap b) :
    d.frames H := by
  refine ⟨hn, ?_⟩
  intro i b h0 h1 hb
  rcases hi.owned i h0 h1 with h | ⟨b', hb', hlt⟩
  · rw [h] at hb; cases hb
  · rw [hb'] at hb; cases hb; exact hm b hlt

/-- The loop of `std::uninitialized_copy`, when it completes. -/
theorem copy_loop_ok (E : Env α) (src d : Deque α) (hsrc : src.Inv) (hs : d.Shape)
    (hsz : d.m_size = src.m_size)
    (hdis : ∀ j k : Int, 0 ≤ j → j < d.m_size → 0 ≤ k → k < d.m_size → d.slot j ≠ src.slot k) :
    ∀ (fuel : Nat) (i : Int) (H H1 : Heap α), 0 ≤ i → i ≤ d.m_size →
      copy_loop E src.arr.slots d.arr.slots (src.iter_at src.m_size) fuel (src.iter_at i)
        (d.iter_at i) H = .ok H1 →
      H1.next = H.next ∧ H1.cap = H.cap ∧
        (∀ j : Int, i ≤ j → j < d.m_size →
          ∃ x, H.read (src.slot j) = some x ∧ H1.read (d.slot j) = some x) ∧
        (∀ p, (∀ j : Int, i ≤ j → j < d.m_size → p ≠ d.slot j) → H1.read p = H.read p) := by
  intro fuel
  induction fuel with
  | zero => intro i H H1 _ _ h; simp [copy_loop] at h
  | succ n ih =>
    intro i H H1 h0 h1 h
    unfold copy_loop at h
    simp only [iter_at_item] at h
    by_cases hin : i = d.m_size
    · rw [if_neg (by rw [hin, hsz]; simp)] at h
      cases h
      exact ⟨rfl, rfl, fun j a b => by omega, fun _ _ => rfl⟩
    · have hne : src.slot i ≠ src.slot src.m_size := by
        intro e
        have := hsrc.slot_inj i src.m_size h0 (by omega) (by omega) (le_refl _) e
        omega
      rw [if_pos hne] at h
      rcases hr : H.read (src.slot i) with _ | x
      · rw [hr] at h; cases h
      · rw [hr] at h
        simp only [Heap.construct] at h
        by_cases hv : E.copy_ok x = true
        · simp only [hv, if_true] at h
          rw [hsrc.iter_inc i h0 (by omega), hs.shape_iter_inc x i h0 (by omega)] at h
          obtain ⟨n2, c2, r2, f2⟩ := ih (i + 1) _ H1 (by omega) (by omega) h
          obtain ⟨b, hb, _⟩ := hs.shape_slot_blk x i h0 h1
          refine ⟨by rw [n2, Heap.store_next], by rw [c2, Heap.store_cap], ?_, ?_⟩
          · intro j hj0 hj1
            by_cases hji : j = i
            · refine ⟨x, by rw [hji]; exact hr, ?_⟩
              rw [hji, f2 _ (fun j' a b e => by
                have := hs.shape_slot_inj x i j' h0 h1 (by omega) (by omega) e; omega)]
              exact Heap.read_store_same _ _ _ b hb
            · obtain ⟨y, hy1, hy2⟩ := r2 j (by omega) hj1
              refine ⟨y, ?_, hy2⟩
              rw [← hy1]
              exact (Heap.read_store_ne _ _ _ _
                (fun e => hdis i j h0 (by omega) (by omega) hj1 e.symm)).symm
          · intro p hp
            rw [f2 p (fun j a b => hp j (by omega) b)]
            exact Heap.read_store_ne _ _ _ _ (hp i (le_refl _) (by omega))
        · simp only [hv] at h
          cases h

theorem Shape.shape_begin_based {d : Deque α} (hs : d.Shape) (P : Nat → Prop)
    (hP : ∀ i b, 0 ≤ i → i ≤ d.arr.end_ → d.arr.slots i = .blk b → P b) :
    d.begin.Based d.arr.slots P := by
  have := hs.cb_nonneg; have := hs.ce_le
  exact ⟨le_refl _, hs.cb_le, hs.mb_base, fun i h0 h1 b hb => hP i b (by
    simp only [Deque.begin] at h0; omega) (by simp only [Deque.begin] at h1; omega) hb⟩

theorem ctor_copy_spec (E : Env α) (hA : ∀ k, E.alloc_ok k = true) (src : Deque α)
    (hsrc : src.Inv) (hn : src.m_size + chunk_size - 1 < size_t_mod) :
    (∀ d, ctor_copy E src = .ok d →
      d.Inv ∧ d.m_size = src.m_size ∧
      (∀ j : Int, 0 ≤ j → j < src.m_size →
        d.heap.read (d.slot j) = src.heap.read (src.slot j)) ∧
      src.heap.next ≤ d.heap.next ∧
      (∀ b, b < src.heap.next → d.heap.mem b = src.heap.mem b ∧ d.heap.cap b = src.heap.cap b) ∧
      (∀ i b, 0 ≤ i → i ≤ d.arr.end_ → d.arr.slots i = .blk b → src.heap.next < b)) ∧
    (∀ e h1, ctor_copy E src = .threw e h1 →
      src.heap.next ≤ h1.next ∧
      ∀ b, b < src.heap.next → h1.mem b = src.heap.mem b ∧ h1.cap b = src.heap.cap b) := by
  obtain ⟨d0, e0, hs, hsz, hfresh, hnx, hold, _, _, _⟩ :=
    BaseDeque_spec E hA src.heap src.m_size hn
  have hbased := hs.shape_begin_based (fun b => src.heap.next < b) hfresh
  unfold ctor_copy
  simp only [Deque.size]
  rw [e0]
  simp only []
  have hfr := copy_loop_frame E src.arr.slots d0.arr.slots (fun b => src.heap.next < b)
    src.end_ (src.m_size + 1) src.begin d0.begin d0.heap hbased
  rcases hl : copy_loop E src.arr.slots d0.arr.slots src.end_ (src.m_size + 1) src.begin
    d0.begin d0.heap with H1 | ⟨e, it, H1⟩
  · simp only []
    constructor
    · intro d hd
      cases hd
      have hso := hfr.1 H1 hl
      have hl' := hl
      rw [hsrc.begin_eq, hsrc.end_eq, hs.shape_begin_eq E.dflt] at hl'
      have hdis : ∀ j k : Int, 0 ≤ j → j < d0.m_size → 0 ≤ k → k < d0.m_size →
          d0.slot j ≠ src.slot k := by
        intro j k hj0 hj1 hk0 hk1 e
        obtain ⟨i0, i1⟩ := hs.slot_index j hj0 (by omega)
        obtain ⟨b, hb, _⟩ := hs.shape_slot_blk E.dflt j hj0 (by omega)
        have h1 := hfresh _ b i0 i1 hb
        obtain ⟨b', hb', hlt'⟩ := hsrc.slot_blk' k hk0 (by omega)
        rw [e, hb'] at hb
        cases hb
        omega
      obtain ⟨n1, c1, r1, f1⟩ := copy_loop_ok E src d0 hsrc hs hsz hdis _ 0 _ H1 (le_refl _)
        (by omega) hl'
      have hrd : ∀ j : Int, 0 ≤ j → j < src.m_size →
          H1.read (d0.slot j) = src.heap.read (src.slot j) := by
        intro j h0 h1
        obtain ⟨x, hx1, hx2⟩ := r1 j h0 (by omega)
        rw [hx2, ← hx1]
        obtain ⟨b', hb', hlt'⟩ := hsrc.slot_blk' j h0 (by omega)
        rw [Heap.read_blk _ _ b' hb', Heap.read_blk _ _ b' hb', (hold b' hlt').1]
      refine ⟨(hs.of_heap H1 (by omega)).to_inv ?_, hsz, hrd, by simp only; omega, ?_, hfresh⟩
      · intro j hj
        simp only at hj
        obtain ⟨x, hx⟩ := hsrc.live j (by omega)
        exact ⟨x, by rw [← hx]; exact hrd j (by omega) (by omega)⟩
      · intro b hb
        have := hso.2.2 b (by omega)
        simp only
        rw [this, hso.2.1]
        exact hold b hb
    · intro e h1 hd; cases hd
  · simp only []
    obtain ⟨hso, hbi⟩ := hfr.2 e it H1 hl
    constructor
    · intro d hd
      split at hd <;> cases hd
    · intro e' h1 hd
      rcases hdr : destroy_range d0.arr.slots it (src.m_size + 1) d0.begin H1 with e1 | H2
      · rw [hdr] at hd
        cases hd
        refine ⟨by rw [hso.1]; exact hnx, ?_⟩
        intro b hb
        rw [hso.2.2 b (by omega), hso.2.1]
        exact hold b hb
      · rw [hdr] at hd
        cases hd
        have hso2 := destroy_range_frame d0.arr.slots (fun b => src.heap.next < b) it _ _ _ H2
          hbased hdr
        obtain ⟨a1, a2, a3, _⟩ := ChunkArray_dtor_same d0.arr H2
        refine ⟨by rw [a1, hso2.1, hso.1]; exact hnx, ?_⟩
        intro b hb
        rw [a3, a2, hso2.2.2 b (by omega), hso2.2.1, hso.2.2 b (by omega), hso.2.1]
        exact hold b hb

theorem Inv.begin_based {d : Deque α} (hi : d.Inv) :
    d.begin.Based d.arr.slots (fun b => b < d.heap.next) := by
  refine hi.shape.shape_begin_based _ ?_
  intro i b h0 h1 hb
  rcases hi.owned i h0 h1 with h | ⟨b', hb', hlt⟩
  · rw [h] at hb; cases hb
  · rw [hb'] at hb; cases hb; exact hlt

theorem assign_inv (E : Env α) (hA : ∀ k, E.alloc_ok k = true) (d other : Deque α)
    (hd : d.Inv) (ho : other.Inv) (hh : d.heap = other.heap)
    (hn : other.m_size + chunk_size - 1 < size_t_mod) :
    (∀ d1, assign_op E d other = .ok d1 → d1.Inv) ∧
    (∀ e d1, assign_op E d other = .threw e d1 → d1.Inv) := by
  have hoe : ({ other with heap := d.heap } : Deque α) = other := by rw [hh]
  obtain ⟨hok, hth⟩ := ctor_copy_spec E hA other ho hn
  unfold assign_op
  rw [hoe]
  rcases hc : ctor_copy E other with copy | ⟨e, h1⟩
  · simp only [swap, ChunkArray.swap]
    obtain ⟨hci, hcs, hcr, hcn, hcm, hcfresh⟩ := hok copy hc
    rcases hdt : dtor (⟨d.arr, d.m_size, d.m_begin, d.m_end, copy.heap⟩ : Deque α)
      with e1 | H
    · simp only []
      exact ⟨fun d1 h => (by cases h), fun e d1 h => (by cases h; exact hci)⟩
    · simp only []
      constructor
      · intro d1 h
        cases h
        unfold dtor at hdt
        change (match destroy_range d.arr.slots d.end_ (d.m_size + 1) d.begin copy.heap with
          | .error e => Except.error e
          | .ok h => Except.ok (ChunkArray_dtor d.arr h)) = Except.ok H at hdt
        rcases hdr : destroy_range d.arr.slots d.end_ (d.m_size + 1) d.begin copy.heap
          with e2 | H2
        · simp only [hdr] at hdt
          cases hdt
        · simp only [hdr] at hdt
          cases hdt
          have hb := hd.begin_based
          have hso := destroy_range_frame d.arr.slots (fun b => b < d.heap.next) _ _ _ _ H2
            hb hdr
          obtain ⟨a1, a2, a3, _⟩ := ChunkArray_dtor_same d.arr H2
          refine hci.frame _ ⟨by rw [a1, hso.1], ?_⟩
          intro i b h0 h1 hbk
          have hlt := hcfresh i b h0 h1 hbk
          rw [a3, a2, hso.2.2 b (by rw [hh]; omega), hso.2.1]
          exact ⟨rfl, rfl⟩
      · intro e d1 h; cases h
  · simp only []
    obtain ⟨hnx, hm⟩ := hth e h1 hc
    constructor
    · intro d1 h; cases h
    · intro e d1 h
      cases h
      exact hd.frame h1 (hd.frames_of_ext h1 (by rw [hh]; exact hnx) (by
        intro b hb; rw [hh] at hb ⊢; exact hm b hb))

/-- Every reachable state satisfies the representation invariant, as long as no
allocation fails. -/
theorem Reachable.inv {E : Env α} (hA : ∀ k, E.alloc_ok k = true) {d : Deque α}
    (hr : Reachable E d) : d.Inv := by
  induction hr with
  | ctor_default h d he => exact (ctor_default_inv E hA h d he).1
  | ctor_n h n d hn he => exact (ctor_n_inv E hA h n hn d he).1
  | ctor_n_val h n val d hn he => exact (ctor_n_val_inv E hA h n val hn d he).1
  | ctor_copy copy d _ hn he ih => exact ((ctor_copy_spec E hA copy ih hn).1 d he).1
  | frame d h _ hf ih => exact ih.frame h hf
  | swap_left d tmp _ _ hh _ ih2 =>
    have : (d.swap tmp).1 = tmp := by
      unfold swap ChunkArray.swap
      cases tmp
      simp only at hh
      simp [hh]
    rw [this]; exact ih2
  | swap_right d tmp _ _ hh ih1 _ =>
    have : (d.swap tmp).2 = d := by
      unfold swap ChunkArray.swap
      cases d
      simp only at hh
      simp [hh]
    rw [this]; exact ih1
  | assign_ok d other d1 _ _ hh hn he ih1 ih2 =>
    exact (assign_inv E hA d other ih1 ih2 hh hn).1 d1 he
  | assign_threw d other d1 e _ _ hh hn he ih1 ih2 =>
    exact (assign_inv E hA d other ih1 ih2 hh hn).2 e d1 he
  | push_back_ok d d1 val _ he ih => exact (push_back_inv E hA d ih val).1 d1 he
  | push_back_threw d d1 val e _ he ih => exact (push_back_inv E hA d ih val).2 e d1 he
  | push_front_ok d d1 val _ he ih => exact (push_front_inv E hA d ih val).1 d1 he
  | push_front_threw d d1 val e _ he ih => exact (push_front_inv E hA d ih val).2 e d1 he
  | pop_back d _ hne ih => exact (pop_back_spec d ih hne).inv
  | pop_front d _ hne ih => exact (pop_front_spec d ih hne).inv
  | insert_ok d d1 k val r _ hk he ih => exact (insert_inv E hA d ih k hk val).1 r d1 he
  | insert_threw d d1 k val e _ hk he ih => exact (insert_inv E hA d ih k hk val).2 e d1 he
  | erase_ok d d1 k r _ hk he ih => exact (erase_inv E d ih k hk).1 r d1 he
  | erase_threw d d1 k e _ hk he ih => exact (erase_inv E d ih k hk).2 e d1 he

theorem elems_length (d : Deque α) : d.elems.length = d.m_size := by
  simp [elems, size]

theorem elems_getElem? (d : Deque α) (i : Nat) (h : i < d.m_size) :
    d.elems[i]? = some (d.heap.read (d.subscript i)) := by
  simp [elems, size, h]

/-- The sequence `elems` spelt out index by index. -/
theorem elems_eq_iff (d : Deque α) (s : List α) :
    d.elems = s.map some ↔
      d.m_size = s.length ∧ ∀ i : Nat, i < d.m_size → d.heap.read (d.subscript i) = s[i]? := by
  constructor
  · intro h
    have hl : d.m_size = s.length := by
      have := congrArg List.length h
      simpa [elems_length] using this
    refine ⟨hl, ?_⟩
    intro i hi
    have h1 := congrArg (fun l => l[i]?) h
    simp only [elems_getElem? d i hi, List.getElem?_map] at h1
    rw [List.getElem?_eq_getElem (by omega)] at h1 ⊢
    simpa using h1
  · rintro ⟨hl, hr⟩
    apply List.ext_getElem?
    intro i
    by_cases hi : i < d.m_size
    · rw [elems_getElem? d i hi, hr i hi, List.getElem?_map]
      rw [List.getElem?_eq_getElem (by omega)]
      rfl
    · rw [List.getElem?_eq_none (by rw [elems_length]; omega),
        List.getElem?_eq_none (by rw [List.length_map]; omega)]

theorem Inv.read_subscript {d : Deque α} (hi : d.Inv) (i : Nat)
    (hb : i + chunk_size ≤ size_t_mod) :
    d.heap.read (d.subscript i) = d.heap.read (d.slot i) := by
  rw [subscript_eq_slot d hi i hb]

end Deque

theorem demo_empty_reachable (E : Env Nat) (hA : ∀ k, E.alloc_ok k = true) :
    Deque.Reachable E (demo_empty E) := by
  refine Deque.Reachable.ctor_default demo_heap _ ?_
  obtain ⟨d0, e0, _⟩ := Deque.BaseDeque_spec E hA demo_heap 0 (by decide)
  unfold demo_empty Deque.ctor_default
  rw [e0]; rfl

namespace Deque

/-- C2: for every reachable container with element sequence `s`, every value `v` whose
copy succeeds (allocations succeeding, the size fitting `size_t` with a chunk to spare),
`push_front(v)` returns, `size()` becomes `|s| + 1`, the element sequence read through
`operator[]` becomes `[v] ++ s` (so `operator[](i + 1)` is `s[i]` for `i < |s|`), and
`front()` is `v`; recentring or regrowing the handle array changes nothing of this. -/
theorem push_front_prepends (E : Env α) (hA : ∀ k, E.alloc_ok k = true) (d : Deque α)
    (hr : Reachable E d) (s : List α) (hs : d.elems = s.map some) (v : α)
    (hv : E.copy_ok v = true) (hfit : d.size + chunk_size ≤ size_t_mod) :
    ∃ d1, d.push_front E v = .ok d1 ∧ d1.size = s.length + 1 ∧
      d1.elems = ([v] ++ s).map some ∧
      (∀ i : Nat, i < s.length → d1.heap.read (d1.subscript (i + 1)) = s[i]?) ∧
      d1.heap.read d1.front = some v := by
  have hi := hr.inv hA
  obtain ⟨hl, hrd⟩ := (elems_eq_iff d s).1 hs
  obtain ⟨d1, e1, hp⟩ := push_front_spec E hA d hi v hv
  simp only [size, chunk_size_eq, size_t_mod_eq] at hfit
  have hsub : ∀ i : Nat, i < d.m_size → d1.heap.read (d1.subscript (i + 1)) = s[i]? := by
    intro i h
    rw [hp.inv.read_subscript (i + 1) (by simp only [chunk_size_eq, size_t_mod_eq]; omega)]
    have := hp.read i (by omega) (by omega)
    rw [show (((i + 1 : Nat)) : Int) = (i : Int) + 1 by push_cast; rfl, this, ← hrd i h,
      hi.read_subscript i (by simp only [chunk_size_eq, size_t_mod_eq]; omega)]
  have h0 : d1.heap.read (d1.subscript 0) = some v := by
    rw [hp.inv.read_subscript 0 (by decide)]
    exact hp.first
  refine ⟨d1, e1, by rw [size, hp.size, hl], ?_, ?_, ?_⟩
  · rw [elems_eq_iff]
    refine ⟨by rw [hp.size, hl]; simp, ?_⟩
    intro i h
    rw [hp.size] at h
    cases i with
    | zero => rw [h0]; simp
    | succ j =>
      rw [hsub j (by omega)]
      simp
  · intro i h
    exact hsub i (by omega)
  · unfold front
    rw [hp.inv.m_begin_eq]
    exact hp.first

end Deque

theorem push_front_prepends_witness :
    ∃ d1, (demo_one demo_env).push_front demo_env 5 = .ok d1 ∧ d1.size = [7].length + 1 ∧
      d1.elems = ([5] ++ [7]).map some ∧
      (∀ i : Nat, i < [7].length → d1.heap.read (d1.subscript (i + 1)) = [7][i]?) ∧
      d1.heap.read d1.front = some 5 :=
  Deque.push_front_prepends demo_env (fun _ => rfl) (demo_one demo_env)
    (Deque.Reachable.push_back_ok _ _ 7 (Deque.Reachable.ctor_default demo_heap _ rfl) rfl)
    [7] rfl 5 rfl (by decide)

theorem demo_fill_reachable (E : Env Nat) (hA : ∀ k, E.alloc_ok k = true)
    (hC : ∀ x, E.copy_ok x = true) :
    ∀ (n : Nat) (d : Deque Nat), Deque.Reachable E d → Deque.Reachable E (demo_fill E n d) := by
  intro n
  induction n with
  | zero => intro d h; exact h
  | succ n ih =>
    intro d h
    obtain ⟨d1, e1, _⟩ := Deque.push_back_spec E hA d (h.inv hA) n (hC n)
    unfold demo_fill
    rw [e1]
    exact ih d1 (Deque.Reachable.push_back_ok d d1 n h e1)

/-- C4: after `Deque<Nat>()` and one `push_back(7)` the container has size `1`, yet
`at(1)` returns a reference, to the raw slot after the element, instead of throwing
`std::out_of_range`. -/
theorem at_past_size_returns :
    Deque.Reachable demo_env (demo_one demo_env) ∧ (demo_one demo_env).size = 1 ∧
      (demo_one demo_env).at_ demo_env 1 = .ok ⟨Handle.blk 3, 1⟩ ∧
      (demo_one demo_env).heap.read ⟨Handle.blk 3, 1⟩ = none :=
  ⟨Deque.Reachable.push_back_ok _ _ 7 (Deque.Reachable.ctor_default demo_heap _ rfl) rfl,
    rfl, rfl, rfl⟩

set_option maxRecDepth 1000000

/-- C5: after `Deque<Nat>()` and 64 calls of `push_back`, with blocks placed at
increasing addresses, the container has size `64` and `operator[](63)` refers to a
constructed element, yet `at(63)` throws `std::out_of_range`. -/
theorem at_inside_size_throws :
    Deque.Reachable demo_env (demo_fill demo_env 64 (demo_empty demo_env)) ∧
      (demo_fill demo_env 64 (demo_empty demo_env)).size = 64 ∧
      (demo_fill demo_env 64 (demo_empty demo_env)).heap.read
        ((demo_fill demo_env 64 (demo_empty demo_env)).subscript 63) = some 0 ∧
      (demo_fill demo_env 64 (demo_empty demo_env)).at_ demo_env 63 = .error .out_of_range :=
  ⟨demo_fill_reachable demo_env (fun _ => rfl) (fun _ => rfl) 64 _
      (Deque.Reachable.ctor_default demo_heap _ rfl),
    rfl, rfl, rfl⟩

namespace Deque

theorem elems_congr (d d1 : Deque α) (hsz : d1.m_size = d.m_size)
    (h : ∀ i : Nat, i < d.m_size →
      d1.heap.read (d1.subscript i) = d.heap.read (d.subscript i)) :
    d1.elems = d.elems := by
  unfold elems size
  rw [hsz]
  apply List.map_congr_left
  intro i hi
  exact h i (List.mem_range.1 hi)

theorem Kept.elems {d d1 : Deque α} (hk : Kept d d1) (hi : d.Inv)
    (hfit : d.m_size + chunk_size ≤ size_t_mod) :
    d1.size = d.size ∧ d1.elems = d.elems ∧
      ∀ i : Nat, i < d.m_size → d1.subscript i = d.subscript i := by
  simp only [chunk_size_eq, size_t_mod_eq] at hfit
  refine ⟨hk.size, elems_congr d d1 hk.size ?_, ?_⟩
  · intro i h
    rw [hk.inv.read_subscript i (by simp only [chunk_size_eq, size_t_mod_eq]; omega),
      hi.read_subscript i (by simp only [chunk_size_eq, size_t_mod_eq]; omega)]
    exact hk.read i (by omega) (by omega)
  · intro i h
    rw [subscript_eq_slot d1 hk.inv i (by simp only [chunk_size_eq, size_t_mod_eq]; omega),
      subscript_eq_slot d hi i (by simp only [chunk_size_eq, size_t_mod_eq]; omega)]
    exact hk.slot i (by omega) (by omega)

/-- C6: for every reachable container and each of `push_back`, `push_front`,
`pop_back`, `pop_front` (allocations and the copy succeeding, the size fitting `size_t`
with a chunk to spare), every element present before and after the operation is
referred to by the same pointer, block and offset, and holds the same value: the
element at index `i` stays index `i` under the back operations and moves between
index `i` and `i + 1` under the front ones; this also holds when the handle array is
recentred or regrown. -/
theorem end_ops_keep_slots (E : Env α) (hA : ∀ k, E.alloc_ok k = true) (d : Deque α)
    (hr : Reachable E d) (v : α) (hv : E.copy_ok v = true)
    (hfit : d.size + chunk_size ≤ size_t_mod) :
    (∃ d1, d.push_back E v = .ok d1 ∧ ∀ i : Nat, i < d.size →
      d1.subscript i = d.subscript i ∧
      d1.heap.read (d1.subscript i) = d.heap.read (d.subscript i)) ∧
    (∃ d1, d.push_front E v = .ok d1 ∧ ∀ i : Nat, i < d.size →
      d1.subscript (i + 1) = d.subscript i ∧
      d1.heap.read (d1.subscript (i + 1)) = d.heap.read (d.subscript i)) ∧
    (∀ i : Nat, i + 1 < d.size →
      d.pop_back.subscript i = d.subscript i ∧
      d.pop_back.heap.read (d.pop_back.subscript i) = d.heap.read (d.subscript i)) ∧
    (∀ i : Nat, i + 1 < d.size →
      d.pop_front.subscript i = d.subscript (i + 1) ∧
      d.pop_front.heap.read (d.pop_front.subscript i) = d.heap.read (d.subscript (i + 1))) := by
  have hi := hr.inv hA
  simp only [size] at hfit ⊢
  have hfit' := hfit
  simp only [chunk_size_eq, size_t_mod_eq] at hfit'
  have hb : ∀ i : Nat, i ≤ d.m_size → i + chunk_size ≤ size_t_mod := by
    intro i h; simp only [chunk_size_eq, size_t_mod_eq]; omega
  refine ⟨?_, ?_, ?_, ?_⟩
  · obtain ⟨d1, e1, hp⟩ := push_back_spec E hA d hi v hv
    refine ⟨d1, e1, ?_⟩
    intro i h
    rw [subscript_eq_slot d1 hp.inv i (hb i (by omega)),
      subscript_eq_slot d hi i (hb i (by omega))]
    exact ⟨hp.slot i (by omega) (by omega), hp.read i (by omega) (by omega)⟩
  · obtain ⟨d1, e1, hp⟩ := push_front_spec E hA d hi v hv
    refine ⟨d1, e1, ?_⟩
    intro i h
    rw [subscript_eq_slot d1 hp.inv (i + 1) (hb (i + 1) (by omega)),
      subscript_eq_slot d hi i (hb i (by omega))]
    have e : (((i + 1 : Nat)) : Int) = (i : Int) + 1 := by push_cast; rfl
    rw [e]
    exact ⟨hp.slot i (by omega) (by omega), hp.read i (by omega) (by omega)⟩
  · intro i h
    have hp := pop_back_spec d hi (by omega)
    have := hp.size
    rw [subscript_eq_slot _ hp.inv i (hb i (by omega)),
      subscript_eq_slot d hi i (hb i (by omega))]
    exact ⟨hp.slot i, hp.read i (by omega) (by omega)⟩
  · intro i h
    have hp := pop_front_spec d hi (by omega)
    have := hp.size
    rw [subscript_eq_slot _ hp.inv i (hb i (by omega)),
      subscript_eq_slot d hi (i + 1) (hb (i + 1) (by omega))]
    have e : (((i + 1 : Nat)) : Int) = (i : Int) + 1 := by push_cast; rfl
    rw [e]
    exact ⟨hp.slot i (by omega), hp.read i (by omega) (by omega)⟩

/-- C7: for every reachable container (allocations succeeding, the size fitting
`size_t` with a chunk to spare) and every value `v` whose copy throws, each of
`push_back(v)`, `push_front(v)`, `insert(begin(), v)` and `insert(end(), v)` throws the
exception of the element type and leaves a container with the same `size()` and the
same element sequence; for `insert` the argument may be any reference that reads `v`,
an element of the container included. -/
theorem failed_copy_keeps (E : Env α) (hA : ∀ k, E.alloc_ok k = true) (d : Deque α)
    (hr : Reachable E d) (v : α) (hv : E.copy_ok v = false)
    (hfit : d.size + chunk_size ≤ size_t_mod) :
    (∃ d1, d.push_back E v = .threw .elem_throw d1 ∧ d1.size = d.size ∧ d1.elems = d.elems) ∧
    (∃ d1, d.push_front E v = .threw .elem_throw d1 ∧ d1.size = d.size ∧
      d1.elems = d.elems) ∧
    (∀ val : Ref α, d.heap.deref val = some v →
      ∃ d1, d.insert E d.begin val = .threw .elem_throw d1 ∧ d1.size = d.size ∧
        d1.elems = d.elems) ∧
    (∀ val : Ref α, d.heap.deref val = some v →
      ∃ d1, d.insert E d.end_ val = .threw .elem_throw d1 ∧ d1.size = d.size ∧
        d1.elems = d.elems) := by
  have hi := hr.inv hA
  simp only [size] at hfit
  obtain ⟨db, eb, hkb⟩ := push_back_throw E hA d hi v hv
  obtain ⟨df, ef, hkf⟩ := push_front_throw E hA d hi v hv
  have kb := (hkb.kept hi).elems hi hfit
  have kf := hkf.elems hi hfit
  have hbb : d.begin.eq d.begin = true := by simp [BaseIterator.eq]
  refine ⟨⟨db, eb, kb.1, kb.2.1⟩, ⟨df, ef, kf.1, kf.2.1⟩, ?_, ?_⟩
  · intro val hval
    refine ⟨df, ?_, kf.1, kf.2.1⟩
    unfold insert
    rw [if_pos hbb]
    simp only [hval]
    rw [ef]
  · intro val hval
    by_cases hz : d.m_size = 0
    · have he : d.end_.eq d.begin = true := by
        unfold BaseIterator.eq
        rw [hi.end_eq, hi.begin_eq, hz]; simp
      refine ⟨df, ?_, kf.1, kf.2.1⟩
      unfold insert
      rw [if_pos he]
      simp only [hval]
      rw [ef]
    · have he : ¬ d.end_.eq d.begin = true := by
        unfold BaseIterator.eq
        rw [hi.end_eq, hi.begin_eq]
        simp only [decide_eq_true_eq]
        intro h
        have := (hi.iter_eq_iff d.m_size 0 (by omega) (le_refl _) (le_refl _) (by omega)).1 h
        omega
      have hee : d.end_.eq d.end_ = true := by simp [BaseIterator.eq]
      refine ⟨db, ?_, kb.1, kb.2.1⟩
      unfold insert
      rw [if_neg he, if_pos hee]
      simp only [hval]
      rw [eb]

end Deque

theorem getElem?_insert_at (s : List α) (k : Nat) (v : α) (hk : k ≤ s.length) (i : Nat) :
    (s.take k ++ [v] ++ s.drop k)[i]? =
      if i < k then s[i]? else if i = k then some v else s[i - 1]? := by
  have hl : (s.take k).length = k := by simp [hk]
  rw [List.append_assoc, List.getElem?_append, hl]
  by_cases h1 : i < k
  · rw [if_pos h1, if_pos h1, List.getElem?_take, if_pos h1]
  · rw [if_neg h1, if_neg h1]
    by_cases h2 : i = k
    · rw [if_pos h2, h2]; simp
    · rw [if_neg h2]
      obtain ⟨m, hm⟩ : ∃ m, i - k = m + 1 := ⟨i - k - 1, by omega⟩
      rw [hm]
      simp only [List.singleton_append, List.getElem?_cons_succ, List.getElem?_drop]
      congr 1; omega

namespace Deque

/-- For every reachable container with element sequence `s`, every `k ≤ |s|` and every
argument that reads `v` and is an object outside the heap or one of the elements at
the indices up to `k` (allocations, copies and assignments succeeding, the size fitting
`size_t` with a chunk to spare), `insert(begin() + k, v)` returns, the element
sequence becomes `s[0..k) ++ [v] ++ s[k..)`, `size()` becomes `|s| + 1`, and the
iterator `r` returned satisfies `r - begin() == k` and `*r == v`. -/
theorem insert_places_apart (E : Env α) (hA : ∀ k, E.alloc_ok k = true)
    (hC : ∀ x, E.copy_ok x = true) (hAs : ∀ x, E.assign_ok x = true) (d : Deque α)
    (hr : Reachable E d) (s : List α) (hs : d.elems = s.map some) (k : Nat)
    (hk : k ≤ s.length) (val : Ref α) (v : α) (hval : d.heap.deref val = some v)
    (hnear : ∀ p, val = .slot p → ∃ j : Nat, j ≤ k ∧ j < d.size ∧ p = d.subscript j)
    (hfit : d.size + chunk_size ≤ size_t_mod) :
    ∃ r d1, d.insert E (d.begin.plus d.arr.slots k) val = .ok (r, d1) ∧
      d1.elems = (s.take k ++ [v] ++ s.drop k).map some ∧ d1.size = s.length + 1 ∧
      BaseIterator.distance d1.arr.slots r d1.begin = k ∧ d1.heap.read r.item = some v := by
  have hi := hr.inv hA
  obtain ⟨hl, hrd⟩ := (elems_eq_iff d s).1 hs
  simp only [size, chunk_size_eq, size_t_mod_eq] at hfit hnear
  have hb : ∀ i : Nat, i ≤ d.m_size → i + chunk_size ≤ size_t_mod := by
    intro i h; simp only [chunk_size_eq, size_t_mod_eq]; omega
  have hnear' : ∀ p, val = .slot p → ∃ j : Int, 0 ≤ j ∧ j ≤ k ∧ p = d.slot j := by
    intro p hp
    obtain ⟨j, hj0, hj1, hpj⟩ := hnear p hp
    exact ⟨j, by omega, by omega, by rw [hpj, subscript_eq_slot d hi j (hb j (by omega))]⟩
  have hown : ∀ p, val = .slot p → ∃ b, p.base = .blk b ∧ b < d.heap.next := by
    intro p hp
    obtain ⟨j, hj0, hj1, hpj⟩ := hnear p hp
    rw [hpj, subscript_eq_slot d hi j (hb j (by omega))]
    exact hi.slot_blk' j (by omega) (by omega)
  obtain ⟨r, d1, w, e1, hp, hw⟩ := insert_spec E hA hC hAs d hi k (by omega) val v hval hown
  have hwv := hw hnear'
  rw [hwv] at hp
  refine ⟨r, d1, e1, ?_, by rw [size, hp.size, hl], hp.ret_pos, by rw [hp.ret_item]; exact hp.at_k⟩
  rw [elems_eq_iff]
  refine ⟨by rw [hp.size, hl]; simp; omega, ?_⟩
  intro i h
  rw [hp.size] at h
  rw [hp.inv.read_subscript i (hb i (by omega)), getElem?_insert_at s k v hk i]
  by_cases h1 : i < k
  · rw [if_pos h1, hp.before i (by omega) (by omega), ← hrd i (by omega),
      hi.read_subscript i (hb i (by omega))]
  · rw [if_neg h1]
    by_cases h2 : i = k
    · rw [if_pos h2, h2]; exact hp.at_k
    · rw [if_neg h2]
      have := hp.after ((i : Int) - 1) (by omega) (by omega)
      rw [show (i : Int) - 1 + 1 = (i : Int) by omega] at this
      rw [this, ← hrd (i - 1) (by omega), hi.read_subscript (i - 1) (hb (i - 1) (by omega)),
        show (((i - 1 : Nat)) : Int) = (i : Int) - 1 by omega]

/-- C9: for every reachable container with element sequence `s` and every `k < |s|`
(allocations and assignments succeeding, the size fitting `size_t` with a chunk to
spare), `erase(begin() + k)` returns, the element sequence becomes `s` without its
`k`-th element, `size()` becomes `|s| - 1`, and the iterator `r` returned satisfies
`r - begin() == k`, so that `r == end()` when the last element was erased. -/
theorem erase_removes (E : Env α) (hA : ∀ k, E.alloc_ok k = true)
    (hAs : ∀ x, E.assign_ok x = true) (d : Deque α)
    (hr : Reachable E d) (s : List α) (hs : d.elems = s.map some) (k : Nat)
    (hk : k < s.length) (hfit : d.size + chunk_size ≤ size_t_mod) :
    ∃ r d1, d.erase E (d.begin.plus d.arr.slots k) = .ok (r, d1) ∧
      d1.elems = (s.eraseIdx k).map some ∧ d1.size = s.length - 1 ∧
      BaseIterator.distance d1.arr.slots r d1.begin = k ∧
      (k + 1 = s.length → r.eq d1.end_ = true) := by
  have hi := hr.inv hA
  obtain ⟨hl, hrd⟩ := (elems_eq_iff d s).1 hs
  obtain ⟨r, d1, e1, hp⟩ := erase_spec E hAs d hi k (by omega)
  simp only [size, chunk_size_eq, size_t_mod_eq] at hfit
  have hsz := hp.size
  have hb : ∀ i : Nat, i ≤ d.m_size → i + chunk_size ≤ size_t_mod := by
    intro i h; simp only [chunk_size_eq, size_t_mod_eq]; omega
  refine ⟨r, d1, e1, ?_, by rw [size]; omega, hp.ret_pos, ?_⟩
  · rw [elems_eq_iff]
    refine ⟨by rw [List.length_eraseIdx, if_pos hk]; omega, ?_⟩
    intro i h
    rw [hp.inv.read_subscript i (hb i (by omega)), List.getElem?_eraseIdx]
    by_cases h1 : i < k
    · rw [if_pos h1, hp.before i (by omega) (by omega), ← hrd i (by omega),
        hi.read_subscript i (hb i (by omega))]
    · rw [if_neg h1, hp.after i (by omega) (by omega), ← hrd (i + 1) (by omega),
        hi.read_subscript (i + 1) (hb (i + 1) (by omega))]
      rfl
  · intro hlast
    unfold BaseIterator.eq
    rw [hp.ret_item, hp.inv.end_eq, iter_at_item,
      show (k : Int) = (d1.m_size : Int) by omega]
    simp

/-- C10: for every reachable container, every `k ≤ size()` and every value `v`
(allocations, copies and assignments succeeding, the size fitting `size_t` with a chunk
to spare), `insert(begin() + k, v)` followed by `erase(begin() + k)` both return and
leave `size()` and the multiset of element values, indeed the element sequence, as
they were before the insert.  The argument may be any reference to a constructed
object that reads `v`: an object outside the heap, or a slot of an allocated block,
an element of the container itself included. -/
theorem insert_erase_round_trip (E : Env α) (hA : ∀ k, E.alloc_ok k = true)
    (hC : ∀ x, E.copy_ok x = true) (hAs : ∀ x, E.assign_ok x = true) (d : Deque α)
    (hr : Reachable E d) (k : Nat) (hk : k ≤ d.size) (val : Ref α) (v : α)
    (hval : d.heap.deref val = some v)
    (hown : ∀ p, val = .slot p → ∃ b, p.base = .blk b ∧ b < d.heap.next)
    (hfit : d.size + chunk_size ≤ size_t_mod) :
    ∃ r d1 r2 d2, d.insert E (d.begin.plus d.arr.slots k) val = .ok (r, d1) ∧
      d1.erase E (d1.begin.plus d1.arr.slots k) = .ok (r2, d2) ∧
      d2.size = d.size ∧ (d2.elems : Multiset (Option α)) = (d.elems : Multiset (Option α)) ∧
      d2.elems = d.elems := by
  have hi := hr.inv hA
  simp only [size] at hk hfit
  obtain ⟨r, d1, w, e1, hp, _⟩ := insert_spec E hA hC hAs d hi k hk val v hval hown
  have hs1 := hp.size
  obtain ⟨r2, d2, e2, hq⟩ := erase_spec E hAs d1 hp.inv k (by omega)
  have hs2 := hq.size
  have hfit' := hfit
  simp only [chunk_size_eq, size_t_mod_eq] at hfit'
  have hb : ∀ i : Nat, i ≤ d.m_size → i + chunk_size ≤ size_t_mod := by
    intro i h; simp only [chunk_size_eq, size_t_mod_eq]; omega
  have hel : d2.elems = d.elems := by
    refine elems_congr d d2 (by omega) ?_
    intro i h
    rw [hq.inv.read_subscript i (hb i (by omega)), hi.read_subscript i (hb i (by omega))]
    by_cases h1 : i < k
    · rw [hq.before i (by omega) (by omega), hp.before i (by omega) (by omega)]
    · rw [hq.after i (by omega) (by omega), hp.after i (by omega) (by omega)]
  exact ⟨r, d1, r2, d2, e1, e2, by rw [size, size]; omega, by rw [hel], hel⟩

end Deque

theorem demo_one_reachable (E : Env Nat) (h1 : Deque.ctor_default E demo_heap = .ok (demo_empty E))
    (h2 : (demo_empty E).push_back E 7 = .ok (demo_one E)) :
    Deque.Reachable E (demo_one E) :=
  Deque.Reachable.push_back_ok _ _ 7 (Deque.Reachable.ctor_default demo_heap _ h1) h2

theorem end_ops_keep_slots_witness :
    demo_full.size = 64 ∧ demo_full.arr.cur_end = demo_full.arr.end_ ∧
    (∃ d1, demo_full.push_back demo_env 5 = .ok d1 ∧
      ∀ i : Nat, i < demo_full.size →
        d1.subscript i = demo_full.subscript i ∧
        d1.heap.read (d1.subscript i) = demo_full.heap.read (demo_full.subscript i)) ∧
    (∃ d1, demo_full.push_front demo_env 5 = .ok d1 ∧
      ∀ i : Nat, i < demo_full.size →
        d1.subscript (i + 1) = demo_full.subscript i ∧
        d1.heap.read (d1.subscript (i + 1)) = demo_full.heap.read (demo_full.subscript i)) ∧
    (∀ i : Nat, i + 1 < demo_full.size →
      demo_full.pop_back.subscript i = demo_full.subscript i ∧
      demo_full.pop_back.heap.read (demo_full.pop_back.subscript i)
        = demo_full.heap.read (demo_full.subscript i)) ∧
    (∀ i : Nat, i + 1 < demo_full.size →
      demo_full.pop_front.subscript i = demo_full.subscript (i + 1) ∧
      demo_full.pop_front.heap.read (demo_full.pop_front.subscript i)
        = demo_full.heap.read (demo_full.subscript (i + 1))) :=
  ⟨by decide, by decide,
    Deque.end_ops_keep_slots demo_env (fun _ => rfl) demo_full
      (demo_fill_reachable demo_env (fun _ => rfl) (fun _ => rfl) 64 _
        (Deque.Reachable.ctor_default demo_heap _ rfl)) 5 rfl (by decide)⟩

theorem failed_copy_keeps_witness :
    (∃ d1, (demo_one fragile_env).push_back fragile_env 100 = .threw .elem_throw d1 ∧
      d1.size = (demo_one fragile_env).size ∧ d1.elems = (demo_one fragile_env).elems) ∧
    (∃ d1, (demo_one fragile_env).push_front fragile_env 100 = .threw .elem_throw d1 ∧
      d1.size = (demo_one fragile_env).size ∧ d1.elems = (demo_one fragile_env).elems) ∧
    (∃ d1, (demo_one fragile_env).insert fragile_env (demo_one fragile_env).begin (.obj 100)
        = .threw .elem_throw d1 ∧
      d1.size = (demo_one fragile_env).size ∧ d1.elems = (demo_one fragile_env).elems) ∧
    (∃ d1, (demo_one fragile_env).insert fragile_env (demo_one fragile_env).end_ (.obj 100)
        = .threw .elem_throw d1 ∧
      d1.size = (demo_one fragile_env).size ∧ d1.elems = (demo_one fragile_env).elems) :=
  have h := Deque.failed_copy_keeps fragile_env (fun _ => rfl) (demo_one fragile_env)
    (demo_one_reachable fragile_env rfl rfl) 100 rfl (by decide)
  ⟨h.1, h.2.1, h.2.2.1 (.obj 100) rfl, h.2.2.2 (.obj 100) rfl⟩

theorem erase_removes_witness :
    ∃ r d1, (demo_fill demo_env 3 (demo_empty demo_env)).erase demo_env
        ((demo_fill demo_env 3 (demo_empty demo_env)).begin.plus
          (demo_fill demo_env 3 (demo_empty demo_env)).arr.slots (1 : Nat)) = .ok (r, d1) ∧
      d1.elems = ([2, 1, 0].eraseIdx 1).map some ∧ d1.size = [2, 1, 0].length - 1 ∧
      BaseIterator.distance d1.arr.slots r d1.begin = (1 : Nat) ∧
      (1 + 1 = [2, 1, 0].length → r.eq d1.end_ = true) :=
  Deque.erase_removes demo_env (fun _ => rfl) (fun _ => rfl)
    (demo_fill demo_env 3 (demo_empty demo_env))
    (demo_fill_reachable demo_env (fun _ => rfl) (fun _ => rfl) 3 _
      (Deque.Reachable.ctor_default demo_heap _ rfl))
    [2, 1, 0] rfl 1 (by decide) (by decide)

theorem insert_erase_round_trip_witness :
    ∃ r d1 r2 d2, (demo_fill demo_env 3 (demo_empty demo_env)).insert demo_env
        ((demo_fill demo_env 3 (demo_empty demo_env)).begin.plus
          (demo_fill demo_env 3 (demo_empty demo_env)).arr.slots (1 : Nat))
        (.slot (demo_fill demo_env 3 (demo_empty demo_env)).back) = .ok (r, d1) ∧
      d1.erase demo_env (d1.begin.plus d1.arr.slots (1 : Nat)) = .ok (r2, d2) ∧
      d2.size = (demo_fill demo_env 3 (demo_empty demo_env)).size ∧
      (d2.elems : Multiset (Option Nat))
        = ((demo_fill demo_env 3 (demo_empty demo_env)).elems : Multiset (Option Nat)) ∧
      d2.elems = (demo_fill demo_env 3 (demo_empty demo_env)).elems :=
  Deque.insert_erase_round_trip demo_env (fun _ => rfl) (fun _ => rfl) (fun _ => rfl)
    (demo_fill demo_env 3 (demo_empty demo_env))
    (demo_fill_reachable demo_env (fun _ => rfl) (fun _ => rfl) 3 _
      (Deque.Reachable.ctor_default demo_heap _ rfl))
    1 (by decide) (.slot (demo_fill demo_env 3 (demo_empty demo_env)).back) 0 rfl
    (fun p h => (by cases h; exact ⟨3, rfl, by decide⟩)) (by decide)

namespace Deque

theorem Inv.iter_lt_iff {d : Deque α} (hi : d.Inv) (E : Env α) (j k : Int) :
    (d.iter_at j).lt E (d.iter_at k) = true ↔ j < k := by
  have := hi.mb_off
  unfold BaseIterator.lt iter_at
  simp only []
  by_cases hc : d.arr.cur_begin + (d.m_begin.off + j) / 32
      = d.arr.cur_begin + (d.m_begin.off + k) / 32
  · rw [if_pos hc]
    unfold Ptr.lt Ptr.address
    simp only [slot_base, slot_off, hc, decide_eq_true_eq]
    cases d.arr.slots (d.arr.cur_begin + (d.m_begin.off + k) / 32) <;>
      simp only [] <;> omega
  · rw [if_neg hc]
    simp only [decide_eq_true_eq]
    omega

/-- C11: for every reachable container (allocations succeeding), the iterator
`it = begin() + p` at a position `0 ≤ p ≤ size()` and every signed `k` with
`0 ≤ p + k ≤ size()`: the distance `(it + k) - it` is `k`, and `(it + k) - k` is `it`
again, member for member. -/
theorem iter_plus_minus (E : Env α) (hA : ∀ k, E.alloc_ok k = true) (d : Deque α)
    (hr : Reachable E d) (p : Nat) (hp : p ≤ d.size) (k : Int) (h0 : 0 ≤ (p : Int) + k)
    (h1 : (p : Int) + k ≤ d.size) :
    BaseIterator.distance d.arr.slots ((d.begin.plus d.arr.slots p).plus d.arr.slots k)
        (d.begin.plus d.arr.slots p) = k ∧
      ((d.begin.plus d.arr.slots p).plus d.arr.slots k).minus d.arr.slots k
        = d.begin.plus d.arr.slots p := by
  have hi := hr.inv hA
  simp only [size] at hp h1
  rw [hi.begin_plus p (by omega) (by omega),
    hi.iter_plus p k (by omega) (by omega) h0 h1, iter_distance]
  refine ⟨by omega, ?_⟩
  unfold BaseIterator.minus
  rw [hi.iter_plus ((p : Int) + k) (-k) h0 h1 (by omega) (by omega)]
  congr 1
  omega

/-- C12: for every reachable container (allocations succeeding), empty ones included,
`end() - begin()` is `size()`, `begin() + size()` is `end()` and `end() - size()` is
`begin()`. -/
theorem begin_end_size (E : Env α) (hA : ∀ k, E.alloc_ok k = true) (d : Deque α)
    (hr : Reachable E d) :
    BaseIterator.distance d.arr.slots d.end_ d.begin = d.size ∧
      d.begin.plus d.arr.slots d.size = d.end_ ∧
      d.end_.minus d.arr.slots d.size = d.begin := by
  have hi := hr.inv hA
  simp only [size]
  refine ⟨?_, ?_, ?_⟩
  · rw [hi.end_eq, hi.begin_eq, iter_distance]; omega
  · rw [hi.begin_plus d.m_size (by omega) (le_refl _), hi.end_eq]
  · unfold BaseIterator.minus
    rw [hi.end_eq, hi.iter_plus d.m_size (-(d.m_size : Int)) (by omega) (le_refl _)
      (by omega) (by omega), hi.begin_eq]
    congr 1
    omega

theorem pop_back_freed (d : Deque α) : d.pop_back.heap.freed = d.heap.freed := by
  unfold pop_back Heap.destroy
  simp only []
  split_ifs <;> split <;> rfl

theorem pop_front_freed (d : Deque α) : d.pop_front.heap.freed = d.heap.freed := by
  unfold pop_front Heap.destroy
  simp only []
  split_ifs <;> split <;> rfl

/-- C17: for every reachable non-empty container (allocations succeeding), `pop_back()`
and `pop_front()` call no `delete[]`, leave every entry of the handle array, the array
itself and its bounds `begin`, `end` as they were, and move only `cur_end` and `m_end`
(`pop_back`) or `cur_begin` and `m_begin` (`pop_front`); an iterator `begin() + j`
taken before the pop at an element that survives it still points to a constructed
element with the value it had. -/
theorem pops_keep_array (E : Env α) (hA : ∀ k, E.alloc_ok k = true) (d : Deque α)
    (hr : Reachable E d) (hne : d.size ≠ 0) :
    (d.pop_back.heap.freed = d.heap.freed ∧ d.pop_back.arr.slots = d.arr.slots ∧
      d.pop_back.arr.store = d.arr.store ∧ d.pop_back.arr.end_ = d.arr.end_ ∧
      d.pop_back.arr.cur_begin = d.arr.cur_begin ∧ d.pop_back.m_begin = d.m_begin ∧
      ∀ j : Nat, j + 1 < d.size → ∃ x,
        d.heap.read (d.begin.plus d.arr.slots j).item = some x ∧
        d.pop_back.heap.read (d.begin.plus d.arr.slots j).item = some x) ∧
    (d.pop_front.heap.freed = d.heap.freed ∧ d.pop_front.arr.slots = d.arr.slots ∧
      d.pop_front.arr.store = d.arr.store ∧ d.pop_front.arr.end_ = d.arr.end_ ∧
      d.pop_front.arr.cur_end = d.arr.cur_end ∧ d.pop_front.m_end = d.m_end ∧
      ∀ j : Nat, 0 < j → j < d.size → ∃ x,
        d.heap.read (d.begin.plus d.arr.slots j).item = some x ∧
        d.pop_front.heap.read (d.begin.plus d.arr.slots j).item = some x) := by
  have hi := hr.inv hA
  simp only [size] at hne ⊢
  have hb := pop_back_spec d hi hne
  have hf := pop_front_spec d hi hne
  have hbs := hb.size
  have hfs := hf.size
  refine ⟨⟨pop_back_freed d, hb.arr.1, hb.arr.2.2.1, hb.arr.2.1, hb.arr.2.2.2, hb.m_begin, ?_⟩,
    ⟨pop_front_freed d, hf.arr.1, hf.arr.2.2.1, hf.arr.2.1, hf.arr.2.2.2, hf.m_end, ?_⟩⟩
  · intro j hj
    obtain ⟨x, hx⟩ := hi.live j (by omega)
    refine ⟨x, ?_, ?_⟩
    · rw [hi.begin_plus j (by omega) (by omega), iter_at_item]; exact hx
    · rw [hi.begin_plus j (by omega) (by omega), iter_at_item, ← hb.slot j,
        hb.read j (by omega) (by omega)]
      exact hx
  · intro j hj0 hj
    obtain ⟨x, hx⟩ := hi.live j (by omega)
    refine ⟨x, ?_, ?_⟩
    · rw [hi.begin_plus j (by omega) (by omega), iter_at_item]; exact hx
    · rw [hi.begin_plus j (by omega) (by omega), iter_at_item]
      have h1 := hf.read ((j : Int) - 1) (by omega) (by omega)
      rw [hf.slot ((j : Int) - 1) (by omega)] at h1
      simp only [sub_add_cancel] at h1
      rw [h1]
      exact hx

end Deque

theorem demo_three_reachable : Deque.Reachable demo_env demo_three :=
  demo_fill_reachable demo_env (fun _ => rfl) (fun _ => rfl) 3 _
    (Deque.Reachable.ctor_default demo_heap _ rfl)

theorem iter_plus_minus_witness :
    BaseIterator.distance demo_three.arr.slots
        ((demo_three.begin.plus demo_three.arr.slots (2 : Nat)).plus demo_three.arr.slots (-2))
        (demo_three.begin.plus demo_three.arr.slots (2 : Nat)) = -2 ∧
      ((demo_three.begin.plus demo_three.arr.slots (2 : Nat)).plus demo_three.arr.slots
          (-2)).minus demo_three.arr.slots (-2)
        = demo_three.begin.plus demo_three.arr.slots (2 : Nat) :=
  Deque.iter_plus_minus demo_env (fun _ => rfl) demo_three demo_three_reachable 2
    (by decide) (-2) (by decide) (by decide)

theorem begin_end_size_witness :
    BaseIterator.distance demo_three.arr.slots demo_three.end_ demo_three.begin
        = demo_three.size ∧
      demo_three.begin.plus demo_three.arr.slots demo_three.size = demo_three.end_ ∧
      demo_three.end_.minus demo_three.arr.slots demo_three.size = demo_three.begin :=
  Deque.begin_end_size demo_env (fun _ => rfl) demo_three demo_three_reachable

theorem pops_keep_array_witness :
    (demo_three.pop_back.heap.freed = demo_three.heap.freed ∧
      demo_three.pop_back.arr.slots = demo_three.arr.slots ∧
      demo_three.pop_back.arr.store = demo_three.arr.store ∧
      demo_three.pop_back.arr.end_ = demo_three.arr.end_ ∧
      demo_three.pop_back.arr.cur_begin = demo_three.arr.cur_begin ∧
      demo_three.pop_back.m_begin = demo_three.m_begin ∧
      ∀ j : Nat, j + 1 < demo_three.size → ∃ x,
        demo_three.heap.read (demo_three.begin.plus demo_three.arr.slots j).item = some x ∧
        demo_three.pop_back.heap.read
          (demo_three.begin.plus demo_three.arr.slots j).item = some x) ∧
    (demo_three.pop_front.heap.freed = demo_three.heap.freed ∧
      demo_three.pop_front.arr.slots = demo_three.arr.slots ∧
      demo_three.pop_front.arr.store = demo_three.arr.store ∧
      demo_three.pop_front.arr.end_ = demo_three.arr.end_ ∧
      demo_three.pop_front.arr.cur_end = demo_three.arr.cur_end ∧
      demo_three.pop_front.m_end = demo_three.m_end ∧
      ∀ j : Nat, 0 < j → j < demo_three.size → ∃ x,
        demo_three.heap.read (demo_three.begin.plus demo_three.arr.slots j).item = some x ∧
        demo_three.pop_front.heap.read
          (demo_three.begin.plus demo_three.arr.slots j).item = some x) :=
  Deque.pops_keep_array demo_env (fun _ => rfl) demo_three demo_three_reachable (by decide)

namespace Deque

/-- The loop of `std::uninitialized_fill` returns when the copies succeed. -/
theorem fill_loop_total (E : Env α) (d : Deque α) (hs : d.Shape) (val : α)
    (hv : E.copy_ok val = true) :
    ∀ (fuel : Nat) (i : Int) (H : Heap α), 0 ≤ i → i ≤ d.m_size → d.m_size - i < fuel →
      ∃ H1, fill_loop E d.arr.slots (d.iter_at d.m_size) val fuel (d.iter_at i) H = .ok H1 := by
  intro fuel
  induction fuel with
  | zero => intro i H h0 h1 h2; omega
  | succ n ih =>
    intro i H h0 h1 h2
    unfold fill_loop
    simp only [iter_at_item]
    by_cases hin : i = d.m_size
    · rw [if_neg (by rw [hin]; simp)]
      exact ⟨H, rfl⟩
    · have hne : d.slot i ≠ d.slot d.m_size := fun e =>
        hin (hs.shape_slot_inj val i d.m_size h0 h1 (by omega) (le_refl _) e)
      rw [if_pos hne]
      simp only [Heap.construct, hv, if_true]
      rw [hs.shape_iter_inc val i h0 (by omega)]
      exact ih (i + 1) _ (by omega) (by omega) (by omega)

/-- The loop of `Deque(size_t)`: it returns when every `T()` completes, and it stops
at the first `T()` that throws, with the elements before it constructed. -/
theorem default_loop_run (E : Env α) (d : Deque α) (hs : d.Shape) :
    ∀ (fuel k : Nat) (i : Int) (H : Heap α), 0 ≤ i → i ≤ d.m_size → d.m_size - i < fuel →
      ((∀ t : Nat, i + t < d.m_size → E.dflt_ok (k + t) = true) →
        ∃ H1, default_loop E d.arr.slots (d.iter_at d.m_size) fuel k (d.iter_at i) H = .ok H1) ∧
      (∀ m : Nat, i + m < d.m_size → (∀ t : Nat, t < m → E.dflt_ok (k + t) = true) →
        E.dflt_ok (k + m) = false →
        ∃ H1, default_loop E d.arr.slots (d.iter_at d.m_size) fuel k (d.iter_at i) H
            = .threw .elem_throw (d.iter_at (i + m), H1) ∧
          H1.next = H.next ∧ H1.destroyed = H.destroyed ∧ H1.freed = H.freed ∧
          H1.cap = H.cap ∧
          (∀ j : Int, i ≤ j → j < i + m → H1.read (d.slot j) = some E.dflt) ∧
          (∀ p, (∀ j : Int, i ≤ j → j < i + m → p ≠ d.slot j) → H1.read p = H.read p)) := by
  intro fuel
  induction fuel with
  | zero => intro k i H h0 h1 h2; omega
  | succ n ih =>
    intro k i H h0 h1 h2
    constructor
    · intro hok
      unfold default_loop
      simp only [iter_at_item]
      by_cases hin : i = d.m_size
      · rw [if_neg (by rw [hin]; simp)]
        exact ⟨H, rfl⟩
      · have hne : d.slot i ≠ d.slot d.m_size := fun e =>
          hin (hs.shape_slot_inj E.dflt i d.m_size h0 h1 (by omega) (le_refl _) e)
        rw [if_pos hne]
        have h00 := hok 0 (by simp only [Nat.cast_zero, add_zero]; omega)
        simp only [add_zero] at h00
        simp only [h00, if_true]
        rw [hs.shape_iter_inc E.dflt i h0 (by omega)]
        refine (ih (k + 1) (i + 1) _ (by omega) (by omega) (by omega)).1 ?_
        intro t ht
        have := hok (t + 1) (by push_cast; omega)
        rw [← this]; congr 1; omega
    · intro m hm hok hbad
      have hin : i ≠ d.m_size := by omega
      have hne : d.slot i ≠ d.slot d.m_size := fun e =>
        hin (hs.shape_slot_inj E.dflt i d.m_size h0 h1 (by omega) (le_refl _) e)
      unfold default_loop
      simp only [iter_at_item]
      rw [if_pos hne]
      rcases Nat.eq_zero_or_pos m with hm0 | hmpos
      · subst hm0
        simp only [add_zero] at hbad
        simp only [hbad, Bool.false_eq_true, if_false, Nat.cast_zero, add_zero]
        exact ⟨H, rfl, rfl, rfl, rfl, rfl, fun j a b => by omega, fun _ _ => rfl⟩
      · have h00 := hok 0 hmpos
        simp only [add_zero] at h00
        simp only [h00, if_true]
        rw [hs.shape_iter_inc E.dflt i h0 (by omega)]
        obtain ⟨H1, e1, n1, d1, f1, c1, r1, o1⟩ :=
          (ih (k + 1) (i + 1) (H.store (d.slot i) E.dflt) (by omega) (by omega) (by omega)).2
            (m - 1) (by omega)
            (fun t ht => by
              have := hok (t + 1) (by omega)
              rw [← this]; congr 1; omega)
            (by rw [← hbad]; congr 1; omega)
        obtain ⟨b, hb, _⟩ := hs.shape_slot_blk E.dflt i h0 h1
        have ei : i + 1 + ((m - 1 : Nat) : Int) = i + (m : Int) := by omega
        rw [ei] at e1 r1 o1
        refine ⟨H1, e1, by rw [n1, Heap.store_next], ?_, ?_, by rw [c1, Heap.store_cap], ?_, ?_⟩
        · rw [d1]; unfold Heap.store; rw [hb]
        · rw [f1]; unfold Heap.store; rw [hb]
        · intro j hj0 hj1
          by_cases hji : j = i
          · rw [hji, o1 _ (fun j' a b e => by
              have := hs.shape_slot_inj E.dflt i j' h0 h1 (by omega) (by omega) e; omega)]
            exact Heap.read_store_same _ _ _ b hb
          · exact r1 j (by omega) hj1
        · intro p hp
          rw [o1 p (fun j a b => hp j (by omega) b)]
          exact Heap.read_store_ne _ _ _ _ (hp i (le_refl _) (by omega))

theorem Shape.subscript_eq {d : Deque α} (hs : d.Shape) (x : α) (i : Nat)
    (hb : i + chunk_size ≤ size_t_mod) : d.subscript i = d.slot i :=
  subscript_eq_slot _ (hs.full x) i hb

/-- C13: for every `n` whose chunk count fits `size_t` (allocations succeeding),
`Deque(n, v)` with a value `v` whose copy succeeds returns a container with
`size() == n` and `operator[](i) == v` for every `i < n`; and `Deque(n)`, when the
`n` default constructions complete, returns a container with `size() == n` and every
element equal to the value built by `T()`. -/
theorem ctor_sizes_and_values (E : Env α) (hA : ∀ k, E.alloc_ok k = true) (h : Heap α)
    (n : Nat) (hn : n + chunk_size - 1 < size_t_mod) :
    (∀ v, E.copy_ok v = true → ∃ d, ctor_n_val E h n v = .ok d ∧ d.size = n ∧
      ∀ i : Nat, i < n → d.heap.read (d.subscript i) = some v) ∧
    ((∀ t : Nat, t < n → E.dflt_ok t = true) → ∃ d, ctor_n E h n = .ok d ∧ d.size = n ∧
      ∀ i : Nat, i < n → d.heap.read (d.subscript i) = some E.dflt) := by
  obtain ⟨d0, e0, hs, hsz, _, _, _, _, _, _⟩ := BaseDeque_spec E hA h n hn
  have hn' := hn
  simp only [chunk_size_eq, size_t_mod_eq] at hn'
  constructor
  · intro v hv
    obtain ⟨H1, hl⟩ := fill_loop_total E d0 hs v hv (d0.m_size + 1) 0 d0.heap (le_refl _)
      (by omega) (by push_cast; omega)
    have he : ctor_n_val E h n v = .ok { d0 with heap := H1 } := by
      unfold ctor_n_val
      rw [e0]
      simp only []
      rw [hs.shape_begin_eq v, hs.shape_end_eq v, ← hsz, hl]
    obtain ⟨hi, hz, hr⟩ := ctor_n_val_inv E hA h n v hn _ he
    refine ⟨_, he, hz, ?_⟩
    intro i hlt
    rw [subscript_eq_slot _ hi i (by simp only [chunk_size_eq, size_t_mod_eq]; omega)]
    exact hr i (by omega) (by omega)
  · intro hok
    obtain ⟨H1, hl⟩ := (default_loop_run E d0 hs (d0.m_size + 1) 0 0 d0.heap (le_refl _)
      (by omega) (by push_cast; omega)).1
      (fun t ht => by rw [zero_add]; exact hok t (by omega))
    have he : ctor_n E h n = .ok { d0 with heap := H1 } := by
      unfold ctor_n
      rw [e0]
      simp only []
      rw [hs.shape_begin_eq E.dflt, hs.shape_end_eq E.dflt, ← hsz, hl]
    obtain ⟨hi, hz, hr⟩ := ctor_n_inv E hA h n hn _ he
    refine ⟨_, he, hz, ?_⟩
    intro i hlt
    rw [subscript_eq_slot _ hi i (by simp only [chunk_size_eq, size_t_mod_eq]; omega)]
    exact hr i (by omega) (by omega)

end Deque

theorem ctor_sizes_and_values_witness :
    (∀ v, demo_env.copy_ok v = true → ∃ d, Deque.ctor_n_val demo_env demo_heap 40 v = .ok d ∧
      d.size = 40 ∧ ∀ i : Nat, i < 40 → d.heap.read (d.subscript i) = some v) ∧
    ((∀ t : Nat, t < 40 → demo_env.dflt_ok t = true) →
      ∃ d, Deque.ctor_n demo_env demo_heap 40 = .ok d ∧ d.size = 40 ∧
      ∀ i : Nat, i < 40 → d.heap.read (d.subscript i) = some demo_env.dflt) :=
  Deque.ctor_sizes_and_values demo_env (fun _ => rfl) demo_heap 40 (by decide)

namespace Heap

@[simp] theorem store_destroyed (h : Heap α) (p : Ptr) (v : α) :
    (h.store p v).destroyed = h.destroyed := by
  unfold store; split <;> rfl

@[simp] theorem store_freed (h : Heap α) (p : Ptr) (v : α) :
    (h.store p v).freed = h.freed := by
  unfold store; split <;> rfl

end Heap

namespace Deque

/-- The loop of `std::uninitialized_copy` runs no destructor and no `delete[]`. -/
theorem copy_loop_logs (E : Env α) (ss s : Int → Handle) (fin : BaseIterator) :
    ∀ (fuel : Nat) (src it : BaseIterator) (H H1 : Heap α),
      copy_loop E ss s fin fuel src it H = .ok H1 →
      H1.destroyed = H.destroyed ∧ H1.freed = H.freed := by
  intro fuel
  induction fuel with
  | zero => intro src it H H1 h; simp [copy_loop] at h
  | succ n ih =>
    intro src it H H1 h
    unfold copy_loop at h
    split_ifs at h with hc
    · rcases hr : H.read src.item with _ | x
      · rw [hr] at h; cases h
      · rw [hr] at h
        simp only [Heap.construct] at h
        by_cases hv : E.copy_ok x = true
        · simp only [hv, if_true] at h
          obtain ⟨a, b⟩ := ih _ _ _ _ h
          exact ⟨by rw [a, Heap.store_destroyed], by rw [b, Heap.store_freed]⟩
        · simp only [hv] at h
          cases h
    · cases h
      exact ⟨rfl, rfl⟩

/-- The loop of `std::uninitialized_copy` returns when the source elements copy. -/
theorem copy_loop_total (E : Env α) (src d : Deque α) (hsrc : src.Inv) (hs : d.Shape)
    (hsz : d.m_size = src.m_size)
    (hdis : ∀ j k : Int, 0 ≤ j → j < d.m_size → 0 ≤ k → k < d.m_size → d.slot j ≠ src.slot k) :
    ∀ (fuel : Nat) (i : Int) (H : Heap α), 0 ≤ i → i ≤ d.m_size → d.m_size - i < fuel →
      (∀ j : Int, i ≤ j → j < d.m_size →
        ∃ x, H.read (src.slot j) = some x ∧ E.copy_ok x = true) →
      ∃ H1, copy_loop E src.arr.slots d.arr.slots (src.iter_at src.m_size) fuel (src.iter_at i)
        (d.iter_at i) H = .ok H1 := by
  intro fuel
  induction fuel with
  | zero => intro i H h0 h1 h2; omega
  | succ n ih =>
    intro i H h0 h1 h2 hcp
    unfold copy_loop
    simp only [iter_at_item]
    by_cases hin : i = d.m_size
    · rw [if_neg (by rw [hin, hsz]; simp)]
      exact ⟨H, rfl⟩
    · have hne : src.slot i ≠ src.slot src.m_size := by
        intro e
        have := hsrc.slot_inj i src.m_size h0 (by omega) (by omega) (le_refl _) e
        omega
      rw [if_pos hne]
      obtain ⟨x, hx, hv⟩ := hcp i (le_refl _) (by omega)
      rw [hx]
      simp only [Heap.construct, hv, if_true]
      rw [hsrc.iter_inc i h0 (by omega), hs.shape_iter_inc x i h0 (by omega)]
      refine ih (i + 1) _ (by omega) (by omega) (by omega) ?_
      intro j hj0 hj1
      obtain ⟨y, hy, hvy⟩ := hcp j (by omega) hj1
      refine ⟨y, ?_, hvy⟩
      rw [← hy]
      exact Heap.read_store_ne _ _ _ _
        (fun e => hdis i j h0 (by omega) (by omega) hj1 e.symm)

/-- The copy constructor returns when the elements of the source copy; it runs no
destructor. -/
theorem ctor_copy_total (E : Env α) (hA : ∀ k, E.alloc_ok k = true) (src : Deque α)
    (hsrc : src.Inv) (hn : src.m_size + chunk_size - 1 < size_t_mod)
    (hcp : ∀ j : Int, 0 ≤ j → j < src.m_size →
      ∃ x, src.heap.read (src.slot j) = some x ∧ E.copy_ok x = true) :
    ∃ d, ctor_copy E src = .ok d ∧ d.heap.destroyed = src.heap.destroyed ∧
      d.heap.freed = src.heap.freed := by
  obtain ⟨d0, e0, hs, hsz, hfresh, hnx, hold, _, hfr0, hds0⟩ :=
    BaseDeque_spec E hA src.heap src.m_size hn
  have hdis : ∀ j k : Int, 0 ≤ j → j < d0.m_size → 0 ≤ k → k < d0.m_size →
      d0.slot j ≠ src.slot k := by
    intro j k hj0 hj1 hk0 hk1 e
    obtain ⟨i0, i1⟩ := hs.slot_index j hj0 (by omega)
    obtain ⟨b, hb, _⟩ := hs.shape_slot_blk E.dflt j hj0 (by omega)
    have h1 := hfresh _ b i0 i1 hb
    obtain ⟨b', hb', hlt'⟩ := hsrc.slot_blk' k hk0 (by omega)
    rw [e, hb'] at hb
    cases hb
    omega
  obtain ⟨H1, hl⟩ := copy_loop_total E src d0 hsrc hs hsz hdis (src.m_size + 1) 0 d0.heap
    (le_refl _) (by omega) (by rw [hsz]; push_cast; omega) (by
      intro j hj0 hj1
      obtain ⟨x, hx, hv⟩ := hcp j hj0 (by omega)
      refine ⟨x, ?_, hv⟩
      rw [← hx]
      obtain ⟨b', hb', hlt'⟩ := hsrc.slot_blk' j hj0 (by omega)
      rw [Heap.read_blk _ _ b' hb', Heap.read_blk _ _ b' hb', (hold b' hlt').1])
  obtain ⟨l1, l2⟩ := copy_loop_logs E _ _ _ _ _ _ _ H1 hl
  refine ⟨{ d0 with heap := H1 }, ?_, by simp only; rw [l1, hds0], by simp only; rw [l2, hfr0]⟩
  unfold ctor_copy
  simp only [Deque.size]
  rw [e0]
  simp only []
  rw [hsrc.begin_eq, hsrc.end_eq, hs.shape_begin_eq E.dflt, hl]

end Deque

namespace Heap

theorem read_destroy_same (h : Heap α) (p : Ptr) : (h.destroy p).read p = none := by
  unfold read destroy
  rcases hp : p.base with _ | _ | b <;> simp

@[simp] theorem destroy_destroyed (h : Heap α) (p : Ptr) :
    (h.destroy p).destroyed = p :: h.destroyed := by
  unfold destroy; split <;> rfl

@[simp] theorem destroy_freed (h : Heap α) (p : Ptr) : (h.destroy p).freed = h.freed := by
  unfold destroy; split <;> rfl

end Heap

namespace Deque

/-- The loop of `std::destroy` from position `i` to `end()`: it returns, runs the
destructor of each slot from `i` on once, in increasing order, and touches nothing
else. -/
theorem destroy_range_spec (d : Deque α) (hi : d.Inv) :
    ∀ (fuel i : Nat) (H : Heap α), i ≤ d.m_size → d.m_size - i < fuel →
      ∃ H1, destroy_range d.arr.slots (d.iter_at d.m_size) fuel (d.iter_at i) H = .ok H1 ∧
        H1.next = H.next ∧ H1.cap = H.cap ∧ H1.freed = H.freed ∧
        H1.destroyed = ((List.range' i (d.m_size - i)).map
          (fun t : Nat => d.slot (t : Int))).reverse ++ H.destroyed ∧
        (∀ j : Int, i ≤ j → j < d.m_size → H1.read (d.slot j) = none) ∧
        (∀ p, (∀ j : Int, i ≤ j → j < d.m_size → p ≠ d.slot j) → H1.read p = H.read p) := by
  intro fuel
  induction fuel with
  | zero => intro i H h1 h2; omega
  | succ n ih =>
    intro i H h1 h2
    unfold destroy_range
    simp only [iter_at_item]
    by_cases hin : i = d.m_size
    · rw [if_neg (by rw [hin]; simp)]
      refine ⟨H, rfl, rfl, rfl, rfl, ?_, fun j a b => by omega, fun _ _ => rfl⟩
      rw [hin]; simp
    · have hne : d.slot i ≠ d.slot d.m_size := fun e => by
        have := hi.slot_inj i d.m_size (by omega) (by omega) (by omega) (le_refl _) e
        omega
      rw [if_pos hne, hi.iter_inc i (by omega) (by omega)]
      obtain ⟨H1, e1, n1, c1, f1, d1, r1, o1⟩ :=
        ih (i + 1) (H.destroy (d.slot i)) (by omega) (by omega)
      have ec : ((i : Int) + 1) = ((i + 1 : Nat) : Int) := by push_cast; rfl
      rw [ec]
      refine ⟨H1, e1, by rw [n1, Heap.destroy_next], by rw [c1, Heap.destroy_cap],
        by rw [f1, Heap.destroy_freed], ?_, ?_, ?_⟩
      · rw [d1, Heap.destroy_destroyed]
        have es : d.m_size - i = (d.m_size - (i + 1)) + 1 := by omega
        rw [es, List.range'_succ]
        simp
      · intro j hj0 hj1
        by_cases hji : j = i
        · rw [hji, o1 _ (fun j' a b e => by
            have := hi.slot_inj i j' (by omega) (by omega) (by omega) (by omega) e
            omega)]
          exact Heap.read_destroy_same _ _
        · exact r1 j (by omega) hj1
      · intro p hp
        rw [o1 p (fun j a b => hp j (by omega) b)]
        exact Heap.read_destroy_ne _ _ _ (hp i (le_refl _) (by omega))

/-- What a successful copy assignment does, whether or not the two objects are the
same. -/
theorem assign_core (E : Env α) (hA : ∀ k, E.alloc_ok k = true) (a b : Deque α)
    (ha : a.Inv) (hb : b.Inv) (hh : a.heap = b.heap)
    (hn : b.m_size + chunk_size - 1 < size_t_mod)
    (hcp : ∀ j : Int, 0 ≤ j → j < b.m_size →
      ∃ x, b.heap.read (b.slot j) = some x ∧ E.copy_ok x = true) :
    ∃ a1, assign_op E a b = .ok a1 ∧ a1.Inv ∧ a1.m_size = b.m_size ∧
      (∀ j : Int, 0 ≤ j → j < b.m_size →
        a1.heap.read (a1.slot j) = b.heap.read (b.slot j)) ∧
      a1.heap.destroyed = ((List.range a.m_size).map
        (fun t : Nat => a.slot (t : Int))).reverse ++ a.heap.destroyed ∧
      (∀ p c, p.base = .blk c → c < a.heap.next →
        (∀ j : Int, 0 ≤ j → j < a.m_size → p ≠ a.slot j) →
        a1.heap.read p = a.heap.read p) := by
  have hoe : ({ b with heap := a.heap } : Deque α) = b := by rw [hh]
  obtain ⟨copy, hc, hcd, _⟩ := ctor_copy_total E hA b hb hn hcp
  obtain ⟨hci, hcs, hcr, hcn, hcm, hcfresh⟩ := (ctor_copy_spec E hA b hb hn).1 copy hc
  have hfr : a.frames copy.heap :=
    ha.frames_of_ext copy.heap (by rw [hh]; exact hcn) (by
      intro c hcl; rw [hh] at hcl ⊢; exact hcm c hcl)
  have hia : ({ a with heap := copy.heap } : Deque α).Inv := ha.frame _ hfr
  obtain ⟨H2, e2, n2, c2, f2, d2, r2, o2⟩ :=
    destroy_range_spec _ hia (a.m_size + 1) 0 copy.heap (Nat.zero_le _) (by simp only; omega)
  have hdt : dtor (⟨a.arr, a.m_size, a.m_begin, a.m_end, copy.heap⟩ : Deque α)
      = .ok (ChunkArray_dtor a.arr H2) := by
    unfold dtor
    have hbe := hia.begin_eq
    have hee := hia.end_eq
    simp only [Nat.cast_zero] at e2
    rw [hbe, hee]
    exact (by rw [e2] : (match destroy_range a.arr.slots
        ((⟨a.arr, a.m_size, a.m_begin, a.m_end, copy.heap⟩ : Deque α).iter_at a.m_size)
        (a.m_size + 1)
        ((⟨a.arr, a.m_size, a.m_begin, a.m_end, copy.heap⟩ : Deque α).iter_at 0) copy.heap with
      | .error e => Except.error e
      | .ok h => Except.ok (ChunkArray_dtor a.arr h)) = .ok (ChunkArray_dtor a.arr H2))
  obtain ⟨t1, t2, t3, t4⟩ := ChunkArray_dtor_same a.arr H2
  have hslotne : ∀ (j k : Int), 0 ≤ j → j ≤ copy.m_size → 0 ≤ k → k ≤ a.m_size →
      copy.slot j ≠ a.slot k := by
    intro j k hj0 hj1 hk0 hk1 e
    obtain ⟨i0, i1⟩ := hci.shape.slot_index j hj0 hj1
    obtain ⟨c, hcb, _⟩ := hci.slot_blk' j hj0 hj1
    have h1 := hcfresh _ c i0 i1 hcb
    obtain ⟨c', hc', hlt'⟩ := ha.slot_blk' k hk0 hk1
    rw [e, hc'] at hcb
    cases hcb
    rw [hh] at hlt'
    omega
  have hrd : ∀ p, (∀ j : Int, 0 ≤ j → j < a.m_size → p ≠ a.slot j) →
      (ChunkArray_dtor a.arr H2).read p = copy.heap.read p := by
    intro p hp
    have := o2 p (fun j h0 h1 => hp j (by simpa using h0) h1)
    unfold Heap.read at this ⊢
    rw [t3]; exact this
  refine ⟨{ copy with heap := ChunkArray_dtor a.arr H2 }, ?_, ?_, hcs, ?_, ?_, ?_⟩
  · unfold assign_op
    rw [hoe, hc]
    simp only [swap, ChunkArray.swap]
    rw [hdt]
  · refine hci.frame _ ⟨by rw [t1, n2], ?_⟩
    intro i c h0 h1 hbk
    have hlt := hcfresh i c h0 h1 hbk
    have hso := destroy_range_frame a.arr.slots (fun c => c < a.heap.next) _ _ _ _ H2
      ha.begin_based (by
        have hbe := hia.begin_eq
        have hee := hia.end_eq
        simp only [Nat.cast_zero] at e2
        have : destroy_range a.arr.slots a.end_ (a.m_size + 1) a.begin copy.heap = .ok H2 := by
          rw [← e2]
          exact congrArg₂ (fun x y => destroy_range a.arr.slots x (a.m_size + 1) y copy.heap)
            hee hbe
        exact this)
    rw [t3, t2, hso.2.2 c (by rw [hh]; omega), hso.2.1]
    exact ⟨rfl, rfl⟩
  · intro j h0 h1
    show (ChunkArray_dtor a.arr H2).read (copy.slot j) = b.heap.read (b.slot j)
    rw [hrd _ (fun k hk0 hk1 => hslotne j k h0 (by omega) hk0 (by omega))]
    exact hcr j h0 h1
  · show (ChunkArray_dtor a.arr H2).destroyed = _
    rw [t4, d2, hcd, ← hh]
    simp only [Nat.sub_zero]
    rw [List.range_eq_range']
    rfl
  · intro p c hpb hcl hp
    show (ChunkArray_dtor a.arr H2).read p = a.heap.read p
    rw [hrd p hp, Heap.read_blk _ _ c hpb, Heap.read_blk _ _ c hpb,
      (hcm c (by rw [← hh]; exact hcl)).1, hh]

theorem Inv.subscripts_eq {d : Deque α} (hi : d.Inv) (hfit : d.m_size + chunk_size ≤ size_t_mod) :
    (List.range d.m_size).map d.subscript
      = (List.range d.m_size).map (fun t : Nat => d.slot (t : Int)) := by
  simp only [chunk_size_eq, size_t_mod_eq] at hfit
  apply List.map_congr_left
  intro t ht
  have := List.mem_range.1 ht
  exact subscript_eq_slot d hi t (by simp only [chunk_size_eq, size_t_mod_eq]; omega)

theorem Inv.subscripts_nodup {d : Deque α} (hi : d.Inv)
    (hfit : d.m_size + chunk_size ≤ size_t_mod) :
    ((List.range d.m_size).map d.subscript).Nodup := by
  rw [hi.subscripts_eq hfit]
  refine List.Nodup.map_on ?_ (List.nodup_range _)
  intro x hx y hy e
  have hx' := List.mem_range.1 hx
  have hy' := List.mem_range.1 hy
  have := hi.slot_inj x y (by omega) (by omega) (by omega) (by omega) e
  omega

/-- C15: for reachable containers `a` and `b` living in one heap (allocations
succeeding, the sizes fitting `size_t` with a chunk to spare, the elements of `b`
copying without a throw), the copy assignment `a = b` returns; afterwards
`a.size() == b.size()` and `a[i]` is the value `b[i]` had, for every `i < b.size()`;
the destructor ran on exactly the slots of the elements `a` held before, once each;
and when `a` and `b` are different objects, owning different blocks, every element of
`b` reads as before. -/
theorem assign_replaces (E : Env α) (hA : ∀ k, E.alloc_ok k = true) (a b : Deque α)
    (ha : Reachable E a) (hb : Reachable E b) (hh : a.heap = b.heap)
    (hfa : a.size + chunk_size ≤ size_t_mod) (hfb : b.size + chunk_size ≤ size_t_mod)
    (hcp : ∀ i : Nat, i < b.size → ∀ x, b.heap.read (b.subscript i) = some x →
      E.copy_ok x = true) :
    ∃ a1, assign_op E a b = .ok a1 ∧ a1.size = b.size ∧
      (∀ i : Nat, i < b.size → a1.heap.read (a1.subscript i) = b.heap.read (b.subscript i)) ∧
      a1.heap.destroyed = ((List.range a.size).map a.subscript).reverse ++ a.heap.destroyed ∧
      ((List.range a.size).map a.subscript).Nodup ∧
      (∀ i : Nat, i < a.size → ∃ x, a.heap.read (a.subscript i) = some x) ∧
      ((∀ i j c, 0 ≤ i → i ≤ a.arr.end_ → 0 ≤ j → j ≤ b.arr.end_ →
          a.arr.slots i = .blk c → b.arr.slots j ≠ .blk c) →
        ∀ i : Nat, i < b.size → a1.heap.read (b.subscript i) = b.heap.read (b.subscript i)) := by
  have hia := ha.inv hA
  have hib := hb.inv hA
  simp only [size] at hfa hfb hcp ⊢
  have hfa' := hfa
  have hfb' := hfb
  simp only [chunk_size_eq, size_t_mod_eq] at hfa' hfb'
  have hba : ∀ i : Nat, i ≤ a.m_size → i + chunk_size ≤ size_t_mod := by
    intro i h; simp only [chunk_size_eq, size_t_mod_eq]; omega
  have hbb : ∀ i : Nat, i ≤ b.m_size → i + chunk_size ≤ size_t_mod := by
    intro i h; simp only [chunk_size_eq, size_t_mod_eq]; omega
  have hn : b.m_size + chunk_size - 1 < size_t_mod := by
    simp only [chunk_size_eq, size_t_mod_eq]; omega
  obtain ⟨a1, he, hi1, hsz, hrd, hds, hkeep⟩ := assign_core E hA a b hia hib hh hn (by
    intro j hj0 hj1
    obtain ⟨x, hx⟩ := hib.live j.toNat (by omega)
    rw [Int.toNat_of_nonneg hj0] at hx
    refine ⟨x, hx, hcp j.toNat (by omega) x ?_⟩
    rw [subscript_eq_slot b hib _ (hbb _ (by omega)), Int.toNat_of_nonneg hj0]
    exact hx)
  refine ⟨a1, he, hsz, ?_, ?_, hia.subscripts_nodup hfa, ?_, ?_⟩
  · intro i hlt
    rw [subscript_eq_slot a1 hi1 i (hbb i (by omega)),
      subscript_eq_slot b hib i (hbb i (by omega))]
    exact hrd i (by omega) (by omega)
  · rw [hds, hia.subscripts_eq hfa]
  · intro i hlt
    rw [subscript_eq_slot a hia i (hba i (by omega))]
    exact hia.live i hlt
  · intro hdis i hlt
    rw [subscript_eq_slot b hib i (hbb i (by omega))]
    obtain ⟨c, hc, hcl⟩ := hib.slot_blk' i (by omega) (by omega)
    obtain ⟨i0, i1⟩ := hib.shape.slot_index i (by omega) (by omega)
    rw [hkeep (b.slot i) c hc (by rw [hh]; exact hcl) ?_, hh]
    intro j hj0 hj1 e
    obtain ⟨c', hc', _⟩ := hia.slot_blk' j hj0 (by omega)
    obtain ⟨j0, j1⟩ := hia.shape.slot_index j hj0 (by omega)
    have hbc : (b.slot i).base = .blk c' := by rw [e]; exact hc'
    exact hdis _ _ c' j0 j1 i0 i1 hc' hbc

theorem fill_loop_frame (E : Env α) (s : Int → Handle) (P : Nat → Prop) (fin : BaseIterator)
    (val : α) :
    ∀ (fuel : Nat) (it : BaseIterator) (H H1 : Heap α), it.Based s P →
      fill_loop E s fin val fuel it H = .ok H1 → Heap.same_off P H H1 := by
  intro fuel
  induction fuel with
  | zero => intro it H H1 _ h; simp [fill_loop] at h
  | succ n ih =>
    intro it H H1 hb h
    unfold fill_loop at h
    split_ifs at h with hc
    · simp only [Heap.construct] at h
      by_cases hv : E.copy_ok val = true
      · simp only [hv, if_true] at h
        exact Heap.same_off_trans (Heap.same_off_store P H it.item val hb.item)
          (ih _ _ H1 hb.inc h)
      · simp only [hv] at h
        cases h
    · cases h; exact Heap.same_off_refl P H

/-- The constructor `Deque(n, v)` works in blocks of its own and leaves the blocks that
existed before as they were. -/
theorem ctor_n_val_frames (E : Env α) (hA : ∀ k, E.alloc_ok k = true) (h : Heap α) (n : Nat)
    (val : α) (hn : n + chunk_size - 1 < size_t_mod) (d : Deque α)
    (he : ctor_n_val E h n val = .ok d) :
    h.next ≤ d.heap.next ∧
      (∀ b, b < h.next → d.heap.mem b = h.mem b ∧ d.heap.cap b = h.cap b) ∧
      (∀ i b, 0 ≤ i → i ≤ d.arr.end_ → d.arr.slots i = .blk b → h.next < b) := by
  obtain ⟨d0, e0, hs, hsz, hfresh, hnx, hold, _, _, _⟩ := BaseDeque_spec E hA h n hn
  have hbased := hs.shape_begin_based (fun b => h.next < b) hfresh
  unfold ctor_n_val at he
  rw [e0] at he
  simp only [] at he
  rcases hl : fill_loop E d0.arr.slots d0.end_ val (n + 1) d0.begin d0.heap
    with H1 | ⟨e, it, H1⟩
  · rw [hl] at he
    simp only [Res.ok.injEq] at he
    have hso := fill_loop_frame E _ _ _ _ _ _ _ H1 hbased hl
    rw [← he]
    refine ⟨by simp only; rw [hso.1]; exact hnx, ?_, hfresh⟩
    intro b hb
    simp only
    rw [hso.2.2 b (by omega), hso.2.1]
    exact hold b hb
  · rw [hl] at he
    simp only [] at he
    split at he <;> cases he

end Deque

theorem demo_front_reachable : Deque.Reachable demo_env demo_front :=
  Deque.Reachable.push_front_ok demo_three _ 9 demo_three_reachable rfl

theorem demo_other_reachable : Deque.Reachable demo_env demo_other :=
  Deque.Reachable.ctor_n_val demo_three.heap 2 5 _ (by decide) rfl

theorem demo_three_beside_reachable : Deque.Reachable demo_env demo_three_beside := by
  have hi := demo_three_reachable.inv (fun _ => rfl)
  obtain ⟨h1, h2, _⟩ := Deque.ctor_n_val_frames demo_env (fun _ => rfl) demo_three.heap 2 5
    (by decide) demo_other rfl
  exact Deque.Reachable.frame demo_three demo_other.heap demo_three_reachable
    (hi.frames_of_ext _ h1 h2)

theorem demo_pair_disjoint : ∀ (i j : Int) (c : Nat), 0 ≤ i → i ≤ demo_three_beside.arr.end_ →
    0 ≤ j → j ≤ demo_other.arr.end_ → demo_three_beside.arr.slots i = .blk c →
    demo_other.arr.slots j ≠ .blk c := by
  intro i j c hi0 hi1 hj0 hj1 ha hb
  have hi := demo_three_reachable.inv (fun _ => rfl)
  obtain ⟨_, _, h3⟩ := Deque.ctor_n_val_frames demo_env (fun _ => rfl) demo_three.heap 2 5
    (by decide) demo_other rfl
  have h1 := h3 j c hj0 hj1 hb
  obtain ⟨c', hc', hlt⟩ := hi.slot_blk i hi0 hi1 (by
    intro e
    have : demo_three.arr.slots i = .blk c := ha
    rw [e] at this; cases this)
  have : demo_three.arr.slots i = .blk c := ha
  rw [hc'] at this
  cases this
  omega

namespace Deque

/-- The handle array of a container built by `BaseDeque(size_t n)` is the first
allocation the constructor makes. -/
theorem BaseDeque_store (E : Env α) (hA : ∀ k, E.alloc_ok k = true) (h : Heap α) (n : Nat)
    (hn : n + chunk_size - 1 < size_t_mod) (d : Deque α) (he : BaseDeque E h n = .ok d) :
    d.arr.store = h.next := by
  have hsz : (n + chunk_size - 1) % size_t_mod / chunk_size = (n + 31) / 32 := by
    simp only [chunk_size_eq, size_t_mod_eq] at hn ⊢
    omega
  unfold BaseDeque ChunkArray.ctor at he
  simp only [Heap.alloc_handles_ok E hA, hsz] at he
  obtain ⟨s1, h1, e1, _⟩ := ChunkArray.alloc_chunks_spec E hA ((n + 31) / 32)
    ((n + 31) / 32) 0 (fun _ => Handle.wild) { h with next := h.next + 1 } (by omega)
  rw [e1] at he
  simp only [Heap.alloc_ok E hA] at he
  cases he
  rfl

theorem ctor_copy_store (E : Env α) (hA : ∀ k, E.alloc_ok k = true) (src : Deque α)
    (hn : src.m_size + chunk_size - 1 < size_t_mod) (d : Deque α)
    (he : ctor_copy E src = .ok d) : d.arr.store = src.heap.next := by
  unfold ctor_copy at he
  simp only [Deque.size] at he
  rcases hb : BaseDeque E src.heap src.m_size with d0 | ⟨e, h1⟩
  · rw [hb] at he
    simp only [] at he
    have hst := BaseDeque_store E hA _ _ hn d0 hb
    split at he
    · cases he
      exact hst
    · split at he <;> cases he
  · rw [hb] at he
    cases he

/-- C14: for every reachable container `src` (allocations succeeding, the size fitting
`size_t` with a chunk to spare) whose elements copy without throwing, wherever its first
element lies in its first chunk, the copy constructor returns a container with
`size() == src.size()` and `operator[](i)` equal to `src[i]` for every `i < size()`.
The container returned is a new one: its handle array and every block it holds were
allocated by the constructor, so its elements lie in slots of their own, distinct from
one another and from every slot of `src`.  `src` is unchanged: every block that existed
before the call has the size and the content it had, the elements of `src` read as
before, no destructor ran and nothing was released. -/
theorem copy_ctor_copies (E : Env α) (hA : ∀ k, E.alloc_ok k = true) (src : Deque α)
    (hr : Reachable E src) (hfit : src.size + chunk_size ≤ size_t_mod)
    (hcp : ∀ i : Nat, i < src.size → ∀ x, src.heap.read (src.subscript i) = some x →
      E.copy_ok x = true) :
    ∃ d, ctor_copy E src = .ok d ∧ d.size = src.size ∧
      (∀ i : Nat, i < src.size →
        d.heap.read (d.subscript i) = src.heap.read (src.subscript i)) ∧
      (∀ i : Nat, i < src.size →
        d.heap.read (src.subscript i) = src.heap.read (src.subscript i)) ∧
      d.heap.destroyed = src.heap.destroyed ∧
      d.heap.freed = src.heap.freed ∧
      d.arr.store = src.heap.next ∧ d.arr.store < d.heap.next ∧
      (∀ (i : Int) (b : Nat), d.arr.begin ≤ i → i ≤ d.arr.end_ → d.arr.slots i = .blk b →
        src.heap.next < b ∧ b < d.heap.next) ∧
      (∀ b, b < src.heap.next →
        d.heap.mem b = src.heap.mem b ∧ d.heap.cap b = src.heap.cap b) ∧
      (∀ i j : Nat, i < src.size → j < src.size → d.subscript i ≠ src.subscript j) ∧
      ((List.range d.size).map d.subscript).Nodup := by
  have hi := hr.inv hA
  simp only [size] at hfit hcp ⊢
  have hfit' := hfit
  simp only [chunk_size_eq, size_t_mod_eq] at hfit'
  have hb : ∀ i : Nat, i ≤ src.m_size → i + chunk_size ≤ size_t_mod := by
    intro i h; simp only [chunk_size_eq, size_t_mod_eq]; omega
  have hn : src.m_size + chunk_size - 1 < size_t_mod := by
    simp only [chunk_size_eq, size_t_mod_eq]; omega
  obtain ⟨d, he, hds, hfr⟩ := ctor_copy_total E hA src hi hn (by
    intro j hj0 hj1
    obtain ⟨x, hx⟩ := hi.live j.toNat (by omega)
    rw [Int.toNat_of_nonneg hj0] at hx
    refine ⟨x, hx, hcp j.toNat (by omega) x ?_⟩
    rw [subscript_eq_slot src hi _ (hb _ (by omega)), Int.toNat_of_nonneg hj0]
    exact hx)
  obtain ⟨hid, hsz, hrd, hnx, hold, hfresh⟩ := (ctor_copy_spec E hA src hi hn).1 d he
  have hst := ctor_copy_store E hA src hn d he
  obtain ⟨bs, hbs⟩ := hid.sentinel
  have hbs1 := hfresh _ bs hid.end_nonneg (le_refl _) hbs
  have hbs2 : bs < d.heap.next := by
    rcases hid.owned d.arr.end_ hid.end_nonneg (le_refl _) with hnull | ⟨b, hb', hlt⟩
    · rw [hnull] at hbs; cases hbs
    · rw [hbs] at hb'; cases hb'; exact hlt
  refine ⟨d, he, hsz, ?_, ?_, hds, hfr, hst, by rw [hst]; omega, ?_, hold, ?_, ?_⟩
  · intro i hlt
    rw [subscript_eq_slot d hid i (hb i (by omega)),
      subscript_eq_slot src hi i (hb i (by omega))]
    exact hrd i (by omega) (by omega)
  · intro i hlt
    rw [subscript_eq_slot src hi i (hb i (by omega))]
    obtain ⟨b', hb', hlt'⟩ := hi.slot_blk' i (by omega) (by omega)
    rw [Heap.read_blk _ _ b' hb', Heap.read_blk _ _ b' hb', (hold b' hlt').1]
  · intro i b h0 h1 hbk
    refine ⟨hfresh i b h0 h1 hbk, ?_⟩
    rcases hid.owned i h0 h1 with hnull | ⟨b', hb', hlt⟩
    · rw [hnull] at hbk; cases hbk
    · rw [hbk] at hb'; cases hb'; exact hlt
  · intro i j hlt hjt e
    rw [subscript_eq_slot d hid i (hb i (by omega)),
      subscript_eq_slot src hi j (hb j (by omega))] at e
    obtain ⟨p0, p1, p2⟩ := hid.pos_in_window i (by omega) (by omega)
    obtain ⟨b, hb1, _⟩ := hid.slot_blk' i (by omega) (by omega)
    have hf := hfresh _ b (by have := hid.cb_nonneg; omega) (by omega) hb1
    obtain ⟨b', hb', hlt'⟩ := hi.slot_blk' j (by omega) (by omega)
    rw [e, hb'] at hb1
    cases hb1
    omega
  · exact hid.subscripts_nodup (by rw [hsz]; exact hfit)

end Deque

theorem copy_ctor_copies_witness :
    ∃ d, Deque.ctor_copy demo_env demo_front = .ok d ∧ d.size = demo_front.size ∧
      (∀ i : Nat, i < demo_front.size →
        d.heap.read (d.subscript i) = demo_front.heap.read (demo_front.subscript i)) ∧
      (∀ i : Nat, i < demo_front.size →
        d.heap.read (demo_front.subscript i) = demo_front.heap.read (demo_front.subscript i)) ∧
      d.heap.destroyed = demo_front.heap.destroyed ∧
      d.heap.freed = demo_front.heap.freed ∧
      d.arr.store = demo_front.heap.next ∧ d.arr.store < d.heap.next ∧
      (∀ (i : Int) (b : Nat), d.arr.begin ≤ i → i ≤ d.arr.end_ → d.arr.slots i = .blk b →
        demo_front.heap.next < b ∧ b < d.heap.next) ∧
      (∀ b, b < demo_front.heap.next →
        d.heap.mem b = demo_front.heap.mem b ∧ d.heap.cap b = demo_front.heap.cap b) ∧
      (∀ i j : Nat, i < demo_front.size → j < demo_front.size →
        d.subscript i ≠ demo_front.subscript j) ∧
      ((List.range d.size).map d.subscript).Nodup :=
  Deque.copy_ctor_copies demo_env (fun _ => rfl) demo_front demo_front_reachable (by decide)
    (fun _ _ _ _ => rfl)

theorem assign_replaces_witness :
    ∃ a1, Deque.assign_op demo_env demo_three_beside demo_other = .ok a1 ∧
      a1.size = demo_other.size ∧
      (∀ i : Nat, i < demo_other.size →
        a1.heap.read (a1.subscript i) = demo_other.heap.read (demo_other.subscript i)) ∧
      a1.heap.destroyed = ((List.range demo_three_beside.size).map
        demo_three_beside.subscript).reverse ++ demo_three_beside.heap.destroyed ∧
      ((List.range demo_three_beside.size).map demo_three_beside.subscript).Nodup ∧
      (∀ i : Nat, i < demo_three_beside.size →
        ∃ x, demo_three_beside.heap.read (demo_three_beside.subscript i) = some x) ∧
      (∀ i : Nat, i < demo_other.size →
        a1.heap.read (demo_other.subscript i)
          = demo_other.heap.read (demo_other.subscript i)) :=
  (Deque.assign_replaces demo_env (fun _ => rfl) demo_three_beside demo_other
    demo_three_beside_reachable demo_other_reachable rfl (by decide) (by decide)
    (fun _ _ _ _ => rfl)).imp
    (fun _ h => ⟨h.1, h.2.1, h.2.2.1, h.2.2.2.1, h.2.2.2.2.1, h.2.2.2.2.2.1,
      h.2.2.2.2.2.2 demo_pair_disjoint⟩)

namespace Deque

theorem Shape.shape_iter_dec {d : Deque α} (hs : d.Shape) (x : α) (j : Int) (h0 : 0 < j)
    (h1 : j ≤ d.m_size) : (d.iter_at j).dec d.arr.slots = d.iter_at (j - 1) :=
  (hs.full x).iter_dec j h0 h1

theorem Shape.shape_iter_lt {d : Deque α} (hs : d.Shape) (x : α) (E : Env α) (j k : Int) :
    (d.iter_at j).lt E (d.iter_at k) = true ↔ j < k :=
  (hs.full x).iter_lt_iff E j k

/-- The iterator `--begin()` compares below `begin()`. -/
theorem Shape.before_begin {d : Deque α} (hs : d.Shape) (E : Env α) :
    ((d.iter_at 0).dec d.arr.slots).ge E (d.iter_at 0) = false := by
  have := hs.mb_off
  have e0 : d.m_begin.off / 32 = 0 := by omega
  have h0 : d.iter_at 0 = ⟨d.slot 0, d.arr.cur_begin, d.arr.cur_begin, d.arr.cur_end⟩ := by
    unfold iter_at
    rw [add_zero, e0, add_zero]
  have h1 : (d.iter_at 0).dec d.arr.slots
      = ⟨(d.slot 0).add (-1), d.arr.cur_begin, d.arr.cur_begin, d.arr.cur_end⟩ := by
    rw [h0]
    unfold BaseIterator.dec
    rw [if_neg (by simp)]
  rw [h1, h0]
  unfold BaseIterator.ge BaseIterator.lt
  simp only [if_true, Bool.not_eq_false']
  unfold Ptr.lt Ptr.address
  simp only [Ptr.add_base, Ptr.add_off, decide_eq_true_eq]
  cases (d.slot 0).base <;> simp only [] <;> omega

/-- The handler loop of `Deque(size_t)` started at `--it`, `it` standing at position
`k`: it returns, having run the destructor on the slots `k - 1`, ..., `0` in this
order, once each. -/
theorem unwind_loop_spec (E : Env α) (d : Deque α) (hs : d.Shape) :
    ∀ (k fuel : Nat) (H : Heap α), k ≤ d.m_size → k < fuel →
      ∃ H1, unwind_loop E d.arr.slots (d.iter_at 0) fuel ((d.iter_at k).dec d.arr.slots) H
          = .ok H1 ∧
        H1.next = H.next ∧ H1.cap = H.cap ∧ H1.freed = H.freed ∧
        H1.destroyed = (List.range k).map (fun t : Nat => d.slot (t : Int)) ++ H.destroyed ∧
        (∀ j : Int, 0 ≤ j → j < k → H1.read (d.slot j) = none) ∧
        (∀ p, (∀ j : Int, 0 ≤ j → j < k → p ≠ d.slot j) → H1.read p = H.read p) := by
  intro k
  induction k with
  | zero =>
    intro fuel H _ hf
    obtain ⟨f, rfl⟩ : ∃ f, fuel = f + 1 := ⟨fuel - 1, by omega⟩
    unfold unwind_loop
    simp only [Nat.cast_zero]
    rw [hs.before_begin E]
    simp only [Bool.false_eq_true, if_false]
    exact ⟨H, rfl, rfl, rfl, rfl, by simp, fun j a b => by omega, fun _ _ => rfl⟩
  | succ k ih =>
    intro fuel H hk hf
    obtain ⟨f, rfl⟩ : ∃ f, fuel = f + 1 := ⟨fuel - 1, by omega⟩
    have e1 : (d.iter_at ((k + 1 : Nat) : Int)).dec d.arr.slots = d.iter_at k := by
      rw [hs.shape_iter_dec E.dflt _ (by push_cast; omega) (by exact_mod_cast hk)]
      congr 1
      push_cast; omega
    rw [e1]
    unfold unwind_loop
    have hge : (d.iter_at k).ge E (d.iter_at 0) = true := by
      unfold BaseIterator.ge
      rcases hlt : (d.iter_at k).lt E (d.iter_at 0) with _ | _
      · rfl
      · have := (hs.shape_iter_lt E.dflt E k 0).1 hlt
        omega
    rw [hge]
    simp only [if_true, iter_at_item]
    obtain ⟨H1, e2, n1, c1, f1, d1, r1, o1⟩ := ih f (H.destroy (d.slot k)) (by omega) (by omega)
    refine ⟨H1, e2, by rw [n1, Heap.destroy_next], by rw [c1, Heap.destroy_cap],
      by rw [f1, Heap.destroy_freed], ?_, ?_, ?_⟩
    · rw [d1, Heap.destroy_destroyed, List.range_succ]
      simp
    · intro j hj0 hj1
      by_cases hjk : j = k
      · rw [hjk, o1 _ (fun j' a b e => by
          have := hs.shape_slot_inj E.dflt k j' (by omega) (by omega) (by omega) (by omega) e
          omega)]
        exact Heap.read_destroy_same _ _
      · exact r1 j hj0 (by push_cast at hj1; omega)
    · intro p hp
      rw [o1 p (fun j a b => hp j a (by push_cast; omega))]
      exact Heap.read_destroy_ne _ _ _ (hp k (by omega) (by push_cast; omega))

/-- C16: while building `Deque(n)` (allocations succeeding, the chunk count fitting
`size_t`), when `T()` completes for the indices below `k` and throws at index `k < n`,
the constructor throws that exception of the element type; the destructor has run on
exactly the `k` slots of the indices `[0, k)`, in the order `k - 1`, ..., `0` (the log
lists the latest first), once each, on no slot of index `k` or later; and afterwards no
slot of the container, nor any slot of a block the constructor allocated, holds an
element. -/
theorem ctor_n_unwinds (E : Env α) (hA : ∀ k, E.alloc_ok k = true) (h : Heap α) (n k : Nat)
    (hn : n + chunk_size - 1 < size_t_mod) (hk : k < n)
    (hok : ∀ t : Nat, t < k → E.dflt_ok t = true) (hbad : E.dflt_ok k = false) :
    ∃ d h1, BaseDeque E h n = .ok d ∧ ctor_n E h n = .threw .elem_throw h1 ∧
      h1.destroyed = (List.range k).map d.subscript ++ h.destroyed ∧
      ((List.range n).map d.subscript).Nodup ∧
      (∀ i : Nat, i < n → h1.read (d.subscript i) = none) ∧
      (∀ p c, p.base = .blk c → h.next < c → c < h1.next → h1.read p = none) := by
  obtain ⟨d0, e0, hs, hsz, hfresh, hnx, hold, hraw, _, hds0⟩ := BaseDeque_spec E hA h n hn
  have hn' := hn
  simp only [chunk_size_eq, size_t_mod_eq] at hn'
  have hsub : ∀ i : Nat, i ≤ n → d0.subscript i = d0.slot i := fun i hi =>
    hs.subscript_eq E.dflt i (by simp only [chunk_size_eq, size_t_mod_eq]; omega)
  obtain ⟨H1, hl, n1, ds1, _, _, r1, o1⟩ :=
    (default_loop_run E d0 hs (d0.m_size + 1) 0 0 d0.heap (le_refl _) (by omega)
      (by push_cast; omega)).2 k (by rw [hsz]; omega)
      (fun t ht => by rw [zero_add]; exact hok t ht) (by rw [zero_add]; exact hbad)
  simp only [zero_add] at hl r1 o1
  obtain ⟨H2, e2, n2, _, _, ds2, r2, o2⟩ :=
    unwind_loop_spec E d0 hs k (n + 1) H1 (by omega) (by omega)
  obtain ⟨t1, _, t3, t4⟩ := ChunkArray_dtor_same d0.arr H2
  have he : ctor_n E h n = .threw .elem_throw (ChunkArray_dtor d0.arr H2) := by
    unfold ctor_n
    rw [e0]
    simp only []
    rw [hs.shape_begin_eq E.dflt, hs.shape_end_eq E.dflt, ← hsz, hl]
    simp only []
    rw [hsz, e2]
  have hrd : ∀ p, (ChunkArray_dtor d0.arr H2).read p = H2.read p := by
    intro p; unfold Heap.read; rw [t3]
  have hnone : ∀ p c, p.base = .blk c → h.next < c → c < d0.heap.next →
      (ChunkArray_dtor d0.arr H2).read p = none := by
    intro p c hpc hc0 hc1
    rw [hrd]
    by_cases hp : ∃ j : Int, 0 ≤ j ∧ j < k ∧ p = d0.slot j
    · obtain ⟨j, hj0, hj1, rfl⟩ := hp
      exact r2 j hj0 hj1
    · have hp' : ∀ j : Int, 0 ≤ j → j < k → p ≠ d0.slot j := fun j a b e => hp ⟨j, a, b, e⟩
      rw [o2 p hp', o1 p hp', Heap.read_blk _ _ c hpc]
      exact hraw c hc0 hc1 _
  refine ⟨d0, _, e0, he, ?_, ?_, ?_, ?_⟩
  · rw [t4, ds2, ds1, hds0]
    congr 1
    apply List.map_congr_left
    intro t ht
    exact (hsub t (by have := List.mem_range.1 ht; omega)).symm
  · have e : (List.range n).map d0.subscript
        = (List.range n).map (fun t : Nat => d0.slot (t : Int)) := by
      apply List.map_congr_left
      intro t ht
      exact hsub t (by have := List.mem_range.1 ht; omega)
    rw [e]
    refine List.Nodup.map_on ?_ (List.nodup_range _)
    intro x hx y hy e
    have hx' := List.mem_range.1 hx
    have hy' := List.mem_range.1 hy
    have := hs.shape_slot_inj E.dflt x y (by omega) (by omega) (by omega) (by omega) e
    omega
  · intro i hi
    rw [hsub i (by omega)]
    obtain ⟨c, hc, hcl⟩ := hs.shape_slot_blk E.dflt i (by omega) (by omega)
    obtain ⟨i0, i1⟩ := hs.slot_index i (by omega) (by omega)
    exact hnone _ c hc (hfresh _ c i0 i1 hc) hcl
  · intro p c hpc hc0 hc1
    rw [t1, n2, n1] at hc1
    exact hnone p c hpc hc0 hc1

end Deque

theorem ctor_n_unwinds_witness :
    ∃ d h1, Deque.BaseDeque throwing_env demo_heap 100 = .ok d ∧
      Deque.ctor_n throwing_env demo_heap 100 = .threw .elem_throw h1 ∧
      h1.destroyed = (List.range 16).map d.subscript ++ demo_heap.destroyed ∧
      ((List.range 100).map d.subscript).Nodup ∧
      (∀ i : Nat, i < 100 → h1.read (d.subscript i) = none) ∧
      (∀ p c, p.base = .blk c → demo_heap.next < c → c < h1.next → h1.read p = none) :=
  Deque.ctor_n_unwinds throwing_env (fun _ => rfl) demo_heap 100 16 (by decide) (by decide)
    (by decide) rfl

theorem demo_fill_reachable_of (E : Env Nat) :
    ∀ (n : Nat) (d : Deque Nat), Deque.Reachable E d → demo_fill_ok E n d = true →
      Deque.Reachable E (demo_fill E n d) := by
  intro n
  induction n with
  | zero => intro d h _; exact h
  | succ n ih =>
    intro d h hok
    unfold demo_fill_ok at hok
    rw [Bool.and_eq_true] at hok
    unfold demo_fill
    rcases hp : d.push_back E n with d1 | ⟨e, d1⟩
    · rw [hp] at hok
      exact ih d1 (Deque.Reachable.push_back_ok d d1 n h hp) hok.2
    · rw [hp] at hok
      exact absurd hok.1 (by simp [Res.is_ok])

theorem demo_nearly_full_reachable : Deque.Reachable scarce_env demo_nearly_full :=
  demo_fill_reachable_of scarce_env 31 _ (Deque.Reachable.ctor_default demo_heap _ rfl) rfl

/-- C19: under an allocator that fails on its fifth request, `Deque<Nat>()` followed by
31 calls of `push_back` holds 31 elements; the next `push_back(99)` throws
`std::bad_alloc`, yet leaves `size() == 32`, the value `99` constructed as element of
index `31`, `m_end` one past the last slot of its chunk and `cur_end` at a handle that
is null.  Likewise the first `push_back` on `Deque<Nat>()`, when the allocation of the
first chunk fails, leaves `cur_begin` and `cur_end` at a null handle while `m_begin` and
`m_end` point into the one-element block. -/
theorem push_back_alloc_failure_mutates :
    Deque.Reachable scarce_env demo_nearly_full ∧ demo_nearly_full.size = 31 ∧
      demo_nearly_full.push_back scarce_env 99 = .threw .bad_alloc demo_starved ∧
      demo_starved.size = 32 ∧
      demo_starved.heap.read (demo_starved.subscript 31) = some 99 ∧
      demo_starved.m_end = ⟨Handle.blk 3, 32⟩ ∧
      demo_starved.arr.slots demo_starved.arr.cur_end = Handle.null ∧
      (demo_empty tiny_env).push_back tiny_env 99 = .threw .bad_alloc demo_stranded ∧
      demo_stranded.arr.slots demo_stranded.arr.cur_begin = Handle.null ∧
      demo_stranded.arr.slots demo_stranded.arr.cur_end = Handle.null ∧
      demo_stranded.m_begin = ⟨Handle.blk 1, 0⟩ ∧ demo_stranded.m_end = ⟨Handle.blk 1, 0⟩ :=
  ⟨demo_nearly_full_reachable, rfl, rfl, rfl, rfl, rfl, rfl, rfl, rfl, rfl, rfl, rfl⟩

/-- C20: the state left by the throwing `push_back(99)` of C19 is reachable through the
public operations and breaks the invariant: `m_end` is at offset `32`, outside
`[0, 32)`, it does not lie in the chunk addressed by `cur_end`, whose handle is null,
and `size()` is `32` while `32 * (cur_end - cur_begin) + offset(m_end) -
offset(m_begin)` is `64`. -/
theorem failed_push_back_breaks_invariant :
    Deque.Reachable scarce_env demo_starved ∧
      ¬ (demo_starved.m_end.off < 32) ∧
      demo_starved.m_end.base ≠ demo_starved.arr.slots demo_starved.arr.cur_end ∧
      demo_starved.size = 32 ∧
      32 * (demo_starved.arr.cur_end - demo_starved.arr.cur_begin) + demo_starved.m_end.off
        - demo_starved.m_begin.off = 64 ∧
      ¬ demo_starved.Inv :=
  ⟨Deque.Reachable.push_back_threw demo_nearly_full demo_starved 99 .bad_alloc
      demo_nearly_full_reachable rfl,
    by decide, by decide, rfl, by decide,
    fun h => absurd h.me_off.2 (by decide)⟩

namespace ChunkArray

end ChunkArray

namespace Deque

/-- C21: in every reachable state (all allocations succeeding) every handle of the
active window `[cur_begin, cur_end]` is non-null; it is the address of a block that
has been allocated. -/
theorem window_handles_allocated (E : Env α) (hA : ∀ k, E.alloc_ok k = true) (d : Deque α)
    (hr : Reachable E d) :
    ∀ i : Int, d.arr.cur_begin ≤ i → i ≤ d.arr.cur_end →
      (d.arr.slots i).is_null = false ∧ ∃ b, d.arr.slots i = .blk b ∧ b < d.heap.next := by
  intro i h0 h1
  obtain ⟨b, hb, hlt⟩ := (hr.inv hA).win_blk i h0 h1
  exact ⟨by rw [hb]; rfl, b, hb, hlt⟩

theorem Inv.iterate_inc {d : Deque α} (hi : d.Inv) :
    ∀ i : Nat, i ≤ d.m_size → (BaseIterator.inc d.arr.slots)^[i] d.begin = d.iter_at i := by
  intro i
  induction i with
  | zero => intro _; rw [Function.iterate_zero, id_eq, hi.begin_eq]; rfl
  | succ n ih =>
    intro h
    rw [Function.iterate_succ_apply', ih (by omega), hi.iter_inc n (by omega) (by omega)]
    congr 1

/-- C27: for every reachable container (allocations succeeding, the size fitting
`size_t` with a chunk to spare) and every `i <= size()`, applying `++` to `begin()`
`i` times gives the iterator `begin() + i`, member for member (same element pointer,
same handle index); for `i < size()` it points to the slot `operator[](i)` refers to,
and for `i == size()` it is `end()`. -/
theorem increments_reach (E : Env α) (hA : ∀ k, E.alloc_ok k = true) (d : Deque α)
    (hr : Reachable E d) (hfit : d.size + chunk_size ≤ size_t_mod) (i : Nat)
    (hi : i ≤ d.size) :
    (BaseIterator.inc d.arr.slots)^[i] d.begin = d.begin.plus d.arr.slots i ∧
    (i < d.size → ((BaseIterator.inc d.arr.slots)^[i] d.begin).item = d.subscript i) ∧
    (i = d.size → (BaseIterator.inc d.arr.slots)^[i] d.begin = d.end_) := by
  have hinv := hr.inv hA
  simp only [size] at hfit hi ⊢
  simp only [chunk_size_eq, size_t_mod_eq] at hfit
  rw [hinv.iterate_inc i hi, hinv.begin_plus i (by omega) (by omega)]
  refine ⟨rfl, ?_, ?_⟩
  · intro hlt
    rw [subscript_eq_slot d hinv i (by simp only [chunk_size_eq, size_t_mod_eq]; omega)]
    rfl
  · intro he
    rw [hinv.end_eq, he]

end Deque

theorem window_handles_allocated_witness :
    (demo_three.arr.slots demo_three.arr.cur_end).is_null = false ∧
      ∃ b, demo_three.arr.slots demo_three.arr.cur_end = .blk b ∧ b < demo_three.heap.next :=
  Deque.window_handles_allocated demo_env (fun _ => rfl) demo_three demo_three_reachable
    demo_three.arr.cur_end (by decide) (le_refl _)

theorem increments_reach_witness :
    (BaseIterator.inc demo_three.arr.slots)^[2] demo_three.begin
        = demo_three.begin.plus demo_three.arr.slots (2 : Nat) ∧
    (2 < demo_three.size →
      ((BaseIterator.inc demo_three.arr.slots)^[2] demo_three.begin).item
        = demo_three.subscript 2) ∧
    (2 = demo_three.size →
      (BaseIterator.inc demo_three.arr.slots)^[2] demo_three.begin = demo_three.end_) :=
  Deque.increments_reach demo_env (fun _ => rfl) demo_three demo_three_reachable (by decide) 2
    (by decide)

namespace ChunkArray

/-- C24 (amended): when `update()` regrows a handle array of
`old = end - begin + 1` handles (the allocation succeeding), the new array holds
`3 * old + 1` handles: the handles before `end` stand `old` places further, in the same
order, the handle of `end` stands at the new `end`, every other slot is null; only the
old handle array is freed; `cur_begin` and `cur_end` move by `old`, so for every
`k <= cur_end - cur_begin` with `cur_begin + k < end` the handle at `cur_begin + k`
after the regrow is the one that was at `cur_begin + k` before; and when `cur_end` was
`end`, the handle at the new `cur_end` is null. -/
theorem regrow_keeps_handles (E : Env α) (h : Heap α) (a : ChunkArray)
    (h0 : a.begin ≤ a.cur_begin) (h1 : a.cur_begin ≤ a.cur_end) (h2 : a.cur_end ≤ a.end_)
    (hreg : ¬ 3 * (a.cur_end - a.cur_begin + 1) < a.end_ - a.begin + 1)
    (hal : E.alloc_ok h.next = true) :
    ∃ a1 h1, a.update E h = .ok (a1, h1) ∧
      a1.end_ - a1.begin + 1 = 3 * (a.end_ - a.begin + 1) + 1 ∧
      (∀ i : Int, a.begin ≤ i → i < a.end_ →
        a1.slots (a.end_ - a.begin + 1 + i) = a.slots i) ∧
      a1.slots a1.end_ = a.slots a.end_ ∧
      (∀ k : Int, a1.begin ≤ k → k < a1.end_ →
        ¬ (a.end_ - a.begin + 1 ≤ k ∧ k < a.end_ - a.begin + 1 + (a.end_ - a.begin)) →
        a1.slots k = .null) ∧
      h1.freed = .blk a.store :: h.freed ∧ h1.mem = h.mem ∧ h1.cap = h.cap ∧
      a1.cur_begin = a.end_ - a.begin + 1 + a.cur_begin ∧
      a1.cur_end = a.end_ - a.begin + 1 + a.cur_end ∧
      (∀ k : Int, 0 ≤ k → k ≤ a.cur_end - a.cur_begin → a.cur_begin + k < a.end_ →
        a1.slots (a1.cur_begin + k) = a.slots (a.cur_begin + k)) ∧
      (a.cur_end = a.end_ → a1.slots a1.cur_end = .null) := by
  simp only [begin, sub_zero, zero_add] at h0 hreg ⊢
  unfold update
  simp only [begin, sub_zero]
  rw [if_neg hreg]
  unfold reallocate Heap.alloc_handles
  simp only [hal, if_true, begin, sub_zero, zero_add, Heap.free]
  refine ⟨_, _, rfl, ?_, ?_, ?_, ?_, rfl, rfl, rfl, ?_, ?_, ?_, ?_⟩
  · simp only
  · intro i hi0 hi1
    simp only [set_slot]
    rw [if_neg (by omega), if_pos (by omega)]
    congr 1; omega
  · simp only [set_slot, if_true]
  · intro k hk0 hk1 hk
    simp only [set_slot] at hk1 ⊢
    rw [if_neg (by omega), if_neg hk]
  · simp only
  · simp only; omega
  · intro k hk0 hk1 hk2
    simp only [set_slot]
    rw [if_neg (by omega), if_pos (by omega)]
    congr 1; omega
  · intro hce
    simp only [set_slot]
    rw [if_neg (by omega), if_neg (by omega)]

end ChunkArray

/-- C24, as stated, fails: the first `push_back` on `Deque<Nat>()` regrows a handle
array whose window is the single slot `end`; afterwards the handle at `cur_begin`,
which is also `cur_end`, is null, while the handle that was there stands at the new
`end`. -/
theorem regrow_leaves_sentinel :
    ∃ a1 h1, (demo_empty demo_env).arr.update demo_env (demo_empty demo_env).heap
        = .ok (a1, h1) ∧
      (demo_empty demo_env).arr.slots ((demo_empty demo_env).arr.cur_begin + 0) = .blk 1 ∧
      a1.slots (a1.cur_begin + 0) = .null ∧ a1.slots a1.end_ = .blk 1 ∧
      ¬ (∀ k : Int, 0 ≤ k →
        k ≤ (demo_empty demo_env).arr.cur_end - (demo_empty demo_env).arr.cur_begin →
        a1.slots (a1.cur_begin + k)
          = (demo_empty demo_env).arr.slots ((demo_empty demo_env).arr.cur_begin + k)) :=
  ⟨_, _, rfl, rfl, rfl, rfl, fun h => absurd (h 0 (by decide) (by decide)) (by decide)⟩

theorem regrow_keeps_handles_witness :
    ∃ a1 h1, demo_full.arr.update demo_env demo_full.heap = .ok (a1, h1) ∧
      a1.end_ - a1.begin + 1 = 3 * (demo_full.arr.end_ - demo_full.arr.begin + 1) + 1 ∧
      (∀ i : Int, demo_full.arr.begin ≤ i → i < demo_full.arr.end_ →
        a1.slots (demo_full.arr.end_ - demo_full.arr.begin + 1 + i)
          = demo_full.arr.slots i) ∧
      a1.slots a1.end_ = demo_full.arr.slots demo_full.arr.end_ ∧
      (∀ k : Int, a1.begin ≤ k → k < a1.end_ →
        ¬ (demo_full.arr.end_ - demo_full.arr.begin + 1 ≤ k ∧
          k < demo_full.arr.end_ - demo_full.arr.begin + 1
            + (demo_full.arr.end_ - demo_full.arr.begin)) →
        a1.slots k = .null) ∧
      h1.freed = .blk demo_full.arr.store :: demo_full.heap.freed ∧
      h1.mem = demo_full.heap.mem ∧ h1.cap = demo_full.heap.cap ∧
      a1.cur_begin = demo_full.arr.end_ - demo_full.arr.begin + 1 + demo_full.arr.cur_begin ∧
      a1.cur_end = demo_full.arr.end_ - demo_full.arr.begin + 1 + demo_full.arr.cur_end ∧
      (∀ k : Int, 0 ≤ k → k ≤ demo_full.arr.cur_end - demo_full.arr.cur_begin →
        demo_full.arr.cur_begin + k < demo_full.arr.end_ →
        a1.slots (a1.cur_begin + k) = demo_full.arr.slots (demo_full.arr.cur_begin + k)) ∧
      (demo_full.arr.cur_end = demo_full.arr.end_ → a1.slots a1.cur_end = .null) :=
  ChunkArray.regrow_keeps_handles demo_env demo_full.heap demo_full.arr (by decide)
    (by decide) (by decide) (by decide) rfl

/-- C26: building the handle array for 40 elements under an allocator that fails on its
fourth request (the handle array and the two chunks are served, the one-element block
is not) throws `std::bad_alloc`.  The handler calls `delete[]` on `begin[0]`,
`begin[1]`, then on `begin[2]`, a slot that was never assigned, then on the handle
array; the destructor then calls `delete[]` on the same four once more: eight calls
where the three allocations made call for three.  When instead the second chunk is the
allocation that fails, the handler frees the first chunk and the handle array, and the
destructor then calls `delete[]` on the first chunk again, on `begin[1]` and `begin[2]`,
which were never assigned, and on the handle array again: six calls for two
allocations.  The log lists the latest call first. -/
theorem ctor_frees_unassigned_slot :
    (∃ h1, ChunkArray.ctor tiny_env demo_heap 40 = .threw .bad_alloc h1 ∧
      h1.freed = [Handle.blk 0, Handle.wild, Handle.blk 2, Handle.blk 1,
        Handle.blk 0, Handle.wild, Handle.blk 2, Handle.blk 1]) ∧
    (∃ h1, ChunkArray.ctor { demo_env with alloc_ok := fun k => decide (k < 2) } demo_heap 40
        = .threw .bad_alloc h1 ∧
      h1.freed = [Handle.blk 0, Handle.wild, Handle.wild, Handle.blk 1,
        Handle.blk 0, Handle.blk 1]) :=
  ⟨⟨_, rfl, rfl⟩, ⟨_, rfl, rfl⟩⟩

namespace ChunkArray

theorem Layout.heap_ext {a : ChunkArray} {h : Heap α} (hl : Layout a h) (h1 : Heap α)
    (hn : h.next ≤ h1.next) (hc : ∀ b, b < h.next → h1.cap b = h.cap b)
    (hr : ∀ p, p.base = a.slots a.end_ → h1.read p = h.read p ∨ h1.read p = none) :
    Layout a h1 := by
  refine ⟨hl.end_nonneg, hl.inj, ?_, hl.sent, ?_, ?_⟩
  · intro i h0 h1'
    rcases hl.own i h0 h1' with hnull | ⟨b, hb, hlt⟩
    · exact Or.inl hnull
    · exact Or.inr ⟨b, hb, by omega⟩
  · intro i b h0 h1' hb
    rcases hl.own i h0 h1' with hnull | ⟨b', hb', hlt⟩
    · rw [hnull] at hb; cases hb
    · rw [hb'] at hb; cases hb
      rw [hc b hlt]
      exact hl.caps i b h0 h1' hb'
  · intro p hp
    rcases hr p hp with e | e
    · rw [e]; exact hl.raw p hp
    · exact e

theorem Layout.store_at {a : ChunkArray} {h : Heap α} (hl : Layout a h) (p : Ptr) (v : α)
    (hp : p.base ≠ a.slots a.end_) : Layout a (h.store p v) := by
  refine hl.heap_ext _ (by rw [Heap.store_next]) (fun b _ => by rw [Heap.store_cap]) ?_
  intro q hq
  exact Or.inl (Heap.read_store_ne _ _ _ _ (fun e => hp (by rw [← e]; exact hq)))

theorem Layout.destroy {a : ChunkArray} {h : Heap α} (hl : Layout a h) (p : Ptr) :
    Layout a (h.destroy p) := by
  refine hl.heap_ext _ (by rw [Heap.destroy_next]) (fun b _ => by rw [Heap.destroy_cap]) ?_
  intro q _
  by_cases e : q = p
  · rw [e]; exact Or.inr (Heap.read_destroy_same _ _)
  · exact Or.inl (Heap.read_destroy_ne _ _ _ e)

theorem Layout.rearr {a a1 : ChunkArray} {h h1 : Heap α} (hl : Layout a h) (hr : Rearr a a1)
    (hle : a.cur_begin ≤ a.cur_end) (hm : h1.mem = h.mem) (hc : h1.cap = h.cap)
    (hn : h.next ≤ h1.next) : Layout a1 h1 := by
  have h1' := hr.cb_pos; have h2' := hr.ce_lt; have h3' := hr.len
  have hend := hl.end_nonneg
  refine ⟨by omega, hr.inj, ?_, by rw [hr.sent]; exact hl.sent, ?_, ?_⟩
  · intro i h0 hi1
    rcases hr.old i h0 hi1 with hnull | ⟨j, hj0, hj1, hj⟩
    · exact Or.inl hnull
    · rw [hj]
      rcases hl.own j hj0 hj1 with hnull | ⟨b, hb, hlt⟩
      · exact Or.inl hnull
      · exact Or.inr ⟨b, hb, by omega⟩
  · intro i b h0 hi1 hb
    rcases hr.old i h0 hi1 with hnull | ⟨j, hj0, hj1, hj⟩
    · rw [hnull] at hb; cases hb
    · rw [hj] at hb
      rw [hc, hl.caps j b hj0 hj1 hb]
      have hiff : i = a1.end_ ↔ j = a.end_ := by
        constructor
        · intro e
          rw [e, hr.sent] at hj
          exact hl.inj j a.end_ b hj0 hj1 hend (le_refl _) hb (by rw [hj]; exact hb)
        · intro e
          have hs : a1.slots a1.end_ = .blk b := by rw [hr.sent, ← e]; exact hb
          exact hr.inj i a1.end_ b h0 hi1 (by omega) (le_refl _) (by rw [hj]; exact hb) hs
      by_cases e : i = a1.end_
      · rw [if_pos e, if_pos (hiff.1 e)]
      · rw [if_neg e, if_neg (fun e' => e (hiff.2 e'))]
  · intro p hp
    rw [hr.sent] at hp
    have := hl.raw p hp
    unfold Heap.read at this ⊢
    rw [hm]; exact this

end ChunkArray

namespace Deque

/-- The statement `if (!*p) *p = new ...` keeps the layout: a block it allocates has
`chunk_size` slots. -/
theorem ensure_chunk_layout (E : Env α) (hA : ∀ k, E.alloc_ok k = true) (d : Deque α) (k : Int)
    (hk0 : 0 ≤ k) (hk1 : k ≤ d.arr.end_) (hl : ChunkArray.Layout d.arr d.heap) :
    ∃ d2, d.ensure_chunk E k = .ok d2 ∧ Filled d d2 k ∧ ChunkArray.Layout d2.arr d2.heap := by
  obtain ⟨d2, e2, hf⟩ := ensure_chunk_spec E hA d k hk0 hk1 hl.inj hl.own
  refine ⟨d2, e2, hf, ?_⟩
  have hend := hl.end_nonneg
  obtain ⟨bs, hbs⟩ := hl.sent
  have hfresh : d2.arr.slots k = d.arr.slots k ∨
      (d.arr.slots k = .null ∧ d2.arr.slots k = .blk d.heap.next ∧
        d2.heap.cap d.heap.next = chunk_size) := by
    unfold ensure_chunk at e2
    rcases hown : d.arr.slots k with _ | _ | b
    · rw [hown] at e2
      simp only [Handle.is_null_null, if_true, Heap.alloc_ok E hA] at e2
      cases e2
      right
      simp [ChunkArray.set_slot]
    · rw [hown] at e2
      simp only [Handle.is_null] at e2
      cases e2
      exact Or.inl hown
    · rw [hown] at e2
      simp only [Handle.is_null_blk, Bool.false_eq_true, if_false] at e2
      cases e2
      exact Or.inl hown
  have hke : d.arr.slots k = .null → k ≠ d.arr.end_ := by
    intro hn e; rw [e, hbs] at hn; cases hn
  have hsent : d2.arr.slots d2.arr.end_ = d.arr.slots d.arr.end_ := by
    rw [hf.end_]
    by_cases e : d.arr.end_ = k
    · rw [e]; exact hf.keep (by rw [← e, hbs]; simp)
    · exact hf.other _ e
  refine ⟨by rw [hf.end_]; exact hend, hf.inj, hf.owned, by rw [hsent]; exact hl.sent, ?_, ?_⟩
  · intro i b h0 h1 hb
    rw [hf.end_] at h1 ⊢
    by_cases hik : i = k
    · rcases hfresh with e | ⟨hn, e, hcap⟩
      · rw [hik, e] at hb
        rcases hl.own k hk0 hk1 with hnull | ⟨b', hb', hlt⟩
        · rw [hnull] at hb; cases hb
        · rw [hb'] at hb; cases hb
          rw [hf.cap b hlt, hik]
          exact hl.caps k b hk0 hk1 hb'
      · rw [hik, e] at hb
        cases hb
        rw [hcap, if_neg (by rw [hik]; exact hke hn)]
    · rw [hf.other i hik] at hb
      rcases hl.own i h0 h1 with hnull | ⟨b', hb', hlt⟩
      · rw [hnull] at hb; cases hb
      · rw [hb'] at hb; cases hb
        rw [hf.cap b hlt]
        exact hl.caps i b h0 h1 hb'
  · intro p hp
    rw [hsent] at hp
    have hr := hl.raw p hp
    rcases hl.own d.arr.end_ hend (le_refl _) with hnull | ⟨b', hb', hlt⟩
    · rw [hnull] at hbs; cases hbs
    · have hpb : p.base = .blk b' := by rw [hp, hb']
      rw [Heap.read_blk _ _ b' hpb] at hr ⊢
      rw [hf.mem b' hlt]; exact hr

/-- A handle of the window before `end` is not the handle of `end`. -/
theorem Inv.ne_sentinel {d : Deque α} (hi : d.Inv) (i : Int) (h0 : d.arr.cur_begin ≤ i)
    (h1 : i ≤ d.arr.cur_end) (h2 : i < d.arr.end_) :
    d.arr.slots i ≠ d.arr.slots d.arr.end_ := by
  have := hi.cb_nonneg; have := hi.ce_le
  intro e
  obtain ⟨b, hb⟩ := hi.win i h0 h1
  have := hi.inj i d.arr.end_ b (by omega) (by omega) (by omega) (le_refl _) hb (by rw [← e, hb])
  omega

theorem update_layout (E : Env α) (hA : ∀ k, E.alloc_ok k = true) (d : Deque α) (hi : d.Inv)
    (hl : ChunkArray.Layout d.arr d.heap) (hedge : d.arr.cur_begin = 0 ∨ d.arr.cur_end = d.arr.end_) :
    ∀ d1, d.update E = .ok d1 → ChunkArray.Layout d1.arr d1.heap := by
  obtain ⟨a1, h1, he, hr, hm, hc, hn, _⟩ :=
    ChunkArray.arr_update_spec E hA d.heap d.arr hi.cb_nonneg hi.cb_le hi.ce_le hedge hi.inj
  have hl1 : ChunkArray.Layout a1 h1 := hl.rearr hr hi.cb_le hm hc hn
  have := hr.len; have := hr.cb_pos; have := hr.ce_lt; have := hi.cb_le
  intro d1 hd
  unfold update at hd
  rw [he] at hd
  simp only [] at hd
  by_cases c : d.m_end = (a1.slots a1.end_).plus 0
  · rw [if_pos c] at hd
    obtain ⟨d2, e2, _, hl2⟩ := ensure_chunk_layout E hA { d with arr := a1, heap := h1 }
      a1.cur_end (by omega) (by simp only; omega) hl1
    rw [e2] at hd
    simp only [] at hd
    split_ifs at hd <;> (cases hd; exact hl2)
  · rw [if_neg c] at hd
    cases hd
    exact hl1

/-- The private member `next_end` keeps the layout, and returns when no allocation
fails. -/
theorem next_end_layout (E : Env α) (hA : ∀ k, E.alloc_ok k = true) (d : Deque α)
    (h0 : 0 ≤ d.arr.cur_begin) (h1 : d.arr.cur_begin ≤ d.arr.cur_end)
    (hce : d.arr.cur_end < d.arr.end_) (hl : ChunkArray.Layout d.arr d.heap) :
    (∀ d1, d.next_end E = .ok d1 → ChunkArray.Layout d1.arr d1.heap) ∧
    (∀ e d1, d.next_end E = .threw e d1 → ChunkArray.Layout d1.arr d1.heap) := by
  unfold next_end
  simp only []
  split_ifs with c
  · obtain ⟨d3, e3, _, hl3⟩ := ensure_chunk_layout E hA
      { d with m_end := d.m_end.add 1, m_size := d.m_size + 1,
               arr := { d.arr with cur_end := d.arr.cur_end + 1 } }
      (d.arr.cur_end + 1) (by omega) (by simp only; omega)
      ⟨hl.end_nonneg, hl.inj, hl.own, hl.sent, hl.caps, hl.raw⟩
    rw [e3]
    exact ⟨fun d1 hd => (by cases hd; exact hl3), fun e d1 hd => (by cases hd)⟩
  · exact ⟨fun d1 hd => (by cases hd; exact hl), fun e d1 hd => (by cases hd)⟩

theorem pre_back_layout (E : Env α) (hA : ∀ k, E.alloc_ok k = true) (d : Deque α) (hi : d.Inv)
    (hl : ChunkArray.Layout d.arr d.heap) :
    ∃ d1, (if d.arr.cur_end = d.arr.end_ then d.update E else .ok d) = .ok d1 ∧ Ready d d1 ∧
      ChunkArray.Layout d1.arr d1.heap := by
  obtain ⟨d1, e1, hr⟩ := pre_back E hA d hi
  refine ⟨d1, e1, hr, ?_⟩
  by_cases hc : d.arr.cur_end = d.arr.end_
  · rw [if_pos hc] at e1
    exact update_layout E hA d hi hl (Or.inr hc) d1 e1
  · rw [if_neg hc] at e1
    cases e1
    exact hl

/-- The member `push_back` keeps the layout, whether it returns or throws. -/
theorem push_back_layout (E : Env α) (hA : ∀ k, E.alloc_ok k = true) (d : Deque α)
    (hi : d.Inv) (hl : ChunkArray.Layout d.arr d.heap) (v : α) :
    (∀ d1, d.push_back E v = .ok d1 → ChunkArray.Layout d1.arr d1.heap) ∧
    (∀ e d1, d.push_back E v = .threw e d1 → ChunkArray.Layout d1.arr d1.heap) := by
  obtain ⟨dU, hU, hr, hlU⟩ := pre_back_layout E hA d hi hl
  have hne : dU.m_end.base ≠ dU.arr.slots dU.arr.end_ := by
    rw [hr.inv.me_base]
    exact hr.inv.ne_sentinel _ hr.inv.cb_le (le_refl _) hr.ce_lt
  unfold push_back
  rw [hU]
  simp only [Heap.construct]
  by_cases hv : E.copy_ok v = true
  · simp only [hv, if_true]
    exact next_end_layout E hA _ hr.inv.cb_nonneg hr.inv.cb_le hr.ce_lt (hlU.store_at _ v hne)
  · simp only [hv]
    constructor
    · intro d1 h1; cases h1
    · intro e d1 h1; cases h1; exact hlU

end Deque

namespace ChunkArray

/-- The layout speaks of the handles and of `end` only: it does not depend on the
cursors. -/
theorem Layout.cursors {a a1 : ChunkArray} {h : Heap α} (hl : Layout a h)
    (hs : a1.slots = a.slots) (he : a1.end_ = a.end_) : Layout a1 h := by
  refine ⟨by rw [he]; exact hl.end_nonneg, ?_, ?_, by rw [he, hs]; exact hl.sent, ?_, ?_⟩
  · intro i j b; rw [he, hs]; exact hl.inj i j b
  · intro i; rw [he, hs]; exact hl.own i
  · intro i b; rw [he, hs]; exact hl.caps i b
  · intro p; rw [he, hs]; exact hl.raw p

/-- A heap that differs only in blocks other than the one-element block keeps the
layout. -/
theorem Layout.of_same_off {a : ChunkArray} {h h1 : Heap α} (hl : Layout a h) (P : Nat → Prop)
    (hP : ∀ b, P b → Handle.blk b ≠ a.slots a.end_) (hs : Heap.same_off P h h1) :
    Layout a h1 := by
  refine hl.heap_ext h1 (by rw [hs.1]) (fun b _ => by rw [hs.2.1]) ?_
  intro p hp
  left
  obtain ⟨bs, hbs⟩ := hl.sent
  have hpb : p.base = .blk bs := by rw [hp, hbs]
  rw [Heap.read_blk _ _ bs hpb, Heap.read_blk _ _ bs hpb,
    hs.2.2 bs (fun hPb => hP bs hPb hbs.symm)]

end ChunkArray

namespace Deque

/-- The slot of an element does not lie in the one-element block. -/
theorem Shape.slot_ne_sentinel {d : Deque α} (hs : d.Shape) (j : Int) (h0 : 0 ≤ j)
    (h1 : j < d.m_size) (p : Ptr) (hp : p.base = d.arr.slots d.arr.end_) : p ≠ d.slot j := by
  have := hs.cb_nonneg; have := hs.cb_le; have := hs.ce_le
  have := hs.mb_off; have := hs.me_off; have := hs.size_eq; have hms := hs.me_sentinel
  intro e
  have hlt : d.arr.cur_begin + (d.m_begin.off + j) / 32 < d.arr.end_ := by
    by_cases hc : d.arr.cur_end = d.arr.end_
    · have := hms hc
      omega
    · omega
  obtain ⟨b, hb⟩ := hs.win (d.arr.cur_begin + (d.m_begin.off + j) / 32) (by omega) (by omega)
  have hbase : p.base = .blk b := by rw [e]; exact hb
  rw [hp] at hbase
  have := hs.inj _ _ b (by omega) (by omega) (by omega) (le_refl _) hb hbase
  omega

theorem pre_front_layout (E : Env α) (hA : ∀ k, E.alloc_ok k = true) (d : Deque α)
    (hi : d.Inv) (hl : ChunkArray.Layout d.arr d.heap) :
    ∃ d1, (if d.arr.cur_begin = d.arr.begin then d.update E else .ok d) = .ok d1 ∧
      ReadyFront d d1 ∧ ChunkArray.Layout d1.arr d1.heap := by
  obtain ⟨d1, e1, hr⟩ := pre_front E hA d hi
  refine ⟨d1, e1, hr, ?_⟩
  by_cases hc : d.arr.cur_begin = d.arr.begin
  · rw [if_pos hc] at e1
    exact update_layout E hA d hi hl (Or.inl hc) d1 e1
  · rw [if_neg hc] at e1
    cases e1
    exact hl

/-- The member `push_front` keeps the layout, whether it returns or throws. -/
theorem push_front_layout (E : Env α) (hA : ∀ k, E.alloc_ok k = true) (d : Deque α)
    (hi : d.Inv) (hl : ChunkArray.Layout d.arr d.heap) (v : α) :
    (∀ d1, d.push_front E v = .ok d1 → ChunkArray.Layout d1.arr d1.heap) ∧
    (∀ e d1, d.push_front E v = .threw e d1 → ChunkArray.Layout d1.arr d1.heap) := by
  by_cases hob : d.m_begin.off = 0
  · have he : ¬ d.m_begin ≠ (d.arr.slots d.arr.cur_begin).plus 0 :=
      fun h => h (hi.m_begin_start_iff.2 hob)
    obtain ⟨dU, hU, hr, hlU⟩ := pre_front_layout E hA d hi hl
    have hcbU := hr.cb_pos; have hclU := hr.inv.cb_le; have hceU := hr.inv.ce_le
    obtain ⟨d2, h2, hf, hl2⟩ := ensure_chunk_layout E hA dU (dU.arr.cur_begin - 1) (by omega)
      (by omega) hlU
    unfold push_front
    rw [if_neg he, hU]
    simp only []
    rw [h2]
    simp only [Heap.construct]
    by_cases hv : E.copy_ok v = true
    · simp only [hv, if_true]
      constructor
      · intro d1 h1
        cases h1
        obtain ⟨b0, hb0⟩ := hf.at_k
        rw [← hf.cur_begin] at hb0
        have hne : ((((d2.arr.slots (d2.arr.cur_begin - 1)).plus chunk_size).add (-1)) : Ptr).base
            ≠ d2.arr.slots d2.arr.end_ := by
          simp only [Ptr.add_base, Handle.plus_base]
          intro e
          have hq := hl2.inj (d2.arr.cur_begin - 1) d2.arr.end_ b0
            (by rw [hf.cur_begin]; omega) (by rw [hf.cur_begin, hf.end_]; omega)
            hl2.end_nonneg (le_refl _) hb0 (by rw [← e]; exact hb0)
          rw [hf.cur_begin, hf.end_] at hq
          omega
        exact (hl2.store_at _ v hne).cursors rfl rfl
      · intro e d1 h1; cases h1
    · simp only [hv]
      constructor
      · intro d1 h1; cases h1
      · intro e d1 h1; cases h1; exact hl2
  · have hne : d.m_begin ≠ (d.arr.slots d.arr.cur_begin).plus 0 :=
      fun h => hob (hi.m_begin_start_iff.1 h)
    unfold push_front
    rw [if_pos hne]
    simp only [Heap.construct]
    by_cases hv : E.copy_ok v = true
    · simp only [hv, if_true]
      constructor
      · intro d1 h1
        cases h1
        have hlt : d.arr.cur_begin < d.arr.end_ := by
          have := hi.cb_le; have := hi.ce_le; have := hi.mb_off; have := hi.me_off
          have := hi.size_eq; have hms := hi.me_sentinel
          by_cases hc : d.arr.cur_end = d.arr.end_
          · have := hms hc
            omega
          · omega
        have hnb : (d.m_begin.add (-1)).base ≠ d.arr.slots d.arr.end_ := by
          rw [Ptr.add_base, hi.mb_base]
          exact hi.ne_sentinel _ (le_refl _) hi.cb_le hlt
        exact hl.store_at _ v hnb
      · intro e d1 h1; cases h1
    · simp only [hv]
      constructor
      · intro d1 h1; cases h1
      · intro e d1 h1; cases h1; exact hl

/-- The member `pop_back` keeps the layout. -/
theorem pop_back_layout (d : Deque α) (hl : ChunkArray.Layout d.arr d.heap) :
    ChunkArray.Layout d.pop_back.arr d.pop_back.heap := by
  unfold pop_back
  simp only []
  split_ifs
  · exact (hl.destroy _).cursors rfl rfl
  · exact hl.destroy _

/-- The member `pop_front` keeps the layout. -/
theorem pop_front_layout (d : Deque α) (hl : ChunkArray.Layout d.arr d.heap) :
    ChunkArray.Layout d.pop_front.arr d.pop_front.heap := by
  unfold pop_front
  simp only []
  split_ifs
  · exact (hl.destroy _).cursors rfl rfl
  · exact hl.destroy _

/-- The loop of `erase` writes only to the slots from the erased position up to the one
before the last, whatever its outcome. -/
theorem erase_loop_keep (E : Env α) (d : Deque α) (hi : d.Inv) :
    ∀ (fuel : Nat) (i : Int) (H : Heap α), 0 ≤ i → i < d.m_size →
      (∀ H1, erase_loop E d.arr.slots (d.iter_at d.m_size) fuel (d.iter_at i) H = .ok H1 →
        H1.next = H.next ∧ H1.cap = H.cap ∧
        ∀ p, (∀ j : Int, i ≤ j → j < d.m_size - 1 → p ≠ d.slot j) → H1.read p = H.read p) ∧
      (∀ e H1, erase_loop E d.arr.slots (d.iter_at d.m_size) fuel (d.iter_at i) H
          = .threw e H1 →
        H1.next = H.next ∧ H1.cap = H.cap ∧
        ∀ p, (∀ j : Int, i ≤ j → j < d.m_size - 1 → p ≠ d.slot j) → H1.read p = H.read p) := by
  intro fuel
  induction fuel with
  | zero =>
    intro i H h0 h1
    constructor
    · intro H1 h; simp [erase_loop] at h
    · intro e H1 h
      simp only [erase_loop, Res.threw.injEq] at h
      rw [← h.2]
      exact ⟨rfl, rfl, fun _ _ => rfl⟩
  | succ n ih =>
    intro i H h0 h1
    unfold erase_loop
    rw [hi.iter_plus i 1 h0 (by omega) (by omega) (by omega), iter_at_item, iter_at_item]
    by_cases hik : i + 1 = d.m_size
    · have hc : ¬ d.slot (i + 1) ≠ d.slot d.m_size := by rw [hik]; simp
      rw [if_neg hc]
      exact ⟨fun H1 h => (by cases h; exact ⟨rfl, rfl, fun _ _ => rfl⟩),
        fun e H1 h => (by cases h)⟩
    · have hc : d.slot (i + 1) ≠ d.slot d.m_size := by
        intro h
        exact hik (hi.slot_inj (i + 1) d.m_size (by omega) (by omega) (by omega) (le_refl _) h)
      rw [if_pos hc]
      rcases hr : H.read (d.slot (i + 1)) with _ | x
      · simp only []
        exact ⟨fun H1 h => (by cases h),
          fun e H1 h => (by cases h; exact ⟨rfl, rfl, fun _ _ => rfl⟩)⟩
      · simp only [Heap.assign]
        by_cases ha : E.assign_ok x = true
        · simp only [ha, if_true]
          rw [hi.iter_inc i h0 h1, iter_at_item]
          obtain ⟨k1, k2⟩ := ih (i + 1) (H.store (d.slot i) x) (by omega) (by omega)
          constructor
          · intro H1 h
            obtain ⟨n2, c2, f2⟩ := k1 H1 h
            refine ⟨by rw [n2, Heap.store_next], by rw [c2, Heap.store_cap], ?_⟩
            intro p hp
            rw [f2 p (fun j hj1 hj2 => hp j (by omega) hj2)]
            exact Heap.read_store_ne _ _ _ _ (hp i (le_refl _) (by omega))
          · intro e H1 h
            obtain ⟨n2, c2, f2⟩ := k2 e H1 h
            refine ⟨by rw [n2, Heap.store_next], by rw [c2, Heap.store_cap], ?_⟩
            intro p hp
            rw [f2 p (fun j hj1 hj2 => hp j (by omega) hj2)]
            exact Heap.read_store_ne _ _ _ _ (hp i (le_refl _) (by omega))
        · simp only [ha]
          exact ⟨fun H1 h => (by cases h),
            fun e H1 h => (by cases h; exact ⟨rfl, rfl, fun _ _ => rfl⟩)⟩

/-- The member `erase` keeps the layout, whether it returns or throws. -/
theorem erase_layout (E : Env α) (d : Deque α) (hi : d.Inv) (hl : ChunkArray.Layout d.arr d.heap)
    (k : Nat) (hk : k < d.m_size) :
    (∀ r d1, d.erase E (d.begin.plus d.arr.slots k) = .ok (r, d1) → ChunkArray.Layout d1.arr d1.heap) ∧
    (∀ e d1, d.erase E (d.begin.plus d.arr.slots k) = .threw e d1 →
      ChunkArray.Layout d1.arr d1.heap) := by
  unfold erase
  by_cases hc : (d.begin.plus d.arr.slots k).eq d.begin = true
  · rw [if_pos hc]
    exact ⟨fun r d1 h => (by cases h; exact pop_front_layout d hl), fun e d1 h => (by cases h)⟩
  · rw [if_neg hc]
    have hkeep := erase_loop_keep E d hi (d.m_size + 1) k d.heap (by omega) (by omega)
    rw [← hi.begin_plus k (by omega) (by omega), ← hi.end_eq] at hkeep
    have hlay : ∀ H1 : Heap α, H1.next = d.heap.next → H1.cap = d.heap.cap →
        (∀ p, (∀ j : Int, (k : Int) ≤ j → j < d.m_size - 1 → p ≠ d.slot j) →
          H1.read p = d.heap.read p) → ChunkArray.Layout d.arr H1 := by
      intro H1 n1 c1 f1
      refine hl.heap_ext H1 (by rw [n1]) (fun b _ => by rw [c1]) ?_
      intro p hp
      left
      exact f1 p (fun j hj0 hj1 => hi.shape.slot_ne_sentinel j (by omega) (by omega) p hp)
    rcases hlp : erase_loop E d.arr.slots d.end_ (d.m_size + 1) (d.begin.plus d.arr.slots k)
      d.heap with H1 | ⟨e1, H1⟩
    · obtain ⟨n1, c1, f1⟩ := hkeep.1 H1 hlp
      have hl1 : ChunkArray.Layout ({ d with heap := H1 } : Deque α).arr
          ({ d with heap := H1 } : Deque α).heap := hlay H1 n1 c1 f1
      exact ⟨fun r d1 h => (by cases h; exact pop_back_layout _ hl1),
        fun e d1 h => (by cases h)⟩
    · obtain ⟨n1, c1, f1⟩ := hkeep.2 e1 H1 hlp
      exact ⟨fun r d1 h => (by cases h),
        fun e d1 h => (by cases h; exact hlay H1 n1 c1 f1)⟩

end Deque

namespace BaseIterator

theorem Based.dec {s : Int → Handle} {P : Nat → Prop} {it : BaseIterator}
    (h : Based s P it) : Based s P (it.dec s) := by
  obtain ⟨h1, h2, h3, h4⟩ := h
  unfold BaseIterator.dec
  split_ifs with hc
  · exact ⟨by simp only; omega, by simp only; omega, rfl, h4⟩
  · exact ⟨h1, h2, h3, h4⟩

theorem Based.sum {s : Int → Handle} {P : Nat → Prop} {it : BaseIterator}
    (h : Based s P it) (N diff border : Int) (hb0 : it.first ≤ border)
    (hb1 : border ≤ it.last) : Based s P (it.sum s N diff border) := by
  obtain ⟨h1, h2, h3, h4⟩ := h
  unfold BaseIterator.sum
  simp only
  split_ifs with hc
  · exact ⟨hc.1, hc.2, rfl, h4⟩
  · exact ⟨hb0, hb1, rfl, h4⟩

theorem Based.plus {s : Int → Handle} {P : Nat → Prop} {it : BaseIterator}
    (h : Based s P it) (diff : Int) : Based s P (it.plus s diff) := by
  have h1 := h.1; have h2 := h.2.1
  unfold BaseIterator.plus
  split_ifs
  · exact h.sum _ _ _ (by omega) (le_refl _)
  · exact h.sum _ _ _ (le_refl _) (by omega)

end BaseIterator

namespace Deque

/-- The loop of `insert` writes only to blocks of the window of its iterator, whatever
its outcome. -/
theorem insert_loop_frame (E : Env α) (s : Int → Handle) (P : Nat → Prop)
    (ans : BaseIterator) :
    ∀ (fuel : Nat) (it : BaseIterator) (H : Heap α), it.Based s P →
      (∀ H1, insert_loop E s ans fuel it H = .ok H1 → Heap.same_off P H H1) ∧
      (∀ e H1, insert_loop E s ans fuel it H = .threw e H1 → Heap.same_off P H H1) := by
  intro fuel
  induction fuel with
  | zero =>
    intro it H _
    constructor
    · intro H1 h; simp [insert_loop] at h
    · intro e H1 h
      simp only [insert_loop, Res.threw.injEq] at h
      rw [← h.2]
      exact Heap.same_off_refl P H
  | succ n ih =>
    intro it H hb
    unfold insert_loop
    by_cases hc : it.item ≠ ans.item
    · rw [if_pos hc]
      rcases hr : H.read (it.minus s 1).item with _ | x
      · simp only []
        exact ⟨fun H1 h => (by cases h),
          fun e H1 h => (by cases h; exact Heap.same_off_refl P H)⟩
      · simp only [Heap.assign]
        by_cases ha : E.assign_ok x = true
        · simp only [ha, if_true]
          have hst := Heap.same_off_store P H it.item x hb.item
          obtain ⟨k1, k2⟩ := ih (it.dec s) (H.store it.item x) hb.dec
          exact ⟨fun H1 h => Heap.same_off_trans hst (k1 H1 h),
            fun e H1 h => Heap.same_off_trans hst (k2 e H1 h)⟩
        · simp only [ha]
          exact ⟨fun H1 h => (by cases h),
            fun e H1 h => (by cases h; exact Heap.same_off_refl P H)⟩
    · rw [if_neg hc]
      exact ⟨fun H1 h => (by cases h; exact Heap.same_off_refl P H),
        fun e H1 h => (by cases h)⟩

/-- The member `insert` keeps the layout, whether it returns or throws. -/
theorem insert_layout (E : Env α) (hA : ∀ k, E.alloc_ok k = true) (d : Deque α) (hi : d.Inv)
    (hl : ChunkArray.Layout d.arr d.heap) (it : BaseIterator) (val : Ref α) :
    (∀ r d1, d.insert E it val = .ok (r, d1) → ChunkArray.Layout d1.arr d1.heap) ∧
    (∀ e d1, d.insert E it val = .threw e d1 → ChunkArray.Layout d1.arr d1.heap) := by
  unfold insert
  by_cases hc : it.eq d.begin = true
  · rw [if_pos hc]
    rcases hdv : d.heap.deref val with _ | v
    · exact ⟨fun r d1 h => (by cases h), fun e d1 h => (by cases h; exact hl)⟩
    · simp only []
      have hp := push_front_layout E hA d hi hl v
      rcases hpf : d.push_front E v with d2 | ⟨e2, d2⟩
      · exact ⟨fun r d1 h => (by cases h; exact hp.1 _ hpf), fun e d1 h => (by cases h)⟩
      · exact ⟨fun r d1 h => (by cases h), fun e d1 h => (by cases h; exact hp.2 _ _ hpf)⟩
  · rw [if_neg hc]
    by_cases hc2 : it.eq d.end_ = true
    · rw [if_pos hc2]
      rcases hdv : d.heap.deref val with _ | v
      · exact ⟨fun r d1 h => (by cases h), fun e d1 h => (by cases h; exact hl)⟩
      · simp only []
        have hp := push_back_layout E hA d hi hl v
        rcases hpf : d.push_back E v with d2 | ⟨e2, d2⟩
        · exact ⟨fun r d1 h => (by cases h; exact hp.1 _ hpf), fun e d1 h => (by cases h)⟩
        · exact ⟨fun r d1 h => (by cases h), fun e d1 h => (by cases h; exact hp.2 _ _ hpf)⟩
    · rw [if_neg hc2]
      obtain ⟨dU, hU, hr, hlU⟩ := pre_back_layout E hA d hi hl
      rw [hU]
      simp only []
      have hP : ∀ i, dU.arr.cur_begin ≤ i → i ≤ dU.arr.cur_end → ∀ b,
          dU.arr.slots i = .blk b → Handle.blk b ≠ dU.arr.slots dU.arr.end_ := by
        intro i h0 h1 b hb
        rw [← hb]
        exact hr.inv.ne_sentinel i h0 h1 (by have := hr.ce_lt; omega)
      have hbe : ∀ H : Heap α, (({ dU with heap := H } : Deque α).end_).Based dU.arr.slots
          (fun b => Handle.blk b ≠ dU.arr.slots dU.arr.end_) :=
        fun H => ⟨hr.inv.cb_le, le_refl _, hr.inv.me_base, hP⟩
      have hbb : ∀ H : Heap α, (({ dU with heap := H } : Deque α).begin).Based dU.arr.slots
          (fun b => Handle.blk b ≠ dU.arr.slots dU.arr.end_) :=
        fun H => ⟨le_refl _, hr.inv.cb_le, hr.inv.mb_base, hP⟩
      have hne : dU.m_end.base ≠ dU.arr.slots dU.arr.end_ := by
        rw [hr.inv.me_base]
        exact hr.inv.ne_sentinel _ hr.inv.cb_le (le_refl _) hr.ce_lt
      rcases hb : dU.heap.read dU.back with _ | x
      · exact ⟨fun r d1 h => (by cases h), fun e d1 h => (by cases h; exact hlU)⟩
      · simp only [Heap.construct]
        by_cases hcx : E.copy_ok x = true
        · simp only [hcx, if_true]
          have hl0 : ChunkArray.Layout dU.arr (dU.heap.store dU.m_end x) := hlU.store_at _ x hne
          have hfr := insert_loop_frame E dU.arr.slots
            (fun b => Handle.blk b ≠ dU.arr.slots dU.arr.end_)
            (({ dU with heap := dU.heap.store dU.m_end x } : Deque α).begin.plus dU.arr.slots
              (BaseIterator.distance d.arr.slots it d.begin))
            (dU.m_size + 1)
            (({ dU with heap := dU.heap.store dU.m_end x } : Deque α).end_.dec dU.arr.slots)
            (dU.heap.store dU.m_end x) (hbe _).dec
          rcases hlp : insert_loop E dU.arr.slots
              (({ dU with heap := dU.heap.store dU.m_end x } : Deque α).begin.plus dU.arr.slots
                (BaseIterator.distance d.arr.slots it d.begin))
              (dU.m_size + 1)
              (({ dU with heap := dU.heap.store dU.m_end x } : Deque α).end_.dec dU.arr.slots)
              (dU.heap.store dU.m_end x) with H1 | ⟨e1, H1⟩
          · have hl1 : ChunkArray.Layout dU.arr H1 :=
              hl0.of_same_off _ (fun b hb => hb) (hfr.1 H1 hlp)
            simp only []
            rcases hdv : H1.deref val with _ | v
            · exact ⟨fun r d1 h => (by cases h), fun e d1 h => (by cases h; exact hl1)⟩
            · simp only [Heap.assign]
              by_cases hav : E.assign_ok v = true
              · simp only [hav, if_true]
                have hna : (({ dU with heap := dU.heap.store dU.m_end x } : Deque α).begin.plus
                    dU.arr.slots (BaseIterator.distance d.arr.slots it d.begin)).item.base
                    ≠ dU.arr.slots dU.arr.end_ := by
                  intro e
                  obtain ⟨bs, hbs⟩ := hlU.sent
                  exact ((hbb _).plus _).item bs (by rw [e, hbs]) hbs.symm
                have hl2 := hl1.store_at _ v hna
                have hne2 := next_end_layout E hA
                  ({ dU with heap := (H1.store
                    (({ dU with heap := dU.heap.store dU.m_end x } : Deque α).begin.plus
                      dU.arr.slots (BaseIterator.distance d.arr.slots it d.begin)).item v) })
                  hr.inv.cb_nonneg hr.inv.cb_le hr.ce_lt hl2
                rcases hne3 : next_end E
                  ({ dU with heap := (H1.store
                    (({ dU with heap := dU.heap.store dU.m_end x } : Deque α).begin.plus
                      dU.arr.slots (BaseIterator.distance d.arr.slots it d.begin)).item v) })
                  with d3 | ⟨e3, d3⟩
                · exact ⟨fun r d1 h => (by cases h; exact hne2.1 _ hne3),
                    fun e d1 h => (by cases h)⟩
                · exact ⟨fun r d1 h => (by cases h),
                    fun e d1 h => (by cases h; exact hne2.2 _ _ hne3)⟩
              · simp only [hav]
                exact ⟨fun r d1 h => (by cases h), fun e d1 h => (by cases h; exact hl1)⟩
          · have hl1 : ChunkArray.Layout dU.arr H1 :=
              hl0.of_same_off _ (fun b hb => hb) (hfr.2 e1 H1 hlp)
            exact ⟨fun r d1 h => (by cases h), fun e d1 h => (by cases h; exact hl1)⟩
        · simp only [hcx]
          exact ⟨fun r d1 h => (by cases h), fun e d1 h => (by cases h; exact hlU)⟩

end Deque

namespace ChunkArray

/-- The blocks the constructor allocates: `chunk_size` slots behind every handle before
`end`, one slot behind the handle at `end`. -/
theorem ctor_caps (E : Env α) (hA : ∀ k, E.alloc_ok k = true) (h : Heap α) (n : Nat)
    (hn : n + chunk_size - 1 < size_t_mod) :
    ∃ a h1, ctor E h n = .ok (a, h1) ∧
      ∀ k : Int, 0 ≤ k → k ≤ a.end_ →
        h1.cap (h.next + 1 + k.toNat) = if k = a.end_ then 1 else chunk_size := by
  have hsz : (n + chunk_size - 1) % size_t_mod / chunk_size = (n + 31) / 32 := by
    simp only [chunk_size_eq, size_t_mod_eq] at hn ⊢
    omega
  unfold ctor
  simp only [Heap.alloc_handles_ok E hA, hsz]
  obtain ⟨s1, h1, e1, a1, a2, a3, a4, a5, a6, a7⟩ := alloc_chunks_spec E hA ((n + 31) / 32)
    ((n + 31) / 32) 0 (fun _ => Handle.wild) { h with next := h.next + 1 } (by omega)
  dsimp only at a3 a4 a5 a6 a7
  rw [e1]
  simp only [Heap.alloc_ok E hA]
  refine ⟨_, _, rfl, ?_⟩
  intro k h0 hk1
  simp only at hk1 ⊢
  by_cases hk : k = (((n + 31) / 32 : Nat) : Int)
  · rw [if_pos hk, if_pos (by rw [a3]; omega)]
  · rw [if_neg hk, if_neg (by rw [a3]; omega)]
    exact (a5 _ (by omega) (by omega)).2

end ChunkArray

namespace Deque

/-- The constructor `BaseDeque(size_t n)` establishes the layout. -/
theorem BaseDeque_layout (E : Env α) (hA : ∀ k, E.alloc_ok k = true) (h : Heap α) (n : Nat)
    (hn : n + chunk_size - 1 < size_t_mod) (d : Deque α) (he : BaseDeque E h n = .ok d) :
    ChunkArray.Layout d.arr d.heap := by
  obtain ⟨a, h1, e1, a1, a2, a3, a4, a5, a6, a7, a8, a9⟩ := ChunkArray.ctor_spec E hA h n hn
  obtain ⟨a', h1', e1', hcap⟩ := ChunkArray.ctor_caps E hA h n hn
  rw [e1] at e1'
  cases e1'
  unfold BaseDeque at he
  rw [e1] at he
  simp only [] at he
  cases he
  refine ⟨?_, ?_, ?_, ?_, ?_, ?_⟩
  · simp only; omega
  · intro i j b hi0 hi1 hj0 hj1 hi hj
    simp only at hi0 hi1 hj0 hj1 hi hj
    rw [a4 i hi0 hi1] at hi
    rw [a4 j hj0 hj1] at hj
    cases hi
    simp only [Handle.blk.injEq] at hj
    omega
  · intro i h0 h1'
    simp only at h0 h1' ⊢
    exact Or.inr ⟨_, a4 i h0 h1', by omega⟩
  · simp only; exact ⟨_, a4 _ (by omega) (le_refl _)⟩
  · intro i b h0 h1' hb
    simp only at h0 h1' hb ⊢
    rw [a4 i h0 h1'] at hb
    cases hb
    exact hcap i h0 h1'
  · intro p hp
    simp only at hp ⊢
    rw [a4 _ (by omega) (le_refl _)] at hp
    rw [Heap.read_blk _ _ _ hp]
    exact a7 _ (by omega) (by omega) _

/-- The loop of `Deque(size_t)` changes no block size. -/
theorem default_loop_cap (E : Env α) (s : Int → Handle) (fin : BaseIterator) :
    ∀ (fuel k : Nat) (it : BaseIterator) (H H1 : Heap α),
      default_loop E s fin fuel k it H = .ok H1 → H1.cap = H.cap := by
  intro fuel
  induction fuel with
  | zero => intro k it H H1 h; simp [default_loop] at h
  | succ n ih =>
    intro k it H H1 h
    unfold default_loop at h
    split_ifs at h with hc hd
    · rw [ih _ _ _ _ h, Heap.store_cap]
    · cases h
      rfl

/-- The loop of `std::uninitialized_fill` changes no block size. -/
theorem fill_loop_cap (E : Env α) (s : Int → Handle) (fin : BaseIterator) (val : α) :
    ∀ (fuel : Nat) (it : BaseIterator) (H H1 : Heap α),
      fill_loop E s fin val fuel it H = .ok H1 → H1.cap = H.cap := by
  intro fuel
  induction fuel with
  | zero => intro it H H1 h; simp [fill_loop] at h
  | succ n ih =>
    intro it H H1 h
    unfold fill_loop at h
    simp only [Heap.construct] at h
    split_ifs at h with hc hd
    · rw [ih _ _ _ h, Heap.store_cap]
    · cases h
      rfl

/-- A heap that differs from the one of a laid out object only in the slots of its
elements keeps the layout. -/
theorem Shape.layout_of_fill {d : Deque α} (hs : d.Shape)
    (hl : ChunkArray.Layout d.arr d.heap) (H1 : Heap α) (hn : H1.next = d.heap.next) (hc : H1.cap = d.heap.cap)
    (hf : ∀ p, (∀ j : Int, 0 ≤ j → j < d.m_size → p ≠ d.slot j) → H1.read p = d.heap.read p) :
    ChunkArray.Layout d.arr H1 := by
  refine hl.heap_ext H1 (by rw [hn]) (fun b _ => by rw [hc]) ?_
  intro p hp
  left
  exact hf p (fun j hj0 hj1 => hs.slot_ne_sentinel j hj0 hj1 p hp)

theorem ctor_n_val_layout (E : Env α) (hA : ∀ k, E.alloc_ok k = true) (h : Heap α) (n : Nat)
    (val : α) (hn : n + chunk_size - 1 < size_t_mod) (d : Deque α)
    (he : ctor_n_val E h n val = .ok d) : ChunkArray.Layout d.arr d.heap := by
  obtain ⟨d0, e0, hs, hsz, _, _, _, _, _, _⟩ := BaseDeque_spec E hA h n hn
  have hl0 := BaseDeque_layout E hA h n hn d0 e0
  unfold ctor_n_val at he
  rw [e0] at he
  simp only [] at he
  rw [hs.shape_begin_eq val, hs.shape_end_eq val, ← hsz] at he
  rcases hl : fill_loop E d0.arr.slots (d0.iter_at d0.m_size) val (d0.m_size + 1) (d0.iter_at 0)
    d0.heap with H1 | ⟨e, it, H1⟩
  · rw [hl] at he
    simp only [Res.ok.injEq] at he
    obtain ⟨n1, _, _, _, f1⟩ := fill_loop_ok E d0 hs val _ 0 _ H1 (le_refl _) (by omega) hl
    have c1 := fill_loop_cap E _ _ val _ _ _ H1 hl
    rw [← he]
    exact hs.layout_of_fill hl0 H1 n1 c1 f1
  · rw [hl] at he
    simp only [] at he
    split at he <;> cases he

theorem ctor_n_layout (E : Env α) (hA : ∀ k, E.alloc_ok k = true) (h : Heap α) (n : Nat)
    (hn : n + chunk_size - 1 < size_t_mod) (d : Deque α)
    (he : ctor_n E h n = .ok d) : ChunkArray.Layout d.arr d.heap := by
  obtain ⟨d0, e0, hs, hsz, _, _, _, _, _, _⟩ := BaseDeque_spec E hA h n hn
  have hl0 := BaseDeque_layout E hA h n hn d0 e0
  unfold ctor_n at he
  rw [e0] at he
  simp only [] at he
  rw [hs.shape_begin_eq E.dflt, hs.shape_end_eq E.dflt, ← hsz] at he
  rcases hl : default_loop E d0.arr.slots (d0.iter_at d0.m_size) (d0.m_size + 1) 0
    (d0.iter_at 0) d0.heap with H1 | ⟨e, it, H1⟩
  · rw [hl] at he
    simp only [Res.ok.injEq] at he
    obtain ⟨n1, _, _, _, f1⟩ := default_loop_ok E d0 hs _ 0 0 _ H1 (le_refl _) (by omega) hl
    have c1 := default_loop_cap E _ _ _ _ _ _ H1 hl
    rw [← he]
    exact hs.layout_of_fill hl0 H1 n1 c1 f1
  · rw [hl] at he
    simp only [] at he
    split at he <;> cases he

theorem ctor_default_layout (E : Env α) (hA : ∀ k, E.alloc_ok k = true) (h : Heap α)
    (d : Deque α) (he : ctor_default E h = .ok d) : ChunkArray.Layout d.arr d.heap :=
  BaseDeque_layout E hA h 0 (by simp [size_t_mod_eq]) d he

theorem ctor_copy_layout (E : Env α) (hA : ∀ k, E.alloc_ok k = true) (src : Deque α)
    (hsrc : src.Inv) (hn : src.m_size + chunk_size - 1 < size_t_mod) (d : Deque α)
    (he : ctor_copy E src = .ok d) : ChunkArray.Layout d.arr d.heap := by
  obtain ⟨d0, e0, hs, hsz, hfresh, hnx, hold, _, _, _⟩ :=
    BaseDeque_spec E hA src.heap src.m_size hn
  have hl0 := BaseDeque_layout E hA src.heap src.m_size hn d0 e0
  unfold ctor_copy at he
  simp only [Deque.size] at he
  rw [e0] at he
  simp only [] at he
  rcases hl : copy_loop E src.arr.slots d0.arr.slots src.end_ (src.m_size + 1) src.begin
    d0.begin d0.heap with H1 | ⟨e, it, H1⟩
  · rw [hl] at he
    simp only [Res.ok.injEq] at he
    have hl' := hl
    rw [hsrc.begin_eq, hsrc.end_eq, hs.shape_begin_eq E.dflt] at hl'
    have hdis : ∀ j k : Int, 0 ≤ j → j < d0.m_size → 0 ≤ k → k < d0.m_size →
        d0.slot j ≠ src.slot k := by
      intro j k hj0 hj1 hk0 hk1 e
      obtain ⟨i0, i1⟩ := hs.slot_index j hj0 (by omega)
      obtain ⟨b, hb, _⟩ := hs.shape_slot_blk E.dflt j hj0 (by omega)
      have h1 := hfresh _ b i0 i1 hb
      obtain ⟨b', hb', hlt'⟩ := hsrc.slot_blk' k hk0 (by omega)
      rw [e, hb'] at hb
      cases hb
      omega
    obtain ⟨n1, c1, _, f1⟩ := copy_loop_ok E src d0 hsrc hs hsz hdis _ 0 _ H1 (le_refl _)
      (by omega) hl'
    rw [← he]
    exact hs.layout_of_fill hl0 H1 n1 c1 f1
  · rw [hl] at he
    simp only [] at he
    split at he <;> cases he

/-- The copy assignment keeps the layout, whether it returns or throws. -/
theorem assign_layout (E : Env α) (hA : ∀ k, E.alloc_ok k = true) (d other : Deque α)
    (hd : d.Inv) (ho : other.Inv) (hh : d.heap = other.heap)
    (hn : other.m_size + chunk_size - 1 < size_t_mod) (hl : ChunkArray.Layout d.arr d.heap) :
    (∀ d1, assign_op E d other = .ok d1 → ChunkArray.Layout d1.arr d1.heap) ∧
    (∀ e d1, assign_op E d other = .threw e d1 → ChunkArray.Layout d1.arr d1.heap) := by
  have hoe : ({ other with heap := d.heap } : Deque α) = other := by rw [hh]
  obtain ⟨hok, hth⟩ := ctor_copy_spec E hA other ho hn
  unfold assign_op
  rw [hoe]
  rcases hc : ctor_copy E other with copy | ⟨e, h1⟩
  · simp only [swap, ChunkArray.swap]
    obtain ⟨hci, hcs, hcr, hcn, hcm, hcfresh⟩ := hok copy hc
    have hlc := ctor_copy_layout E hA other ho hn copy hc
    rcases hdt : dtor (⟨d.arr, d.m_size, d.m_begin, d.m_end, copy.heap⟩ : Deque α)
      with e1 | H
    · simp only []
      exact ⟨fun d1 h => (by cases h), fun e d1 h => (by cases h; exact hlc)⟩
    · simp only []
      constructor
      · intro d1 h
        cases h
        unfold dtor at hdt
        change (match destroy_range d.arr.slots d.end_ (d.m_size + 1) d.begin copy.heap with
          | .error e => Except.error e
          | .ok h => Except.ok (ChunkArray_dtor d.arr h)) = Except.ok H at hdt
        rcases hdr : destroy_range d.arr.slots d.end_ (d.m_size + 1) d.begin copy.heap
          with e2 | H2
        · simp only [hdr] at hdt
          cases hdt
        · simp only [hdr] at hdt
          cases hdt
          have hb := hd.begin_based
          have hso := destroy_range_frame d.arr.slots (fun b => b < d.heap.next) _ _ _ _ H2
            hb hdr
          obtain ⟨a1, a2, a3, _⟩ := ChunkArray_dtor_same d.arr H2
          refine hlc.heap_ext _ (by rw [a1, hso.1]) (fun b _ => by rw [a2, hso.2.1]) ?_
          intro p hp
          left
          obtain ⟨bs, hbs⟩ := hlc.sent
          have hpb : p.base = .blk bs := by rw [hp, hbs]
          have hlt := hcfresh copy.arr.end_ bs hlc.end_nonneg (le_refl _) hbs
          rw [Heap.read_blk _ _ bs hpb, Heap.read_blk _ _ bs hpb, a3,
            hso.2.2 bs (by rw [hh]; omega)]
      · intro e d1 h; cases h
  · simp only []
    obtain ⟨hnx, hm⟩ := hth e h1 hc
    constructor
    · intro d1 h; cases h
    · intro e d1 h
      cases h
      rw [← hh] at hnx hm
      refine hl.heap_ext h1 hnx (fun b hb => (hm b hb).2) ?_
      intro p hp
      left
      obtain ⟨bs, hbs⟩ := hl.sent
      have hpb : p.base = .blk bs := by rw [hp, hbs]
      rcases hl.own d.arr.end_ hl.end_nonneg (le_refl _) with hnull | ⟨b', hb', hlt⟩
      · rw [hnull] at hbs; cases hbs
      · rw [hbs] at hb'
        cases hb'
        rw [Heap.read_blk _ _ bs hpb, Heap.read_blk _ _ bs hpb, (hm bs hlt).1]

/-- The layout survives what the rest of the program may do to the heap. -/
theorem layout_frame {d : Deque α} (hl : ChunkArray.Layout d.arr d.heap) (H : Heap α)
    (hf : d.frames H) : ChunkArray.Layout d.arr H := by
  obtain ⟨hn, hk⟩ := hf
  refine ⟨hl.end_nonneg, hl.inj, ?_, hl.sent, ?_, ?_⟩
  · intro i h0 h1
    rcases hl.own i h0 h1 with hnull | ⟨b, hb, hlt⟩
    · exact Or.inl hnull
    · exact Or.inr ⟨b, hb, by omega⟩
  · intro i b h0 h1 hb
    rw [(hk i b h0 h1 hb).2]
    exact hl.caps i b h0 h1 hb
  · intro p hp
    obtain ⟨bs, hbs⟩ := hl.sent
    have hpb : p.base = .blk bs := by rw [hp, hbs]
    have hr := hl.raw p hp
    rw [Heap.read_blk _ _ bs hpb] at hr ⊢
    rw [(hk d.arr.end_ bs hl.end_nonneg (le_refl _) hbs).1]
    exact hr

/-- Every reachable state has the layout, as long as no allocation fails. -/
theorem Reachable.layout {E : Env α} (hA : ∀ k, E.alloc_ok k = true) {d : Deque α}
    (hr : Reachable E d) : ChunkArray.Layout d.arr d.heap := by
  induction hr with
  | ctor_default h d he => exact ctor_default_layout E hA h d he
  | ctor_n h n d hn he => exact ctor_n_layout E hA h n hn d he
  | ctor_n_val h n val d hn he => exact ctor_n_val_layout E hA h n val hn d he
  | ctor_copy copy d hc hn he _ => exact ctor_copy_layout E hA copy (hc.inv hA) hn d he
  | frame d h _ hf ih => exact layout_frame ih h hf
  | swap_left d tmp _ _ hh _ ih2 =>
    have : (d.swap tmp).1 = tmp := by
      unfold swap ChunkArray.swap
      cases tmp
      simp only at hh
      simp [hh]
    rw [this]; exact ih2
  | swap_right d tmp _ _ hh ih1 _ =>
    have : (d.swap tmp).2 = d := by
      unfold swap ChunkArray.swap
      cases d
      simp only at hh
      simp [hh]
    rw [this]; exact ih1
  | assign_ok d other d1 h1 h2 hh hn he ih1 _ =>
    exact (assign_layout E hA d other (h1.inv hA) (h2.inv hA) hh hn ih1).1 d1 he
  | assign_threw d other d1 e h1 h2 hh hn he ih1 _ =>
    exact (assign_layout E hA d other (h1.inv hA) (h2.inv hA) hh hn ih1).2 e d1 he
  | push_back_ok d d1 val h1 he ih =>
    exact (push_back_layout E hA d (h1.inv hA) ih val).1 d1 he
  | push_back_threw d d1 val e h1 he ih =>
    exact (push_back_layout E hA d (h1.inv hA) ih val).2 e d1 he
  | push_front_ok d d1 val h1 he ih =>
    exact (push_front_layout E hA d (h1.inv hA) ih val).1 d1 he
  | push_front_threw d d1 val e h1 he ih =>
    exact (push_front_layout E hA d (h1.inv hA) ih val).2 e d1 he
  | pop_back d _ _ ih => exact pop_back_layout d ih
  | pop_front d _ _ ih => exact pop_front_layout d ih
  | insert_ok d d1 k val r h1 _ he ih =>
    exact (insert_layout E hA d (h1.inv hA) ih _ val).1 r d1 he
  | insert_threw d d1 k val e h1 _ he ih =>
    exact (insert_layout E hA d (h1.inv hA) ih _ val).2 e d1 he
  | erase_ok d d1 k r h1 hk he ih => exact (erase_layout E d (h1.inv hA) ih k hk).1 r d1 he
  | erase_threw d d1 k e h1 hk he ih => exact (erase_layout E d (h1.inv hA) ih k hk).2 e d1 he

/-- C25 (amended): in every reachable state (all allocations succeeding), every non-null
handle held by the chunk map in `[begin, end]` is the address of an allocated block;
for a handle before `end` that block has exactly `chunk_size = 32` element slots, and
for the handle at `end` it has exactly one element slot. -/
theorem handle_block_sizes (E : Env α) (hA : ∀ k, E.alloc_ok k = true) (d : Deque α)
    (hr : Reachable E d) :
    ∀ i : Int, d.arr.begin ≤ i → i ≤ d.arr.end_ → (d.arr.slots i).is_null = false →
      ∃ b, d.arr.slots i = .blk b ∧ b < d.heap.next ∧
        d.heap.cap b = if i = d.arr.end_ then 1 else chunk_size := by
  have hl := hr.layout hA
  intro i h0 h1 hn
  rcases hl.own i h0 h1 with hnull | ⟨b, hb, hlt⟩
  · rw [hnull] at hn
    simp at hn
  · exact ⟨b, hb, hlt, hl.caps i b h0 h1 hb⟩

/-- C28: in every reachable state (all allocations succeeding, the size fitting
`size_t`), the one-element block held at the handle `end` holds no constructed element
at any offset, and no slot that `operator[]` reaches for an index below `size()` lies in
it; whenever `cur_end == end` the marker `m_end` is offset 0 of that block.  The
statement `if (arr.cur_end == arr.end) update();` with which `push_back` and the
interior branch of `insert` start returns a state in which `cur_end < end` and `m_end`
lies in a block of `chunk_size` slots other than the one-element block, at offset 0 of
it when `update()` was called; `push_back` and the interior branch of `insert` go on from
that state, and construct at its `m_end`; the argument of `insert` is read only after
that. -/
theorem sentinel_block_stays_raw (E : Env α) (hA : ∀ k, E.alloc_ok k = true) (d : Deque α)
    (hr : Reachable E d) (hfit : d.size + chunk_size ≤ size_t_mod) :
    (∀ p : Ptr, p.base = d.arr.slots d.arr.end_ → d.heap.read p = none) ∧
    (∀ i : Nat, i < d.size → (d.subscript i).base ≠ d.arr.slots d.arr.end_ ∧
      ∃ x, d.heap.read (d.subscript i) = some x) ∧
    (d.arr.cur_end = d.arr.end_ → d.m_end = (d.arr.slots d.arr.end_).plus 0) ∧
    (∃ d1, (if d.arr.cur_end = d.arr.end_ then d.update E else .ok d) = .ok d1 ∧
      d1.arr.cur_end < d1.arr.end_ ∧
      (∃ b, d1.m_end.base = .blk b ∧ d1.arr.slots d1.arr.cur_end = .blk b ∧
        Handle.blk b ≠ d1.arr.slots d1.arr.end_ ∧ d1.heap.cap b = chunk_size) ∧
      0 ≤ d1.m_end.off ∧ d1.m_end.off < chunk_size ∧
      (d.arr.cur_end = d.arr.end_ → d1.m_end.off = 0) ∧
      (∀ v, d.push_back E v =
        match d1.heap.construct E d1.m_end v with
        | .error e => .threw e d1
        | .ok h => next_end E { d1 with heap := h }) ∧
      (∀ it val, it.eq d.begin = false → it.eq d.end_ = false →
        d.insert E it val =
          match d1.heap.read d1.back with
          | none => .threw .raw_read d1
          | some x =>
            match d1.heap.construct E d1.m_end x with
            | .error e => .threw e d1
            | .ok h =>
              let d2 := { d1 with heap := h }
              let ans := d2.begin.plus d2.arr.slots
                (BaseIterator.distance d.arr.slots it d.begin)
              match insert_loop E d2.arr.slots ans (d2.m_size + 1)
                  (d2.end_.dec d2.arr.slots) d2.heap with
              | .threw e h1 => .threw e { d2 with heap := h1 }
              | .ok h1 =>
                match h1.deref val with
                | none => .threw .raw_read { d2 with heap := h1 }
                | some v =>
                  match h1.assign E ans.item v with
                  | .error e => .threw e { d2 with heap := h1 }
                  | .ok h2 =>
                    match next_end E { d2 with heap := h2 } with
                    | .threw e st => .threw e st
                    | .ok d3 => .ok (ans, d3))) := by
  have hi := hr.inv hA
  have hl := hr.layout hA
  simp only [Deque.size] at hfit ⊢
  refine ⟨hl.raw, ?_, ?_, ?_⟩
  · intro i hlt
    rw [subscript_eq_slot d hi i (by omega)]
    constructor
    · intro e
      exact hi.shape.slot_ne_sentinel i (by omega) (by exact_mod_cast hlt) (d.slot i) e rfl
    · exact hi.live i hlt
  · intro hc
    exact hi.m_end_sentinel_iff.2 hc
  · obtain ⟨d1, e1, hrd, hl1⟩ := pre_back_layout E hA d hi hl
    have hce := hrd.ce_lt
    obtain ⟨b, hb⟩ := hrd.inv.win d1.arr.cur_end hrd.inv.cb_le (le_refl _)
    have hoff : d.arr.cur_end = d.arr.end_ → d1.m_end.off = 0 := by
      intro hc
      obtain ⟨d2, e2, hm⟩ := update_spec E hA d hi (Or.inr hc)
      rw [if_pos hc, e2] at e1
      cases e1
      rw [hm.oe]
      exact hi.me_sentinel hc
    refine ⟨d1, e1, hce, ⟨b, by rw [hrd.inv.me_base, hb], hb, ?_, ?_⟩, hrd.inv.me_off.1,
      hrd.inv.me_off.2, hoff, ?_, ?_⟩
    · rw [← hb]
      exact hrd.inv.ne_sentinel _ hrd.inv.cb_le (le_refl _) hce
    · rw [hl1.caps d1.arr.cur_end b (by have := hrd.inv.cb_nonneg; have := hrd.inv.cb_le; omega)
        (by omega) hb, if_neg (by omega)]
    · intro v
      unfold push_back
      simp only [e1]
    · intro it val hb he
      unfold insert
      simp only [hb, he, Bool.false_eq_true, if_false]
      simp only [e1]

end Deque

/-- C25, as stated, fails: the container `Deque<Nat>()` is reachable, and the handle it
holds at `end` is the address of block 1, which has one element slot, not 32. -/
theorem sentinel_block_has_one_slot :
    Deque.Reachable demo_env (demo_empty demo_env) ∧
    (demo_empty demo_env).arr.slots (demo_empty demo_env).arr.end_ = .blk 1 ∧
    (demo_empty demo_env).heap.cap 1 = 1 ∧
    ¬ (∀ i : Int, (demo_empty demo_env).arr.begin ≤ i → i ≤ (demo_empty demo_env).arr.end_ →
        ((demo_empty demo_env).arr.slots i).is_null = false →
        ∃ b, (demo_empty demo_env).arr.slots i = .blk b ∧
          (demo_empty demo_env).heap.cap b = chunk_size) := by
  refine ⟨demo_empty_reachable demo_env (fun _ => rfl), rfl, rfl, ?_⟩
  intro h
  obtain ⟨b, hb, hc⟩ := h 0 (by decide) (by decide) rfl
  have hb1 : b = 1 := by
    have e : (demo_empty demo_env).arr.slots 0 = .blk 1 := rfl
    rw [e] at hb
    cases hb
    rfl
  rw [hb1] at hc
  have e1 : (demo_empty demo_env).heap.cap 1 = 1 := rfl
  rw [e1] at hc
  exact absurd hc (by decide)

theorem handle_block_sizes_witness :
    ∃ b, demo_three.arr.slots demo_three.arr.end_ = .blk b ∧ b < demo_three.heap.next ∧
      demo_three.heap.cap b
        = if demo_three.arr.end_ = demo_three.arr.end_ then 1 else chunk_size :=
  Deque.handle_block_sizes demo_env (fun _ => rfl) demo_three demo_three_reachable
    demo_three.arr.end_ (by decide) (le_refl _) (by decide)

theorem demo_full_reachable : Deque.Reachable demo_env demo_full :=
  demo_fill_reachable demo_env (fun _ => rfl) (fun _ => rfl) 64 _
    (Deque.Reachable.ctor_default demo_heap _ rfl)

theorem sentinel_block_stays_raw_witness :
    demo_full.arr.cur_end = demo_full.arr.end_ ∧
    (∀ p : Ptr, p.base = demo_full.arr.slots demo_full.arr.end_ →
      demo_full.heap.read p = none) ∧
    (∀ i : Nat, i < demo_full.size →
      (demo_full.subscript i).base ≠ demo_full.arr.slots demo_full.arr.end_ ∧
      ∃ x, demo_full.heap.read (demo_full.subscript i) = some x) ∧
    (demo_full.arr.cur_end = demo_full.arr.end_ →
      demo_full.m_end = (demo_full.arr.slots demo_full.arr.end_).plus 0) :=
  have h := Deque.sentinel_block_stays_raw demo_env (fun _ => rfl) demo_full
    demo_full_reachable (by decide)
  ⟨by decide, h.1, h.2.1, h.2.2.1⟩

/-- C8: `insert` reads its argument after it has moved the elements.  On the reachable
container `[2, 1, 0]`, the call `insert(begin() + 1, back())` is handed a reference to
the last element, which reads `0`; it returns with the element sequence `[2, 1, 1, 0]`
and an iterator that points to `1`, where the claim requires `[2, 0, 1, 0]` and `0`.
The branch for `begin()` reads the argument before it writes any element:
`insert(begin(), back())` gives `[0, 2, 1, 0]`. -/
theorem insert_reads_argument_after_shift :
    Deque.Reachable demo_env demo_three ∧
    demo_three.elems = [some 2, some 1, some 0] ∧
    demo_three.heap.deref (.slot demo_three.back) = some 0 ∧
    (∃ r d1, demo_three.insert demo_env (demo_three.begin.plus demo_three.arr.slots (1 : Nat))
        (.slot demo_three.back) = .ok (r, d1) ∧
      d1.elems = [some 2, some 1, some 1, some 0] ∧ d1.heap.read r.item = some 1 ∧
      BaseIterator.distance d1.arr.slots r d1.begin = 1) ∧
    [some 2, some 1, some 1, some 0] ≠ ([2, 1, 0].take 1 ++ [0] ++ [2, 1, 0].drop 1).map some ∧
    (∃ r d1, demo_three.insert demo_env demo_three.begin (.slot demo_three.back)
        = .ok (r, d1) ∧
      d1.elems = [some 0, some 2, some 1, some 0]) :=
  ⟨demo_three_reachable, rfl, rfl, ⟨_, _, rfl, rfl, rfl, rfl⟩, by decide, ⟨_, _, rfl, rfl⟩⟩
